import Mathlib

/-!
# Protean VFS server: path sandbox and path-lock coordinator

A shallow embedding of `apps/vfs-server/internal/fsops` (`pathsec.go`, `locker.go`)
and of the parts of the handlers and middleware that feed it.

Go strings are modelled as lists of Unicode code points (`List Char`); the
functions of Go's `strings` and `path/filepath` packages that the code calls
are transcribed for Unix (`Separator = '/'`, no volume names).
-/

namespace Protean

/-- A Go string, as the list of its code points. -/
abbrev Path := List Char

/-! ## `strings` -/

/-- The predicate `unicode.IsSpace`. -/
def isSpace (c : Char) : Bool :=
  c = '\t' || c = '\n' || c = Char.ofNat 0x0B || c = Char.ofNat 0x0C || c = '\r' || c = ' ' ||
  c = Char.ofNat 0x85 || c = Char.ofNat 0xA0 || c = Char.ofNat 0x1680 ||
  (0x2000 ≤ c.toNat && c.toNat ≤ 0x200A) ||
  c = Char.ofNat 0x2028 || c = Char.ofNat 0x2029 || c = Char.ofNat 0x202F ||
  c = Char.ofNat 0x205F || c = Char.ofNat 0x3000

/-- The function `strings.TrimSpace`: drops leading and trailing white space. -/
def TrimSpace (s : Path) : Path :=
  ((s.dropWhile isSpace).reverse.dropWhile isSpace).reverse

/-- The function `strings.HasPrefix`. -/
def HasPrefix (s pre : Path) : Bool :=
  pre.isPrefixOf s

/-- The function `strings.TrimPrefix`: removes `pre` once when `s` starts with it. -/
def TrimPrefix (s pre : Path) : Path :=
  if HasPrefix s pre then s.drop pre.length else s

/-- The function `strings.Join`. -/
def stringsJoin (elems : List Path) (sep : Path) : Path :=
  sep.intercalate elems

/-- The function `strings.Count` for a one-character separator. -/
def countSep (s : Path) : Nat :=
  s.count '/'

/-! ## `path/filepath` (Unix) -/

/-- The function `filepath.IsAbs` on Unix. -/
def IsAbs (p : Path) : Bool :=
  HasPrefix p ['/']

/-- The backtracking of `Clean` at a `..` element, on the reversed output buffer:
`out.w--`, then `out.w--` while `out.w > dotdot` and the byte at `out.w` is no separator. -/
def backtrack (dotdot : Nat) : Path → Path
  | [] => []
  | c :: rest => if dotdot < rest.length ∧ c ≠ '/' then backtrack dotdot rest else rest

/-- The main loop of `filepath.Clean`: `rest` is `path[r:]`, `out` the output buffer
`buf[:w]`, `dotdot` the index where `..` must stop. The fuel bounds the iterations. -/
def cleanLoop (rooted : Bool) : Nat → Path → Path → Nat → Path
  | 0, _, out, _ => out
  | _ + 1, [], out, _ => out
  | n + 1, c :: rest, out, dotdot =>
    if c = '/' then
      cleanLoop rooted n rest out dotdot
    else if c = '.' ∧ (rest = [] ∨ rest.head? = some '/') then
      cleanLoop rooted n rest out dotdot
    else if c = '.' ∧ rest.head? = some '.' ∧
        (rest.tail = [] ∨ rest.tail.head? = some '/') then
      if dotdot < out.length then
        cleanLoop rooted n rest.tail (backtrack dotdot out.reverse).reverse dotdot
      else if !rooted then
        let out1 := (if 0 < out.length then out ++ ['/'] else out) ++ ['.', '.']
        cleanLoop rooted n rest.tail out1 out1.length
      else
        cleanLoop rooted n rest.tail out dotdot
    else
      let out1 :=
        if (rooted && out.length != 1) || (!rooted && out.length != 0) then out ++ ['/'] else out
      cleanLoop rooted n ((c :: rest).dropWhile (· ≠ '/'))
        (out1 ++ (c :: rest).takeWhile (· ≠ '/')) dotdot

/-- The function `filepath.Clean`. -/
def Clean (path : Path) : Path :=
  if path = [] then ['.']
  else
    let rooted := path.head? = some '/'
    let out :=
      if rooted then cleanLoop true (path.length + 1) path.tail ['/'] 1
      else cleanLoop false (path.length + 1) path [] 0
    if out = [] then ['.'] else out

/-- The function `filepath.Join`: the first non-empty element on, joined and cleaned. -/
def Join : List Path → Path
  | [] => []
  | e :: es => if e ≠ [] then Clean (stringsJoin (e :: es) ['/']) else Join es

/-- The element-matching loop of `filepath.Rel`: `b` is `base[b0:]` and `t` is `targ[t0:]`
at the loop head (where `bi = b0`, `ti = t0`). Returns `base[b0:]`, `base[b0:bi]` and
`targ[t0:]` at loop exit. -/
def relLoop : Nat → Path → Path → Path × Path × Path
  | 0, b, t => (b, [], t)
  | n + 1, b, t =>
    if b ≠ [] ∧ t ≠ [] then
      let wb := b.takeWhile (· ≠ '/')
      let wt := t.takeWhile (· ≠ '/')
      if wt ≠ wb then (b, wb, t)
      else
        let b1 := b.dropWhile (· ≠ '/')
        let t1 := t.dropWhile (· ≠ '/')
        relLoop n (if b1 ≠ [] then b1.tail else b1) (if t1 ≠ [] then t1.tail else t1)
    else (b, [], t)

/-- The function `filepath.Rel`; `none` is its error result. -/
def Rel (basepath targpath : Path) : Option Path :=
  let base := Clean basepath
  let targ := Clean targpath
  if targ = base then some ['.']
  else
    let base := if base = ['.'] then [] else base
    let baseSlashed := base.head? = some '/'
    let targSlashed := targ.head? = some '/'
    if baseSlashed ≠ targSlashed then none
    else
      let (b, w, t) := relLoop (base.length + 1) base targ
      if w = ['.', '.'] then none
      else if b ≠ [] then
        let ups := ['.', '.'] ++ (List.replicate (countSep b) ['/', '.', '.']).flatten
        some (if t ≠ [] then ups ++ '/' :: t else ups)
      else some t

/-- The function `filepath.Abs` on Unix; `wd` is the result of `os.Getwd`
(`none` when it fails). -/
def Abs (wd : Option Path) (path : Path) : Option Path :=
  if IsAbs path then some (Clean path)
  else
    match wd with
    | none => none
    | some d => some (Join [d, path])

/-! ## `fsops/pathsec.go` -/

/-- The function `ResolveWithinRoot`; `none` is the "escapes workspace root" error. -/
def ResolveWithinRoot (root inputPath : Path) : Option Path :=
  let sanitized := TrimSpace inputPath
  let relativeInput := TrimPrefix sanitized ['/']
  let candidate := Clean (Join [root, relativeInput])
  match Rel root candidate with
  | none => none
  | some rel =>
    if rel = ['.', '.'] ∨ HasPrefix rel ['.', '.', '/'] then none
    else some candidate

/-! ## `fsops/locker.go` -/

/-- A Go `map[string]int`: an association list holding each present key once. -/
abbrev LockMap := List (Path × Int)

/-- The keys present in the map (what `range` iterates over). -/
def LockMap.keys (m : LockMap) : List Path :=
  m.map Prod.fst

/-- The map read `m[k]`: the zero value when `k` is absent. -/
def LockMap.get (m : LockMap) (k : Path) : Int :=
  (m.lookup k).getD 0

/-- The builtin `delete(m, k)`. -/
def LockMap.delete (m : LockMap) (k : Path) : LockMap :=
  m.filter fun e => e.1 ≠ k

/-- The map write `m[k] = v`. -/
def LockMap.set (m : LockMap) (k : Path) (v : Int) : LockMap :=
  (k, v) :: m.delete k

/-- The statement `m[k]++`. -/
def LockMap.incr (m : LockMap) (k : Path) : LockMap :=
  m.set k (m.get k + 1)

/-- The statements `m[k]--; if m[k] == 0 { delete(m, k) }` of the unlock closures. -/
def LockMap.decr (m : LockMap) (k : Path) : LockMap :=
  let m1 := m.set k (m.get k - 1)
  if m1.get k = 0 then m1.delete k else m1

/-- The state of a `PathLocker` that its mutex protects. -/
structure PathLocker where
  exactLocks : LockMap
  subtreeLocks : LockMap
deriving DecidableEq, Repr

/-- The constructor `NewPathLocker`: both maps empty. -/
def NewPathLocker : PathLocker :=
  { exactLocks := [], subtreeLocks := [] }

/-- The function `canonicalPath`; `wd` is the result of `os.Getwd` inside `filepath.Abs`. -/
def canonicalPath (wd : Option Path) (path : Path) : Path :=
  let cleaned := Clean path
  match Abs wd cleaned with
  | none => cleaned
  | some absolute => Clean absolute

/-- The function `normalizeLockPaths`: canonical keys, deduplicated through the `uniq`
map and sorted ascending by `sort.Strings` (lexicographic; on valid UTF-8 the order of
bytes is the order of code points). -/
def normalizeLockPaths (wd : Option Path) (paths : List Path) : List Path :=
  if paths = [] then []
  else ((paths.map (canonicalPath wd)).dedup).insertionSort (· ≤ ·)

/-- The function `isSameOrDescendant`. -/
def isSameOrDescendant (path root : Path) : Bool :=
  match Rel root path with
  | none => false
  | some rel => rel = ['.'] || (rel ≠ ['.', '.'] && !HasPrefix rel ['.', '.', '/'])

/-- The function `overlapsSubtree`. -/
def overlapsSubtree (a b : Path) : Bool :=
  isSameOrDescendant a b || isSameOrDescendant b a

/-- The method `canAcquireExact`. -/
def PathLocker.canAcquireExact (pl : PathLocker) : List Path → Bool
  | [] => true
  | path :: rest =>
    if 0 < pl.exactLocks.get path then false
    else if pl.subtreeLocks.keys.any fun activeSubtree => isSameOrDescendant path activeSubtree
    then false
    else pl.canAcquireExact rest

/-- The method `canAcquireSubtree`. -/
def PathLocker.canAcquireSubtree (pl : PathLocker) : List Path → Bool
  | [] => true
  | path :: rest =>
    if pl.exactLocks.keys.any fun activeExact => isSameOrDescendant activeExact path then false
    else if pl.subtreeLocks.keys.any fun activeSubtree => overlapsSubtree path activeSubtree
    then false
    else pl.canAcquireSubtree rest

/-- The two lock shapes: `LockExact` and `LockSubtree`. -/
inductive LockMode where
  | exact
  | subtree
deriving DecidableEq, Repr

/-- The wait-loop predicate of `LockExact` / `LockSubtree`. -/
def PathLocker.canAcquire (pl : PathLocker) : LockMode → List Path → Bool
  | .exact, keys => pl.canAcquireExact keys
  | .subtree, keys => pl.canAcquireSubtree keys

/-- The loop `for _, key := range keys { locks[key]++ }` that follows the wait loop. -/
def PathLocker.acquire (pl : PathLocker) : LockMode → List Path → PathLocker
  | .exact, keys => { pl with exactLocks := keys.foldl LockMap.incr pl.exactLocks }
  | .subtree, keys => { pl with subtreeLocks := keys.foldl LockMap.incr pl.subtreeLocks }

/-- The body of the unlock closure inside `once.Do`. -/
def PathLocker.release (pl : PathLocker) : LockMode → List Path → PathLocker
  | .exact, keys => { pl with exactLocks := keys.foldl LockMap.decr pl.exactLocks }
  | .subtree, keys => { pl with subtreeLocks := keys.foldl LockMap.decr pl.subtreeLocks }

/-- What a call of `LockExact` / `LockSubtree` does when it next holds the mutex. -/
inductive LockOutcome where
  /-- No keys: the call returns a no-op unlock at once and touches nothing. -/
  | noop
  /-- The predicate fails: the caller sleeps in `cond.Wait`, the maps untouched. -/
  | blocked
  /-- The predicate holds: the counts are incremented and an unlock for `keys` returned. -/
  | granted (pl : PathLocker) (keys : List Path)
deriving DecidableEq, Repr

/-- One attempt of `LockExact` (`mode = exact`) or `LockSubtree` (`mode = subtree`). -/
def PathLocker.lock (wd : Option Path) (pl : PathLocker) (mode : LockMode)
    (paths : List Path) : LockOutcome :=
  let keys := normalizeLockPaths wd paths
  if keys = [] then .noop
  else if pl.canAcquire mode keys then .granted (pl.acquire mode keys) keys
  else .blocked

/-- The method `LockExact`, one attempt. -/
def PathLocker.LockExact (wd : Option Path) (pl : PathLocker) (paths : List Path) :
    LockOutcome :=
  pl.lock wd .exact paths

/-- The method `LockSubtree`, one attempt. -/
def PathLocker.LockSubtree (wd : Option Path) (pl : PathLocker) (paths : List Path) :
    LockOutcome :=
  pl.lock wd .subtree paths

/-- The closure a lock call returns: its mode, its keys and whether its `sync.Once`
has fired. -/
structure Guard where
  mode : LockMode
  keys : List Path
  released : Bool
deriving DecidableEq, Repr

/-- A caller inside the wait loop of a lock call. -/
structure Request where
  mode : LockMode
  keys : List Path
deriving DecidableEq, Repr

/-- The coordinator with its clients: the lock maps, every guard handed out so far
(a guard is identified by its position) and the callers waiting on the condition. -/
structure Coord where
  pl : PathLocker
  guards : List Guard
  waiting : List Request
deriving DecidableEq, Repr

/-- The coordinator right after `NewPathLocker()`. -/
def Coord.init : Coord :=
  { pl := NewPathLocker, guards := [], waiting := [] }

/-- The guards whose unlock has not run yet. -/
def Coord.live (c : Coord) : List Guard :=
  c.guards.filter fun g => !g.released

/-- Calling the unlock closure of guard `i`: the first call decrements the guard's keys,
later calls do nothing (`sync.Once`). -/
def Coord.unlock (c : Coord) (i : Nat) : Coord :=
  match c.guards.get? i with
  | none => c
  | some g =>
    if g.released then c
    else
      { c with
        pl := c.pl.release g.mode g.keys
        guards := c.guards.set i { g with released := true } }

/-- The atomic steps of the coordinator, each taken under the mutex. -/
inductive Step (wd : Option Path) : Coord → Coord → Prop
  /-- A lock call with at least one key enters its wait loop. -/
  | request (c : Coord) (mode : LockMode) (paths : List Path) :
      normalizeLockPaths wd paths ≠ [] →
      Step wd c { c with waiting := c.waiting ++ [⟨mode, normalizeLockPaths wd paths⟩] }
  /-- A waiting caller finds its predicate true, increments its keys and leaves with
  a guard. -/
  | grant (c : Coord) (i : Nat) (r : Request) :
      c.waiting.get? i = some r →
      c.pl.canAcquire r.mode r.keys = true →
      Step wd c
        { pl := c.pl.acquire r.mode r.keys
          guards := c.guards ++ [⟨r.mode, r.keys, false⟩]
          waiting := c.waiting.eraseIdx i }
  /-- Some unlock closure is called. -/
  | unlock (c : Coord) (i : Nat) :
      Step wd c (c.unlock i)

/-- The states reachable from `NewPathLocker()`. -/
inductive Reachable (wd : Option Path) : Coord → Prop
  | init : Reachable wd Coord.init
  | step {c c1 : Coord} : Reachable wd c → Step wd c c1 → Reachable wd c1

/-- The map a lock mode works on. -/
def PathLocker.table (pl : PathLocker) : LockMode → LockMap
  | .exact => pl.exactLocks
  | .subtree => pl.subtreeLocks

/-- The number of live guards of the given mode that name the key `k`. -/
def Coord.holders (c : Coord) (mode : LockMode) (k : Path) : Nat :=
  c.guards.countP fun g => !g.released && decide (g.mode = mode) && decide (k ∈ g.keys)

/-- A call of `LockExact` / `LockSubtree` arrives: with no keys it returns at once and
changes nothing, otherwise the caller enters the wait loop. -/
def Coord.request (wd : Option Path) (c : Coord) (mode : LockMode) (paths : List Path) :
    Coord :=
  let keys := normalizeLockPaths wd paths
  if keys = [] then c else { c with waiting := c.waiting ++ [⟨mode, keys⟩] }

/-- The waiting caller `i` evaluates its wait-loop predicate under the mutex: when it
holds the caller increments its keys and leaves with a guard, otherwise it goes on
waiting and nothing changes. -/
def Coord.grant (c : Coord) (i : Nat) : Coord :=
  match c.waiting.get? i with
  | none => c
  | some r =>
    if c.pl.canAcquire r.mode r.keys then
      { pl := c.pl.acquire r.mode r.keys
        guards := c.guards ++ [⟨r.mode, r.keys, false⟩]
        waiting := c.waiting.eraseIdx i }
    else c

/-- A sample run: `LockExact("/x/a.txt")` and then `LockSubtree("/x/dir")`, each
granted at once. -/
def sampleTwoGuards : Coord :=
  (((Coord.init.request none .exact ["/x/a.txt".toList]).grant 0).request none .subtree
    ["/x/dir".toList]).grant 0

/-- A sample run: `LockExact("/x/dir/../a.txt")`, granted at once. -/
def sampleExactHeld : Coord :=
  (Coord.init.request none .exact ["/x/dir/../a.txt".toList]).grant 0

/-- A sample run: `LockSubtree("/x/dir/sub")`, granted at once. -/
def sampleSubtreeHeld : Coord :=
  (Coord.init.request none .subtree ["/x/dir/sub".toList]).grant 0

/-- A sample run: `LockExact("/x/dir/a.txt")`, granted at once. -/
def sampleExactBelow : Coord :=
  (Coord.init.request none .exact ["/x/dir/a.txt".toList]).grant 0

/-- A sample run: `/x/a.txt` is held exactly while `LockExact("/x/a.txt", "/x/b.txt")`
has arrived and has evaluated its predicate. -/
def samplePending : Coord :=
  (sampleExactHeld.request none .exact ["/x/a.txt".toList, "/x/b.txt".toList]).grant 0

/-- The run of the deadlock tests: `lock(a, b)` and `lock(b, a)` arrive together. -/
def inversePair (wd : Option Path) (mode : LockMode) (a b : Path) : Coord :=
  (Coord.init.request wd mode [a, b]).request wd mode [b, a]

/-- Serving the waiter at position `i` to the end: it is granted and its guard, the
one at position `n`, is released. -/
def Coord.serve (c : Coord) (i n : Nat) : Coord :=
  (c.grant i).unlock n

/-! ## `middleware/userctx.go` and the root of the handlers -/

/-- The builtin `len` of a Go string: its length in bytes (UTF-8). -/
def byteLen (s : Path) : Nat :=
  (s.map Char.utf8Size).sum

/-- What the middleware `UserContext` does with a request. -/
inductive UserCtxOutcome where
  /-- Status 400 `BAD_REQUEST`: header missing or shorter than 8 bytes. -/
  | badRequest
  /-- Status 500 `INTERNAL`: the workspace directory could not be created. -/
  | internal
  /-- The request goes on to the handler with this user ID in its context. -/
  | next (userID : Path)
deriving DecidableEq, Repr

/-- The middleware `UserContext`; `header` is the value of `X-User-Id` (empty when the
header is absent) and `mkdirAll` tells whether `os.MkdirAll` succeeds on a path. -/
def UserContext (workspaceBase : Path) (mkdirAll : Path → Bool) (header : Path) :
    UserCtxOutcome :=
  let userID := header
  if userID = [] ∨ byteLen userID < 8 then .badRequest
  else
    let userRoot := Join [workspaceBase, userID]
    if !mkdirAll userRoot then .internal
    else .next userID

/-- The root every handler computes first: `filepath.Join(workspaceBase, userID)`. -/
def handlerRoot (workspaceBase userID : Path) : Path :=
  Join [workspaceBase, userID]

/-! ## The mutating handlers (`handler/writefile.go`, `remove.go`, `rename.go`) -/

/-- The function `strings.Contains`. -/
def Contains (s sub : Path) : Bool :=
  decide (sub <:+: s)

/-- The function `filepath.Dir` on Unix: `Clean` of the path up to its last separator. -/
def Dir (path : Path) : Path :=
  Clean (path.reverse.dropWhile (· ≠ '/')).reverse

/-- What the handlers distinguish in the error of an OS call. -/
inductive OsError where
  /-- An error for which `os.IsNotExist` is true. -/
  | notExist
  /-- Any other error. -/
  | other
deriving DecidableEq, Repr

/-- The outcomes of the OS calls of one request (`none` is success). -/
structure FsOracle where
  mkdirAll : Path → Option OsError
  writeFile : Path → Option OsError
  removeAll : Path → Option OsError
  rename : Path → Path → Option OsError

/-- The response envelopes the handlers write. -/
inductive Reply where
  | ok
  | badRequest
  | pathTraversal
  | notFound
  | internal
deriving DecidableEq, Repr

/-- The HTTP status of a response. -/
def Reply.status : Reply → Nat
  | .ok => 200
  | .badRequest => 400
  | .pathTraversal => 403
  | .notFound => 404
  | .internal => 500

/-- The error code of a response (empty for success). -/
def Reply.code : Reply → Path
  | .ok => []
  | .badRequest => "BAD_REQUEST".toList
  | .pathTraversal => "PATH_TRAVERSAL".toList
  | .notFound => "NOT_FOUND".toList
  | .internal => "INTERNAL".toList

/-- An OS call made by a handler. -/
inductive FsCall where
  | mkdirAll (path : Path)
  | writeFile (path : Path)
  | removeAll (path : Path)
  | rename (src dst : Path)
deriving DecidableEq, Repr

/-- What one run of a handler did: its response, the lock call it made (if any), its
OS calls in order, and the lock maps when it has returned. -/
structure Run where
  reply : Reply
  lock : Option (LockMode × List Path)
  calls : List FsCall
  pl : PathLocker
deriving DecidableEq, Repr

/-- The pattern `unlock := locker.Lock…(paths…); defer unlock(); body`: `none` while
the lock call is blocked; otherwise the body runs and the deferred unlock releases the
guard on return. -/
def withLock (wd : Option Path) (pl : PathLocker) (mode : LockMode) (paths : List Path)
    (body : Reply × List FsCall) : Option Run :=
  match pl.lock wd mode paths with
  | .blocked => none
  | .noop => some ⟨body.1, some (mode, paths), body.2, pl⟩
  | .granted pl1 keys => some ⟨body.1, some (mode, paths), body.2, pl1.release mode keys⟩

/-- The decoded body of a write request. -/
structure WriteFileRequest where
  path : Path
  content : Path
deriving DecidableEq, Repr

/-- The part of `WriteFile` that runs under the lock. -/
def writeFileBody (os : FsOracle) (resolved : Path) : Reply × List FsCall :=
  match os.mkdirAll (Dir resolved) with
  | some _ => (.internal, [.mkdirAll (Dir resolved)])
  | none =>
    match os.writeFile resolved with
    | some _ => (.internal, [.mkdirAll (Dir resolved), .writeFile resolved])
    | none => (.ok, [.mkdirAll (Dir resolved), .writeFile resolved])

/-- The handler `WriteFile`; `body` is `none` when the JSON body does not decode. -/
def WriteFile (wd : Option Path) (os : FsOracle) (workspaceBase userID : Path)
    (body : Option WriteFileRequest) (pl : PathLocker) : Option Run :=
  let root := Join [workspaceBase, userID]
  match body with
  | none => some ⟨.badRequest, none, [], pl⟩
  | some req =>
    match ResolveWithinRoot root req.path with
    | none => some ⟨.pathTraversal, none, [], pl⟩
    | some resolved => withLock wd pl .exact [resolved] (writeFileBody os resolved)

/-- The part of `Remove` that runs under the lock. -/
def removeBody (os : FsOracle) (resolved : Path) : Reply × List FsCall :=
  match os.removeAll resolved with
  | some e =>
    if e = .notExist then (.notFound, [.removeAll resolved])
    else (.internal, [.removeAll resolved])
  | none => (.ok, [.removeAll resolved])

/-- The handler `Remove`; `filePath` is the query parameter `path`. -/
def Remove (wd : Option Path) (os : FsOracle) (workspaceBase userID : Path)
    (filePath : Path) (pl : PathLocker) : Option Run :=
  let root := Join [workspaceBase, userID]
  match ResolveWithinRoot root filePath with
  | none => some ⟨.pathTraversal, none, [], pl⟩
  | some resolved => withLock wd pl .subtree [resolved] (removeBody os resolved)

/-- The decoded body of a rename request (absent fields are empty). -/
structure RenameRequest where
  path : Path
  newName : Path
  newPath : Path
deriving DecidableEq, Repr

/-- The part of `Rename` that runs under the lock. -/
def renameBody (os : FsOracle) (resolved destinationResolved : Path) :
    Reply × List FsCall :=
  match os.mkdirAll (Dir destinationResolved) with
  | some _ => (.internal, [.mkdirAll (Dir destinationResolved)])
  | none =>
    match os.rename resolved destinationResolved with
    | some e =>
      if e = .notExist then
        (.notFound, [.mkdirAll (Dir destinationResolved), .rename resolved destinationResolved])
      else
        (.internal, [.mkdirAll (Dir destinationResolved), .rename resolved destinationResolved])
    | none =>
      (.ok, [.mkdirAll (Dir destinationResolved), .rename resolved destinationResolved])

/-- The handler `Rename`; `body` is `none` when the JSON body does not decode. -/
def Rename (wd : Option Path) (os : FsOracle) (workspaceBase userID : Path)
    (body : Option RenameRequest) (pl : PathLocker) : Option Run :=
  let root := Join [workspaceBase, userID]
  match body with
  | none => some ⟨.badRequest, none, [], pl⟩
  | some req =>
    match ResolveWithinRoot root req.path with
    | none => some ⟨.pathTraversal, none, [], pl⟩
    | some resolved =>
      let newPathInput := TrimSpace req.newPath
      if newPathInput ≠ [] then
        match ResolveWithinRoot root newPathInput with
        | none => some ⟨.pathTraversal, none, [], pl⟩
        | some destinationResolved =>
          withLock wd pl .subtree [resolved, destinationResolved]
            (renameBody os resolved destinationResolved)
      else
        let newName := TrimSpace req.newName
        if newName = [] ∨ Contains newName ['/'] ∨ Contains newName ['\\'] then
          some ⟨.badRequest, none, [], pl⟩
        else
          let newPath := Join [Dir resolved, newName]
          match Rel root newPath with
          | none => some ⟨.pathTraversal, none, [], pl⟩
          | some relNewPath =>
            match ResolveWithinRoot root relNewPath with
            | none => some ⟨.pathTraversal, none, [], pl⟩
            | some destinationResolved =>
              withLock wd pl .subtree [resolved, destinationResolved]
                (renameBody os resolved destinationResolved)

/-! ## The other mutating handlers (`handler/mkdir.go`, `writefilebuffer.go`) -/

/-- The decoded body of a mkdir request. -/
structure MkdirRequest where
  path : Path
deriving DecidableEq, Repr

/-- The part of `MkDir` that runs under the lock. -/
def mkDirBody (os : FsOracle) (resolved : Path) : Reply × List FsCall :=
  match os.mkdirAll resolved with
  | some _ => (.internal, [.mkdirAll resolved])
  | none => (.ok, [.mkdirAll resolved])

/-- The handler `MkDir`; `body` is `none` when the JSON body does not decode. -/
def MkDir (wd : Option Path) (os : FsOracle) (workspaceBase userID : Path)
    (body : Option MkdirRequest) (pl : PathLocker) : Option Run :=
  let root := Join [workspaceBase, userID]
  match body with
  | none => some ⟨.badRequest, none, [], pl⟩
  | some req =>
    match ResolveWithinRoot root req.path with
    | none => some ⟨.pathTraversal, none, [], pl⟩
    | some resolved => withLock wd pl .exact [resolved] (mkDirBody os resolved)

/-- The multipart form of a binary write: `path` is `r.FormValue("path")` (empty when
the field is absent); `file` is `none` when `r.FormFile("file")` fails, and otherwise
holds the result of `io.ReadAll` on the file (`none` when reading fails). -/
structure WriteFileBinaryForm where
  path : Path
  file : Option (Option Path)
deriving DecidableEq, Repr

/-- The handler `WriteFileBinary`; `form` is `none` when the multipart form does not
parse. -/
def WriteFileBinary (wd : Option Path) (os : FsOracle) (workspaceBase userID : Path)
    (form : Option WriteFileBinaryForm) (pl : PathLocker) : Option Run :=
  let root := Join [workspaceBase, userID]
  match form with
  | none => some ⟨.badRequest, none, [], pl⟩
  | some f =>
    if f.path = [] then some ⟨.badRequest, none, [], pl⟩
    else
      match f.file with
      | none => some ⟨.badRequest, none, [], pl⟩
      | some data =>
        match ResolveWithinRoot root f.path with
        | none => some ⟨.pathTraversal, none, [], pl⟩
        | some resolved =>
          match data with
          | none => some ⟨.internal, none, [], pl⟩
          | some _ => withLock wd pl .exact [resolved] (writeFileBody os resolved)

/-! ## `os.RemoveAll` and `filepath.Base` -/

/-- The function `endsWithDot` of package `os`. -/
def endsWithDot (path : Path) : Bool :=
  path = ['.'] ||
    (2 ≤ path.length && path.reverse.head? = some '.' && path.reverse.tail.head? = some '/')

/-- The function `os.RemoveAll` on Unix. `remove` is the outcome of `os.Remove` on the
path; `removeAllFrom` is the outcome of what follows the simple case, the recursive
deletion through the parent directory. -/
def RemoveAll (remove removeAllFrom : Path → Option OsError) (path : Path) :
    Option OsError :=
  if path = [] then none
  else if endsWithDot path then some .other
  else
    match remove path with
    | none => none
    | some .notExist => none
    | some .other => removeAllFrom path

/-- The function `filepath.Base` on Unix: the last element of the path, trailing
separators dropped first. -/
def Base (path : Path) : Path :=
  if path = [] then ['.']
  else
    let stripped := (path.reverse.dropWhile (· = '/')).reverse
    let last := (stripped.reverse.takeWhile (· ≠ '/')).reverse
    if last = [] then ['/'] else last

/-! ## `config/config.go` -/

/-- The call `strings.SplitN(s, ":", 2)`: cut at the first colon, if there is one. -/
def splitN2 (s : Path) : List Path :=
  match s.dropWhile (· ≠ ':') with
  | [] => [s]
  | _ :: rest => [s.takeWhile (· ≠ ':'), rest]

/-- A Go `map[string]string`: an association list holding each present key once. -/
abbrev TokenMap := List (Path × Path)

/-- The map write `m[k] = v`. -/
def TokenMap.set (m : TokenMap) (k v : Path) : TokenMap :=
  (k, v) :: m.filter fun e => e.1 ≠ k

/-- The loop of `parseTokens` over the comma-separated pairs; `none` is the
"invalid token pair" error. -/
def parseLoop : List Path → TokenMap → Option TokenMap
  | [], m => some m
  | pair :: rest, m =>
    let pair := TrimSpace pair
    if pair = [] then parseLoop rest m
    else
      match splitN2 pair with
      | [serviceName, token] =>
        if serviceName = [] ∨ token = [] then none
        else parseLoop rest (m.set token serviceName)
      | _ => none

/-- The function `parseTokens`: the map from token to service name, or `none` for an
error. -/
def parseTokens (raw : Path) : Option TokenMap :=
  match parseLoop (raw.splitOn ',') [] with
  | none => none
  | some m => if m.length = 0 then none else some m

/-- An item of the token list that `parseTokens` rejects: no colon, or nothing in front
of the first colon, or nothing behind it. -/
def Malformed (item : Path) : Prop :=
  ':' ∉ item ∨ item.takeWhile (· ≠ ':') = [] ∨ (item.dropWhile (· ≠ ':')).tail = []

instance (item : Path) : Decidable (Malformed item) := by
  unfold Malformed; infer_instance

/-- The trimmed non-empty items of the raw token list. -/
def tokenItems (raw : Path) : List Path :=
  ((raw.splitOn ',').map TrimSpace).filter fun item => item ≠ []

/-- An item `service:token` cut at its first colon, as (service, token). -/
def cutItem (item : Path) : Path × Path :=
  (item.takeWhile (· ≠ ':'), (item.dropWhile (· ≠ ':')).tail)

/-- The service of the last of the given (service, token) entries with this token. -/
def lastService (entries : List (Path × Path)) (token : Path) : Option Path :=
  (entries.reverse.find? fun e => e.2 = token).map Prod.fst

/-! ## `middleware/auth.go` -/

/-- What the middleware `ServiceAuth` does with a request: the error response it writes
(status and error code), if any, and whether it calls the next handler. -/
structure AuthRun where
  written : Option (Nat × Path)
  nextCalled : Bool
deriving DecidableEq, Repr

/-- The middleware `ServiceAuth`; `auth` is the value of the `Authorization` header
(empty when the header is absent). The lookup is the map read `_, ok := tokens[token]`. -/
def ServiceAuth (tokens : TokenMap) (auth : Path) : AuthRun :=
  if !HasPrefix auth "Bearer ".toList then ⟨some (401, "UNAUTHORIZED".toList), false⟩
  else
    let token := TrimPrefix auth "Bearer ".toList
    match List.lookup token tokens with
    | none => ⟨some (401, "UNAUTHORIZED".toList), false⟩
    | some _ => ⟨none, true⟩

/-! ## Sample requests -/

/-- An oracle under which every OS call succeeds. -/
def okOracle : FsOracle :=
  { mkdirAll := fun _ => none
    writeFile := fun _ => none
    removeAll := fun _ => none
    rename := fun _ _ => none }

/-- A sample run: the remove handler holds its guard, `subtree` on the directory `d`
of the user `user00000001` under the workspace base `/ws`. -/
def sampleRemoveHeld : Coord :=
  (Coord.init.request none .subtree ["/ws/user00000001/d".toList]).grant 0

/-- A file system in which nothing exists below the user's directory: `os.Remove` and
`os.Rename` report that their target does not exist. -/
def emptyDirOracle : FsOracle :=
  { mkdirAll := fun _ => none
    writeFile := fun _ => none
    removeAll := RemoveAll (fun _ => some .notExist) (fun _ => some .other)
    rename := fun _ _ => some .notExist }

/-! ## Path elements -/

/-- The path elements of `p`: the non-empty pieces between separators. -/
def components (p : Path) : List Path :=
  (p.splitOn '/').filter fun e => e ≠ []

/-- An absolute, lexically clean path: the form of every lock key and sandbox root. -/
def IsCanonical (p : Path) : Prop :=
  IsAbs p = true ∧ Clean p = p

/-- The path `q` is `p` itself or lies below `p`, element by element. -/
def Within (q p : Path) : Prop :=
  components p <+: components q

instance (p : Path) : Decidable (IsCanonical p) := by
  unfold IsCanonical; infer_instance

instance (q p : Path) : Decidable (Within q p) := by
  unfold Within; infer_instance

/-- A path element that `Clean` keeps: non-empty, without separator, neither `.` nor `..`. -/
def Proper (e : Path) : Prop :=
  e ≠ [] ∧ '/' ∉ e ∧ e ≠ ['.'] ∧ e ≠ ['.', '.']

/-- The absolute path made of the elements `es`. -/
def absPath (es : List Path) : Path :=
  '/' :: ['/'].intercalate es

/-- What one element of a rooted path does to the elements kept so far. -/
def popStep (stack : List Path) (e : Path) : List Path :=
  if e = [] ∨ e = ['.'] then stack
  else if e = ['.', '.'] then stack.dropLast
  else stack ++ [e]

/-- The two element lists without their longest common beginning. -/
def stripCommon : List Path → List Path → List Path × List Path
  | b :: bs, t :: ts => if b = t then stripCommon bs ts else (b :: bs, t :: ts)
  | [], ts => ([], ts)
  | b :: bs, [] => (b :: bs, [])

/-- The reference-count invariant of the coordinator: each map holds, for every key,
the number of live guards of its mode that name the key, and holds no other key. -/
def RefInv (c : Coord) : Prop :=
  (∀ mode k, (c.pl.table mode).get k = (c.holders mode k : Int)) ∧
  (∀ mode k, k ∈ (c.pl.table mode).keys ↔ 0 < c.holders mode k) ∧
  (∀ g ∈ c.guards, g.keys.Nodup) ∧
  (∀ r ∈ c.waiting, r.keys.Nodup)

/-- The conflict matrix between a key held in one mode and a key held in another. -/
def conflicts : LockMode → Path → LockMode → Path → Bool
  | .exact, k, .exact, k1 => decide (k = k1)
  | .exact, k, .subtree, s => isSameOrDescendant k s
  | .subtree, s, .exact, k => isSameOrDescendant k s
  | .subtree, s, .subtree, s1 => overlapsSubtree s s1

/-- No two distinct live guards hold conflicting keys. -/
def ConflictFree (c : Coord) : Prop :=
  ∀ i j gi gj, i ≠ j → c.guards.get? i = some gi → c.guards.get? j = some gj →
    gi.released = false → gj.released = false →
    ∀ k ∈ gi.keys, ∀ k1 ∈ gj.keys, conflicts gi.mode k gj.mode k1 = false

/-- A run of a handler that leaves both lock maps as it found them and that, when it
rejected the request (400 `BAD_REQUEST` or 403 `PATH_TRAVERSAL`), has made no lock
call and no OS call. -/
def Run.Restores (run : Run) (pl : PathLocker) : Prop :=
  run.pl = pl ∧
    ((run.reply = .badRequest ∨ run.reply = .pathTraversal) → run.lock = none ∧ run.calls = [])

/-! ## Theory of `path/filepath` on rooted paths -/

theorem inter_cons_cons (x y : Path) (l : List Path) :
    ['/'].intercalate (x :: y :: l) = x ++ '/' :: ['/'].intercalate (y :: l) := by
  simp [List.intercalate, List.intersperse]

theorem inter_snoc (es : List Path) (e : Path) :
    ['/'].intercalate (es ++ [e]) =
      if es = [] then e else ['/'].intercalate es ++ '/' :: e := by
  induction es with
  | nil => simp [List.intercalate]
  | cons x l ih =>
    cases l with
    | nil => simp [List.intercalate, List.intersperse]
    | cons y l =>
      have h1 : (x :: y :: l) ++ [e] = x :: y :: (l ++ [e]) := rfl
      rw [h1, inter_cons_cons, inter_cons_cons]
      have h2 : y :: (l ++ [e]) = (y :: l) ++ [e] := rfl
      rw [h2, ih]
      simp

theorem absPath_snoc (es : List Path) (e : Path) :
    absPath (es ++ [e]) = (if es = [] then ['/'] else absPath es ++ ['/']) ++ e := by
  unfold absPath
  rw [inter_snoc]
  split <;> simp

theorem inter_eq_nil (es : List Path) (h : ∀ e ∈ es, e ≠ []) :
    ['/'].intercalate es = [] ↔ es = [] := by
  cases es with
  | nil => simp [List.intercalate]
  | cons x l =>
    cases l with
    | nil =>
      have := h x (by simp)
      simp [List.intercalate, this]
    | cons y l =>
      rw [inter_cons_cons]
      simp

theorem absPath_length (es : List Path) (h : ∀ e ∈ es, e ≠ []) :
    (absPath es).length = 1 ↔ es = [] := by
  unfold absPath
  rw [← inter_eq_nil es h]
  simp [List.length_eq_zero]

theorem backtrack_spec (v t : Path) (hv : v ≠ []) (hs : '/' ∉ v) :
    backtrack 1 (v ++ '/' :: t) = if t = [] then ['/'] else t := by
  induction v with
  | nil => exact absurd rfl hv
  | cons a v ih =>
    have ha : a ≠ '/' := fun h => hs (by simp [h])
    have hs1 : '/' ∉ v := fun h => hs (by simp [h])
    cases v with
    | nil =>
      cases t with
      | nil => simp [backtrack]
      | cons b t => simp [backtrack, ha]
    | cons b v =>
      have := ih (by simp) hs1
      rw [← this]
      simp [backtrack, ha]

theorem backtrack_absPath (s : List Path) (e : Path) (he : Proper e) :
    (backtrack 1 (absPath (s ++ [e])).reverse).reverse = absPath s := by
  rw [absPath_snoc]
  by_cases hs : s = []
  · subst hs
    have := backtrack_spec e.reverse [] (by simpa using he.1) (by simpa using he.2.1)
    simp only [List.reverse_append, List.reverse_cons, List.reverse_nil, List.nil_append,
      List.singleton_append, if_true] at this ⊢
    rw [this]
    simp [absPath, List.intercalate]
  · have hne : (absPath s).reverse ≠ [] := by simp [absPath]
    have := backtrack_spec e.reverse (absPath s).reverse (by simpa using he.1)
      (by simpa using he.2.1)
    rw [if_neg hne] at this
    simp only [if_neg hs, List.reverse_append, List.reverse_cons, List.reverse_nil,
      List.nil_append, List.singleton_append]
    rw [this]
    simp

theorem splitOn_eq (l : Path) :
    l.splitOn '/' = l.takeWhile (· ≠ '/') ::
      (match l.dropWhile (· ≠ '/') with
        | [] => []
        | _ :: r => r.splitOn '/') := by
  induction l with
  | nil => simp [List.splitOn]
  | cons c r ih =>
    simp only [List.splitOn] at ih ⊢
    rw [List.splitOnP_cons]
    by_cases hc : c = '/'
    · subst hc
      simp
    · have h1 : (c == '/') = false := by simpa using hc
      simp only [h1, Bool.false_eq_true, if_false]
      rw [ih]
      simp [List.takeWhile, List.dropWhile, hc, List.modifyHead]

theorem splitOn_sep_cons (r : Path) : ('/' :: r).splitOn '/' = [] :: r.splitOn '/' := by
  rw [splitOn_eq]
  simp

theorem takeWhile_no_sep (l : Path) : '/' ∉ l.takeWhile (· ≠ '/') := by
  intro h
  have := List.mem_takeWhile_imp h
  simp at this

theorem dropWhile_sep (l : Path) :
    l.dropWhile (· ≠ '/') = [] ∨ ∃ r, l.dropWhile (· ≠ '/') = '/' :: r := by
  induction l with
  | nil => simp
  | cons c r ih =>
    by_cases hc : c = '/'
    · subst hc
      right
      exact ⟨r, by simp [List.dropWhile]⟩
    · simpa [List.dropWhile, hc] using ih

theorem popStep_skip_nil (s : List Path) : popStep s [] = s := by
  simp [popStep]

theorem popStep_dot (s : List Path) : popStep s ['.'] = s := by
  simp [popStep]

theorem popStep_dotdot (s : List Path) : popStep s ['.', '.'] = s.dropLast := by
  simp [popStep]

theorem popStep_proper (s : List Path) (e : Path) (he : Proper e) :
    popStep s e = s ++ [e] := by
  simp [popStep, he.1, he.2.2.1, he.2.2.2]

theorem foldl_popStep_proper (l : List Path) (s : List Path)
    (hs : ∀ e ∈ s, Proper e) (hl : ∀ e ∈ l, '/' ∉ e) :
    ∀ e ∈ l.foldl popStep s, Proper e := by
  induction l generalizing s with
  | nil => simpa using hs
  | cons x l ih =>
    simp only [List.foldl_cons]
    apply ih
    · intro e he
      unfold popStep at he
      split at he
      · exact hs e he
      · rename_i h1
        split at he
        · exact hs e (List.mem_of_mem_dropLast he)
        · rename_i h2
          rcases List.mem_append.1 he with h | h
          · exact hs e h
          · have hx : e = x := by simpa using h
            subst hx
            push_neg at h1
            exact ⟨h1.1, hl e (by simp), h1.2, h2⟩
    · intro e he
      exact hl e (by simp [he])

theorem splitOn_no_sep (n : Nat) : ∀ l : Path, l.length < n → ∀ e ∈ l.splitOn '/', '/' ∉ e := by
  induction n with
  | zero => intro l h; omega
  | succ n ih =>
    intro l hl e he
    rw [splitOn_eq] at he
    rcases List.mem_cons.1 he with h1 | h1
    · rw [h1]
      exact takeWhile_no_sep l
    · rcases dropWhile_sep l with hd | ⟨r, hd⟩
      · rw [hd] at h1
        simp at h1
      · rw [hd] at h1
        have hlen : r.length < n := by
          have := (List.dropWhile_sublist (fun x : Char => decide (x ≠ '/')) (l := l)).length_le
          rw [hd] at this
          simp at this
          omega
        exact ih r hlen e h1

theorem fold_split_elem (e rem : Path) (he : '/' ∉ e)
    (hrem : rem = [] ∨ ∃ r, rem = '/' :: r) (st : List Path) :
    ((e ++ rem).splitOn '/').foldl popStep st =
      (rem.splitOn '/').foldl popStep (popStep st e) := by
  rcases hrem with h | ⟨r, h⟩
  · subst h
    have : e.splitOn '/' = [e] := by
      unfold List.splitOn
      apply List.splitOnP_eq_single
      intro x hx
      have : x ≠ '/' := fun h => he (h ▸ hx)
      simpa using this
    rw [List.append_nil, this]
    simp [List.splitOn, List.splitOnP, List.splitOnP.go, popStep_skip_nil]
  · subst h
    have : (e ++ '/' :: r).splitOn '/' = e :: r.splitOn '/' := by
      unfold List.splitOn
      apply List.splitOnP_first
      · intro x hx
        have : x ≠ '/' := fun h => he (h ▸ hx)
        simpa using this
      · simp
    rw [this, splitOn_sep_cons]
    simp [popStep_skip_nil]

theorem cleanLoop_rooted (n : Nat) : ∀ (rest : Path) (stack : List Path),
    rest.length < n → (∀ e ∈ stack, Proper e) →
    cleanLoop true n rest (absPath stack) 1 =
      absPath ((rest.splitOn '/').foldl popStep stack) := by
  induction n with
  | zero => intro rest stack h; omega
  | succ n ih =>
    intro rest stack hlen hst
    cases rest with
    | nil => simp [cleanLoop, List.splitOn, popStep]
    | cons c r =>
      have hr : r.length < n := by simpa using hlen
      have hne : ∀ e ∈ stack, e ≠ [] := fun e he => (hst e he).1
      unfold cleanLoop
      by_cases h1 : c = '/'
      · subst h1
        simp only [if_true]
        rw [ih r stack hr hst, splitOn_sep_cons]
        simp [popStep]
      · simp only [h1, if_false]
        by_cases h2 : c = '.' ∧ (r = [] ∨ r.head? = some '/')
        · simp only [h2, if_true]
          obtain ⟨hc, hr2⟩ := h2
          subst hc
          rw [ih r stack hr hst]
          have hrem : r = [] ∨ ∃ r3, r = '/' :: r3 := by
            rcases hr2 with hr2 | hr2
            · exact Or.inl hr2
            · cases r with
              | nil => simp at hr2
              | cons d r2 =>
                have hd : d = '/' := by simpa using hr2
                exact Or.inr ⟨r2, by rw [hd]⟩
          have := fold_split_elem ['.'] r (by simp) hrem stack
          rw [popStep_dot] at this
          rw [← this]
          rfl
        · simp only [h2, if_false]
          by_cases h3 : c = '.' ∧ r.head? = some '.' ∧ (r.tail = [] ∨ r.tail.head? = some '/')
          · simp only [h3, if_true]
            obtain ⟨hc, hd, hr3⟩ := h3
            subst hc
            cases r with
            | nil => simp at hd
            | cons d r2 =>
              have hd1 : d = '.' := by simpa using hd
              subst hd1
              have hr2 : r2.length < n := by simp at hr; omega
              have hrem : r2 = [] ∨ ∃ r3, r2 = '/' :: r3 := by
                rcases hr3 with hr3 | hr3
                · exact Or.inl (by simpa using hr3)
                · cases r2 with
                  | nil => simp at hr3
                  | cons x r3 =>
                    have hx : x = '/' := by simpa using hr3
                    exact Or.inr ⟨r3, by rw [hx]⟩
              have hfold := fold_split_elem ['.', '.'] r2 (by simp) hrem stack
              rw [popStep_dotdot] at hfold
              have hcons : ('.' :: '.' :: r2) = ['.', '.'] ++ r2 := rfl
              rw [hcons, hfold]
              simp only [List.tail_cons]
              by_cases hs : stack = []
              · subst hs
                have : ¬ (1 < (absPath []).length) := by simp [absPath, List.intercalate]
                simp only [this, if_false, Bool.not_true, Bool.false_eq_true]
                rw [ih r2 [] hr2 (by simp)]
                simp
              · have hlen1 : 1 < (absPath stack).length := by
                  have h0 := absPath_length stack hne
                  have : 0 < (absPath stack).length := by simp [absPath]
                  by_contra hcon
                  exact hs (h0.1 (by omega))
                simp only [hlen1, if_true]
                obtain ⟨s1, e, rfl⟩ : ∃ s1 e, stack = s1 ++ [e] :=
                  ⟨stack.dropLast, stack.getLast hs, (List.dropLast_append_getLast hs).symm⟩
                have he : Proper e := hst e (by simp)
                rw [backtrack_absPath s1 e he, List.dropLast_concat]
                rw [ih r2 s1 hr2 (fun x hx => hst x (by simp [hx]))]
                simp
          · simp only [h3, if_false]
            have hsum := List.takeWhile_append_dropWhile (fun x : Char => decide (x ≠ '/')) (c :: r)
            generalize he : (c :: r).takeWhile (fun x : Char => decide (x ≠ '/')) = e at hsum ⊢
            generalize hrm : (c :: r).dropWhile (fun x : Char => decide (x ≠ '/')) = rem at hsum ⊢
            have hsep : rem = [] ∨ ∃ r3, rem = '/' :: r3 := hrm ▸ dropWhile_sep (c :: r)
            have hnil : e ≠ [] := by simp [← he, List.takeWhile, h1]
            have hdot : e ≠ ['.'] := by
              intro hcon
              apply h2
              rw [hcon] at hsum
              rcases hsep with hd | ⟨r3, hd⟩
              · rw [hd] at hsum
                simp at hsum
                exact ⟨hsum.1.symm, Or.inl hsum.2⟩
              · rw [hd] at hsum
                simp at hsum
                refine ⟨hsum.1.symm, Or.inr ?_⟩
                rw [← hsum.2]
                simp
            have hdd : e ≠ ['.', '.'] := by
              intro hcon
              apply h3
              rw [hcon] at hsum
              rcases hsep with hd | ⟨r3, hd⟩
              · rw [hd] at hsum
                simp at hsum
                refine ⟨hsum.1.symm, ?_, ?_⟩
                · rw [← hsum.2]; simp
                · rw [← hsum.2]; simp
              · rw [hd] at hsum
                simp at hsum
                refine ⟨hsum.1.symm, ?_, ?_⟩
                · rw [← hsum.2]; simp
                · rw [← hsum.2]; simp
            have hprop : Proper e := ⟨hnil, by rw [← he]; exact takeWhile_no_sep _, hdot, hdd⟩
            have hremlen : rem.length < n := by
              have hl := congrArg List.length hsum
              simp at hl
              have : 0 < e.length := List.length_pos.2 hnil
              simp at hlen
              omega
            have hout : (if (true && (absPath stack).length != 1) ||
                (!true && (absPath stack).length != 0) then absPath stack ++ ['/']
                else absPath stack) ++ e = absPath (stack ++ [e]) := by
              rw [absPath_snoc]
              by_cases hs : stack = []
              · subst hs
                simp [absPath, List.intercalate]
              · have := absPath_length stack hne
                have h4 : (absPath stack).length ≠ 1 := fun h => hs (this.1 h)
                simp [hs, h4]
            rw [hout]
            rw [ih rem (stack ++ [e]) hremlen (by
              intro x hx
              rcases List.mem_append.1 hx with h | h
              · exact hst x h
              · have : x = e := by simpa using h
                rw [this]; exact hprop)]
            rw [← hsum, fold_split_elem e rem hprop.2.1 hsep stack, popStep_proper stack e hprop]

/-- The elements that `Clean` keeps of the rooted path `'/' :: r`. -/
theorem Clean_rooted (r : Path) :
    Clean ('/' :: r) = absPath ((r.splitOn '/').foldl popStep []) := by
  have h := cleanLoop_rooted (('/' :: r).length + 1) r [] (by simp; omega) (by simp)
  have h0 : absPath [] = ['/'] := by simp [absPath, List.intercalate]
  rw [h0] at h
  simp only [Clean, List.head?_cons, List.tail_cons, if_true, reduceCtorEq, if_false]
  rw [h]
  simp [absPath]

theorem Clean_rooted_proper (r : Path) :
    ∀ e ∈ (r.splitOn '/').foldl popStep [], Proper e :=
  foldl_popStep_proper _ [] (by simp) (splitOn_no_sep (r.length + 1) r (by omega))

theorem foldl_popStep_id (es st : List Path) (h : ∀ e ∈ es, Proper e) :
    es.foldl popStep st = st ++ es := by
  induction es generalizing st with
  | nil => simp
  | cons x l ih =>
    simp only [List.foldl_cons]
    rw [popStep_proper st x (h x (by simp)), ih _ (fun e he => h e (by simp [he]))]
    simp

theorem splitOn_inter (es : List Path) (h : ∀ e ∈ es, Proper e) (st : List Path) :
    ((['/'].intercalate es).splitOn '/').foldl popStep st = st ++ es := by
  by_cases hes : es = []
  · subst hes
    simp [List.intercalate, List.splitOn, List.splitOnP, List.splitOnP.go, popStep]
  · rw [List.splitOn_intercalate _ '/' (fun l hl => (h l hl).2.1) hes]
    exact foldl_popStep_id es st h

theorem Clean_absPath (es : List Path) (h : ∀ e ∈ es, Proper e) :
    Clean (absPath es) = absPath es := by
  unfold absPath
  rw [Clean_rooted, splitOn_inter es h]
  simp [absPath]

theorem components_absPath (es : List Path) (h : ∀ e ∈ es, Proper e) :
    components (absPath es) = es := by
  unfold components absPath
  rw [splitOn_sep_cons]
  by_cases hes : es = []
  · subst hes
    simp [List.intercalate, List.splitOn, List.splitOnP, List.splitOnP.go]
  · rw [List.splitOn_intercalate _ '/' (fun l hl => (h l hl).2.1) hes]
    simp only [List.filter_cons, ne_eq, not_true_eq_false, decide_False, Bool.false_eq_true,
      if_false]
    rw [List.filter_eq_self]
    intro e he
    simpa using (h e he).1

theorem isAbs_iff (p : Path) : IsAbs p = true ↔ ∃ r, p = '/' :: r := by
  cases p with
  | nil => simp [IsAbs, HasPrefix]
  | cons c r =>
    simp only [IsAbs, HasPrefix, List.isPrefixOf, Bool.and_true, beq_iff_eq, List.cons.injEq]
    constructor
    · intro h; exact ⟨r, h.symm, rfl⟩
    · rintro ⟨r1, h, -⟩; exact h.symm

/-- The canonical paths are the absolute paths made of proper elements. -/
theorem canonical_iff (p : Path) :
    IsCanonical p ↔ ∃ es, (∀ e ∈ es, Proper e) ∧ p = absPath es := by
  constructor
  · rintro ⟨ha, hc⟩
    obtain ⟨r, rfl⟩ := (isAbs_iff p).1 ha
    exact ⟨_, Clean_rooted_proper r, by rw [← Clean_rooted, hc]⟩
  · rintro ⟨es, hes, rfl⟩
    exact ⟨(isAbs_iff _).2 ⟨_, rfl⟩, Clean_absPath es hes⟩

/-- The result of `Clean` on a rooted path is canonical. -/
theorem Clean_canonical (p : Path) (h : IsAbs p = true) : IsCanonical (Clean p) := by
  obtain ⟨r, rfl⟩ := (isAbs_iff p).1 h
  exact (canonical_iff _).2 ⟨_, Clean_rooted_proper r, Clean_rooted r⟩

/-! ## Theory of `filepath.Rel` on canonical paths -/

theorem inter_cons (b : Path) (bs : List Path) :
    ['/'].intercalate (b :: bs) = b ++ (if bs = [] then [] else '/' :: ['/'].intercalate bs) := by
  cases bs with
  | nil => simp [List.intercalate]
  | cons y l => rw [inter_cons_cons]; simp

theorem takeWhile_elem (e rem : Path) (he : '/' ∉ e) (hrem : rem = [] ∨ ∃ r, rem = '/' :: r) :
    (e ++ rem).takeWhile (· ≠ '/') = e ∧ (e ++ rem).dropWhile (· ≠ '/') = rem := by
  induction e with
  | nil =>
    rcases hrem with h | ⟨r, h⟩ <;> subst h <;> simp
  | cons a e ih =>
    have ha : a ≠ '/' := fun h => he (by simp [h])
    have := ih (fun h => he (by simp [h]))
    have h1 : decide (a ≠ '/') = true := by simpa using ha
    simp only [List.cons_append, List.takeWhile, List.dropWhile, h1]
    exact ⟨congrArg (a :: ·) this.1, this.2⟩

theorem inter_tail_sep (bs : List Path) :
    (if bs = [] then ([] : Path) else '/' :: ['/'].intercalate bs) = [] ∨
      ∃ r, (if bs = [] then ([] : Path) else '/' :: ['/'].intercalate bs) = '/' :: r := by
  by_cases h : bs = []
  · left; simp [h]
  · right; exact ⟨['/'].intercalate bs, by simp [h]⟩

theorem stripCommon_fst_nil (bs ts : List Path) :
    (stripCommon bs ts).1 = [] ↔ bs <+: ts := by
  induction bs generalizing ts with
  | nil => simp [stripCommon]
  | cons b bs ih =>
    cases ts with
    | nil => simp [stripCommon]
    | cons t ts =>
      unfold stripCommon
      by_cases h : b = t
      · subst h
        simp only [if_true]
        rw [ih ts]
        exact (List.prefix_cons_inj b).symm
      · simp only [h, if_false]
        constructor
        · intro h1; simp at h1
        · intro h1
          exact absurd (List.cons_prefix_cons.1 h1).1 h

theorem stripCommon_mem (bs ts : List Path) :
    (∀ e ∈ (stripCommon bs ts).1, e ∈ bs) ∧ (∀ e ∈ (stripCommon bs ts).2, e ∈ ts) := by
  induction bs generalizing ts with
  | nil => simp [stripCommon]
  | cons b bs ih =>
    cases ts with
    | nil => simp [stripCommon]
    | cons t ts =>
      unfold stripCommon
      by_cases h : b = t
      · simp only [h, if_true]
        exact ⟨fun e he => List.mem_cons_of_mem _ ((ih ts).1 e he),
          fun e he => List.mem_cons_of_mem _ ((ih ts).2 e he)⟩
      · simp only [h, if_false]
        exact ⟨fun e he => he, fun e he => he⟩

theorem relLoop_inter (bs : List Path) : ∀ (ts : List Path) (n : Nat),
    (['/'].intercalate bs).length < n → (∀ e ∈ bs, Proper e) → (∀ e ∈ ts, Proper e) →
    ∃ w, relLoop n (['/'].intercalate bs) (['/'].intercalate ts) =
        (['/'].intercalate (stripCommon bs ts).1, w, ['/'].intercalate (stripCommon bs ts).2) ∧
      w ≠ ['.', '.'] := by
  induction bs with
  | nil =>
    intro ts n _ _ _
    refine ⟨[], ?_, by simp⟩
    cases n <;> simp [relLoop, stripCommon, List.intercalate]
  | cons b bs ih =>
    intro ts n hn hb ht
    cases ts with
    | nil =>
      refine ⟨[], ?_, by simp⟩
      cases n <;> simp [relLoop, stripCommon, List.intercalate]
    | cons t ts =>
      cases n with
      | zero => omega
      | succ n =>
        have hbp := hb b (by simp)
        have htp := ht t (by simp)
        have hb1 := takeWhile_elem b _ hbp.2.1 (inter_tail_sep bs)
        have ht1 := takeWhile_elem t _ htp.2.1 (inter_tail_sep ts)
        have hbne : ['/'].intercalate (b :: bs) ≠ [] := by
          rw [inter_cons]; simp [hbp.1]
        have htne : ['/'].intercalate (t :: ts) ≠ [] := by
          rw [inter_cons]; simp [htp.1]
        unfold relLoop
        simp only [hbne, htne, ne_eq, not_false_eq_true, and_self, if_true]
        rw [inter_cons b bs, inter_cons t ts, hb1.1, hb1.2, ht1.1, ht1.2]
        by_cases h : t = b
        · subst h
          simp only [not_true_eq_false, if_false]
          have hlen : (['/'].intercalate bs).length < n := by
            rw [inter_cons] at hn
            have : 0 < t.length := List.length_pos.2 hbp.1
            by_cases hbs : bs = []
            · subst hbs
              simp [List.intercalate] at hn ⊢
              omega
            · simp [hbs] at hn
              omega
          obtain ⟨w, hw, hw2⟩ := ih ts n hlen (fun e he => hb e (by simp [he]))
            (fun e he => ht e (by simp [he]))
          refine ⟨w, ?_, hw2⟩
          have e1 : (if (if bs = [] then ([] : Path) else '/' :: ['/'].intercalate bs) ≠ []
              then (if bs = [] then ([] : Path) else '/' :: ['/'].intercalate bs).tail
              else (if bs = [] then ([] : Path) else '/' :: ['/'].intercalate bs)) =
              ['/'].intercalate bs := by
            by_cases hbs : bs = []
            · subst hbs; simp [List.intercalate]
            · simp [hbs]
          have e2 : (if (if ts = [] then ([] : Path) else '/' :: ['/'].intercalate ts) ≠ []
              then (if ts = [] then ([] : Path) else '/' :: ['/'].intercalate ts).tail
              else (if ts = [] then ([] : Path) else '/' :: ['/'].intercalate ts)) =
              ['/'].intercalate ts := by
            by_cases hts : ts = []
            · subst hts; simp [List.intercalate]
            · simp [hts]
          rw [e1, e2, hw]
          simp [stripCommon]
        · refine ⟨b, ?_, hbp.2.2.2⟩
          have h' : ¬ b = t := fun e => h e.symm
          simp only [h, not_false_eq_true, if_true, stripCommon, h', if_false]
          rw [inter_cons b bs, inter_cons t ts]

theorem relLoop_absPath (bs ts : List Path)
    (hb : ∀ e ∈ bs, Proper e) (ht : ∀ e ∈ ts, Proper e) :
    ∃ w, relLoop ((absPath bs).length + 1) (absPath bs) (absPath ts) =
        (['/'].intercalate (stripCommon bs ts).1, w, ['/'].intercalate (stripCommon bs ts).2) ∧
      w ≠ ['.', '.'] := by
  obtain ⟨w, hw, hw2⟩ := relLoop_inter bs ts (absPath bs).length (by simp [absPath]) hb ht
  refine ⟨w, ?_, hw2⟩
  rw [← hw]
  simp [relLoop, absPath, List.takeWhile, List.dropWhile]

theorem inter_proper_head (es : List Path) (h : ∀ e ∈ es, Proper e) :
    ['/'].intercalate es ≠ ['.', '.'] ∧ HasPrefix (['/'].intercalate es) ['.', '.', '/'] = false := by
  cases es with
  | nil => simp [List.intercalate, HasPrefix, List.isPrefixOf]
  | cons e es =>
    have he := h e (by simp)
    have htw := takeWhile_elem e _ he.2.1 (inter_tail_sep es)
    rw [inter_cons]
    constructor
    · intro hcon
      rw [hcon] at htw
      apply he.2.2.2
      rw [← htw.1]
      simp [List.takeWhile]
    · by_contra hcon
      have hp : HasPrefix (e ++ if es = [] then [] else '/' :: ['/'].intercalate es)
          ['.', '.', '/'] = true := by simpa using hcon
      unfold HasPrefix at hp
      obtain ⟨t, ht⟩ := List.isPrefixOf_iff_prefix.1 hp
      rw [← ht] at htw
      apply he.2.2.2
      rw [← htw.1]
      simp [List.takeWhile]

theorem ups_shape (k : Nat) (t : Path) :
    let ups := ['.', '.'] ++ (List.replicate k ['/', '.', '.']).flatten
    (if t ≠ [] then ups ++ '/' :: t else ups) = ['.', '.'] ∨
      HasPrefix (if t ≠ [] then ups ++ '/' :: t else ups) ['.', '.', '/'] = true := by
  intro ups
  cases k with
  | zero =>
    by_cases h : t = []
    · left; simp [ups, h]
    · right; simp [ups, h, HasPrefix, List.isPrefixOf]
  | succ k =>
    right
    by_cases h : t = []
    · simp [ups, h, HasPrefix, List.isPrefixOf, List.replicate_succ]
    · simp [ups, h, HasPrefix, List.isPrefixOf, List.replicate_succ]

theorem absPath_inj (bs ts : List Path)
    (hb : ∀ e ∈ bs, Proper e) (ht : ∀ e ∈ ts, Proper e) (h : absPath ts = absPath bs) :
    ts = bs := by
  rw [← components_absPath ts ht, ← components_absPath bs hb, h]

/-- On canonical paths `Rel` never fails, and its result leaves the base exactly when
the base elements are no beginning of the target elements. -/
theorem Rel_canonical (bs ts : List Path)
    (hb : ∀ e ∈ bs, Proper e) (ht : ∀ e ∈ ts, Proper e) :
    ∃ r, Rel (absPath bs) (absPath ts) = some r ∧
      ((r = ['.', '.'] ∨ HasPrefix r ['.', '.', '/'] = true) ↔ ¬ bs <+: ts) := by
  unfold Rel
  simp only [Clean_absPath bs hb, Clean_absPath ts ht]
  by_cases heq : absPath ts = absPath bs
  · simp only [heq, if_true]
    refine ⟨['.'], rfl, ?_⟩
    have := absPath_inj bs ts hb ht heq
    subst this
    simp [HasPrefix, List.isPrefixOf]
  · simp only [heq, if_false]
    have hdot : absPath bs ≠ ['.'] := by simp [absPath]
    simp only [hdot, if_false]
    have hsl : ¬ ((absPath bs).head? = some '/') ≠ ((absPath ts).head? = some '/') := by
      simp [absPath]
    simp only [hsl, if_false]
    obtain ⟨w, hw, hw2⟩ := relLoop_absPath bs ts hb ht
    rw [hw]
    simp only [hw2, if_false]
    have hmem := stripCommon_mem bs ts
    have hnil := stripCommon_fst_nil bs ts
    generalize (stripCommon bs ts).1 = bs1 at hmem hnil ⊢
    generalize (stripCommon bs ts).2 = ts1 at hmem ⊢
    have hb1 : ∀ e ∈ bs1, Proper e := fun e he => hb e (hmem.1 e he)
    have ht1 : ∀ e ∈ ts1, Proper e := fun e he => ht e (hmem.2 e he)
    by_cases hbn : bs1 = []
    · have hin : ['/'].intercalate bs1 = [] := by rw [hbn]; simp [List.intercalate]
      simp only [hin, ne_eq, not_true_eq_false, if_false]
      refine ⟨_, rfl, ?_⟩
      have := inter_proper_head ts1 ht1
      simp [this.1, this.2, hnil.1 hbn]
    · have hin : ['/'].intercalate bs1 ≠ [] := fun h => hbn ((inter_eq_nil bs1 (fun e he => (hb1 e he).1)).1 h)
      simp only [hin, ne_eq, not_false_eq_true, if_true]
      refine ⟨_, rfl, ?_⟩
      have hnp : ¬ bs <+: ts := fun h => hbn (hnil.2 h)
      simp only [hnp, not_false_eq_true, iff_true]
      exact ups_shape _ _

/-- The conflict test `isSameOrDescendant` on canonical paths is the element-wise
beginning-of relation. -/
theorem isSameOrDescendant_absPath (bs ts : List Path)
    (hb : ∀ e ∈ bs, Proper e) (ht : ∀ e ∈ ts, Proper e) :
    isSameOrDescendant (absPath ts) (absPath bs) = true ↔ bs <+: ts := by
  obtain ⟨r, hr, hiff⟩ := Rel_canonical bs ts hb ht
  unfold isSameOrDescendant
  rw [hr]
  simp only [Bool.or_eq_true, Bool.and_eq_true, decide_eq_true_eq, Bool.not_eq_true']
  constructor
  · rintro (h | ⟨h1, h2⟩)
    · by_contra hcon
      rcases hiff.2 hcon with h3 | h3
      · rw [h] at h3; simp at h3
      · rw [h] at h3; simp [HasPrefix, List.isPrefixOf] at h3
    · by_contra hcon
      rcases hiff.2 hcon with h3 | h3
      · simp [h3] at h1
      · rw [h3] at h2; simp at h2
  · intro h
    right
    constructor
    · simp only [ne_eq, decide_not, Bool.not_eq_true', decide_eq_false_iff_not]
      intro h3
      exact (hiff.1 (Or.inl h3)) h
    · by_contra h3
      exact (hiff.1 (Or.inr (by simpa using h3))) h

/-- The conflict test `isSameOrDescendant` decides `Within` on canonical paths. -/
theorem isSameOrDescendant_iff (path root : Path)
    (hp : IsCanonical path) (hr : IsCanonical root) :
    isSameOrDescendant path root = true ↔ Within path root := by
  obtain ⟨ts, ht, rfl⟩ := (canonical_iff path).1 hp
  obtain ⟨bs, hb, rfl⟩ := (canonical_iff root).1 hr
  rw [isSameOrDescendant_absPath bs ts hb ht]
  unfold Within
  rw [components_absPath bs hb, components_absPath ts ht]

/-! ## The sandbox `ResolveWithinRoot` -/

theorem fold_split_join (bs : List Path) (hb : ∀ e ∈ bs, Proper e) (rel : Path) :
    ∀ st : List Path, ((['/'].intercalate bs ++ '/' :: rel).splitOn '/').foldl popStep st =
      (rel.splitOn '/').foldl popStep (st ++ bs) := by
  induction bs with
  | nil =>
    intro st
    simp [List.intercalate, splitOn_sep_cons, popStep_skip_nil]
  | cons b bs ih =>
    intro st
    have hbp := hb b (by simp)
    rw [inter_cons]
    by_cases hbs : bs = []
    · subst hbs
      simp only [if_true, List.append_nil]
      rw [fold_split_elem b ('/' :: rel) hbp.2.1 (Or.inr ⟨rel, rfl⟩) st, splitOn_sep_cons]
      simp [popStep_skip_nil, popStep_proper st b hbp]
    · simp only [hbs, if_false, List.append_assoc, List.cons_append]
      rw [fold_split_elem b _ hbp.2.1 (Or.inr ⟨_, rfl⟩) st, splitOn_sep_cons]
      simp only [List.foldl_cons, popStep_skip_nil, popStep_proper st b hbp]
      rw [ih (fun e he => hb e (by simp [he]))]
      simp

/-- The candidate of `ResolveWithinRoot` under a canonical root: the root elements
followed by the input elements, with `.` dropped and `..` popping. -/
theorem candidate_eq (bs : List Path) (hb : ∀ e ∈ bs, Proper e) (rel : Path) :
    Clean (Join [absPath bs, rel]) = absPath ((rel.splitOn '/').foldl popStep bs) ∧
      ∀ e ∈ (rel.splitOn '/').foldl popStep bs, Proper e := by
  have hp : ∀ e ∈ (rel.splitOn '/').foldl popStep bs, Proper e :=
    foldl_popStep_proper _ bs hb (splitOn_no_sep (rel.length + 1) rel (by omega))
  refine ⟨?_, hp⟩
  have hne : absPath bs ≠ [] := by simp [absPath]
  have hj : stringsJoin [absPath bs, rel] ['/'] = '/' :: (['/'].intercalate bs ++ '/' :: rel) := by
    simp [stringsJoin, absPath, List.intercalate]
  simp only [Join, hne, ne_eq, not_false_eq_true, if_true]
  rw [hj, Clean_rooted, fold_split_join bs hb rel []]
  simp only [List.nil_append]
  exact Clean_absPath _ hp

/-- The result of `ResolveWithinRoot` under a canonical root, in closed form. -/
theorem resolve_eq (bs : List Path) (hb : ∀ e ∈ bs, Proper e) (input : Path) :
    ResolveWithinRoot (absPath bs) input =
      if bs <+: ((TrimPrefix (TrimSpace input) ['/']).splitOn '/').foldl popStep bs
      then some (absPath (((TrimPrefix (TrimSpace input) ['/']).splitOn '/').foldl popStep bs))
      else none := by
  unfold ResolveWithinRoot
  simp only []
  obtain ⟨hc, hp⟩ := candidate_eq bs hb (TrimPrefix (TrimSpace input) ['/'])
  rw [hc]
  obtain ⟨r, hr, hiff⟩ := Rel_canonical bs _ hb hp
  rw [hr]
  simp only []
  by_cases h : bs <+: ((TrimPrefix (TrimSpace input) ['/']).splitOn '/').foldl popStep bs
  · have : ¬ (r = ['.', '.'] ∨ HasPrefix r ['.', '.', '/'] = true) := fun h1 => hiff.1 h1 h
    simp [this, h]
  · have : r = ['.', '.'] ∨ HasPrefix r ['.', '.', '/'] = true := hiff.2 h
    simp [this, h]

/-! ## Theory of the lock maps -/

theorem LockMap.get_cons (m : LockMap) (k k1 : Path) (v : Int) :
    LockMap.get ((k, v) :: m) k1 = if k1 = k then v else LockMap.get m k1 := by
  unfold LockMap.get
  by_cases h : k1 = k
  · subst h; simp [List.lookup]
  · have : (k1 == k) = false := by simpa using h
    simp [List.lookup, this, h]

theorem LockMap.get_delete (m : LockMap) (k k1 : Path) :
    (m.delete k).get k1 = if k1 = k then 0 else m.get k1 := by
  induction m with
  | nil => simp [LockMap.delete, LockMap.get]
  | cons e m ih =>
    obtain ⟨a, v⟩ := e
    unfold LockMap.delete at ih ⊢
    by_cases ha : a = k
    · subst ha
      simp only [List.filter_cons, ne_eq, not_true_eq_false, decide_False, Bool.false_eq_true,
        if_false]
      rw [ih, LockMap.get_cons]
      split <;> rfl
    · simp only [List.filter_cons, ne_eq, ha, not_false_eq_true, decide_True, if_true]
      rw [LockMap.get_cons, LockMap.get_cons, ih]
      by_cases h1 : k1 = a
      · subst h1; simp [ha]
      · simp [h1]

theorem LockMap.get_set (m : LockMap) (k k1 : Path) (v : Int) :
    (m.set k v).get k1 = if k1 = k then v else m.get k1 := by
  unfold LockMap.set
  rw [LockMap.get_cons, LockMap.get_delete]
  split <;> simp [*]

theorem LockMap.mem_keys_delete (m : LockMap) (k k1 : Path) :
    k1 ∈ (m.delete k).keys ↔ k1 ≠ k ∧ k1 ∈ m.keys := by
  unfold LockMap.delete LockMap.keys
  simp only [List.mem_map, List.mem_filter, Prod.exists, exists_and_right, exists_eq_right]
  constructor
  · rintro ⟨v, h1, h2⟩
    exact ⟨by simpa using h2, v, h1⟩
  · rintro ⟨h1, v, h2⟩
    exact ⟨v, h2, by simpa using h1⟩

theorem LockMap.mem_keys_set (m : LockMap) (k k1 : Path) (v : Int) :
    k1 ∈ (m.set k v).keys ↔ k1 = k ∨ k1 ∈ m.keys := by
  unfold LockMap.set
  have := LockMap.mem_keys_delete m k k1
  simp only [LockMap.keys, List.map_cons, List.mem_cons] at this ⊢
  rw [this]
  by_cases h : k1 = k <;> simp [h]

theorem LockMap.get_incr (m : LockMap) (k k1 : Path) :
    (m.incr k).get k1 = m.get k1 + if k1 = k then 1 else 0 := by
  unfold LockMap.incr
  rw [LockMap.get_set]
  by_cases h : k1 = k <;> simp [h]

theorem LockMap.mem_keys_incr (m : LockMap) (k k1 : Path) :
    k1 ∈ (m.incr k).keys ↔ k1 = k ∨ k1 ∈ m.keys := by
  unfold LockMap.incr
  exact LockMap.mem_keys_set m k k1 _

theorem LockMap.get_decr (m : LockMap) (k k1 : Path) :
    (m.decr k).get k1 = m.get k1 - if k1 = k then 1 else 0 := by
  unfold LockMap.decr
  simp only []
  split
  · rename_i h
    rw [LockMap.get_set] at h
    simp only [if_true] at h
    rw [LockMap.get_delete, LockMap.get_set]
    by_cases h1 : k1 = k
    · subst h1; simp [h]
    · simp [h1]
  · rw [LockMap.get_set]
    by_cases h1 : k1 = k <;> simp [h1]

theorem LockMap.mem_keys_decr (m : LockMap) (k k1 : Path) :
    k1 ∈ (m.decr k).keys ↔ (k1 = k ∧ m.get k - 1 ≠ 0) ∨ (k1 ≠ k ∧ k1 ∈ m.keys) := by
  unfold LockMap.decr
  simp only []
  split
  · rename_i h
    rw [LockMap.get_set] at h
    simp only [if_true] at h
    rw [LockMap.mem_keys_delete, LockMap.mem_keys_set]
    by_cases h1 : k1 = k <;> simp [h1, h]
  · rename_i h
    rw [LockMap.get_set] at h
    simp only [if_true] at h
    rw [LockMap.mem_keys_set]
    by_cases h1 : k1 = k <;> simp [h1, h]

theorem LockMap.get_incrAll (ks : List Path) (hk : ks.Nodup) (m : LockMap) (k1 : Path) :
    (ks.foldl LockMap.incr m).get k1 = m.get k1 + if k1 ∈ ks then 1 else 0 := by
  induction ks generalizing m with
  | nil => simp
  | cons k ks ih =>
    have hn := List.nodup_cons.1 hk
    simp only [List.foldl_cons]
    rw [ih hn.2, LockMap.get_incr]
    by_cases h1 : k1 = k
    · subst h1; simp [hn.1]
    · simp [h1]

theorem LockMap.mem_keys_incrAll (ks : List Path) (m : LockMap) (k1 : Path) :
    k1 ∈ (ks.foldl LockMap.incr m).keys ↔ k1 ∈ ks ∨ k1 ∈ m.keys := by
  induction ks generalizing m with
  | nil => simp
  | cons k ks ih =>
    simp only [List.foldl_cons]
    rw [ih, LockMap.mem_keys_incr]
    simp only [List.mem_cons]
    tauto

theorem LockMap.get_decrAll (ks : List Path) (hk : ks.Nodup) (m : LockMap) (k1 : Path) :
    (ks.foldl LockMap.decr m).get k1 = m.get k1 - if k1 ∈ ks then 1 else 0 := by
  induction ks generalizing m with
  | nil => simp
  | cons k ks ih =>
    have hn := List.nodup_cons.1 hk
    simp only [List.foldl_cons]
    rw [ih hn.2, LockMap.get_decr]
    by_cases h1 : k1 = k
    · subst h1; simp [hn.1]
    · simp [h1]

theorem LockMap.mem_keys_decrAll (ks : List Path) (hk : ks.Nodup) (m : LockMap) (k1 : Path) :
    k1 ∈ (ks.foldl LockMap.decr m).keys ↔
      (k1 ∈ ks ∧ m.get k1 - 1 ≠ 0) ∨ (k1 ∉ ks ∧ k1 ∈ m.keys) := by
  induction ks generalizing m with
  | nil => simp
  | cons k ks ih =>
    have hn := List.nodup_cons.1 hk
    simp only [List.foldl_cons]
    rw [ih hn.2, LockMap.get_decr, LockMap.mem_keys_decr]
    by_cases h1 : k1 = k
    · subst h1
      simp [hn.1]
    · simp only [h1, if_false, sub_zero, List.mem_cons, false_or, false_and, ne_eq,
        not_false_eq_true, true_and]

/-! ## Invariants of the coordinator -/

theorem table_acquire (pl : PathLocker) (mode m1 : LockMode) (ks : List Path) :
    (pl.acquire mode ks).table m1 =
      if m1 = mode then ks.foldl LockMap.incr (pl.table mode) else pl.table m1 := by
  cases mode <;> cases m1 <;> simp [PathLocker.acquire, PathLocker.table]

theorem table_release (pl : PathLocker) (mode m1 : LockMode) (ks : List Path) :
    (pl.release mode ks).table m1 =
      if m1 = mode then ks.foldl LockMap.decr (pl.table mode) else pl.table m1 := by
  cases mode <;> cases m1 <;> simp [PathLocker.release, PathLocker.table]

theorem countP_set_add {α : Type} (p : α → Bool) (l : List α) (i : Nat) (a b : α)
    (h : l.get? i = some a) :
    (l.set i b).countP p + (if p a then 1 else 0) = l.countP p + (if p b then 1 else 0) := by
  induction l generalizing i with
  | nil => simp at h
  | cons x l ih =>
    cases i with
    | zero =>
      simp only [List.get?_cons_zero, Option.some.injEq] at h
      subst h
      simp only [List.set_cons_zero, List.countP_cons]
      omega
    | succ i =>
      simp only [List.get?_cons_succ] at h
      have := ih i h
      simp only [List.set_cons_succ, List.countP_cons]
      omega

theorem nodup_normalize (wd : Option Path) (paths : List Path) :
    (normalizeLockPaths wd paths).Nodup := by
  unfold normalizeLockPaths
  split
  · exact List.nodup_nil
  · exact (List.perm_insertionSort _ _).nodup_iff.2 (List.nodup_dedup _)

theorem mem_normalize (wd : Option Path) (paths : List Path) (k : Path) :
    k ∈ normalizeLockPaths wd paths ↔ ∃ p ∈ paths, canonicalPath wd p = k := by
  unfold normalizeLockPaths
  split
  · rename_i h; subst h; simp
  · rw [(List.perm_insertionSort _ _).mem_iff, List.mem_dedup, List.mem_map]

theorem holders_init (mode : LockMode) (k : Path) : Coord.init.holders mode k = 0 := by
  simp [Coord.holders, Coord.init]

theorem refInv_init : RefInv Coord.init := by
  refine ⟨?_, ?_, ?_, ?_⟩
  · intro mode k
    rw [holders_init]
    cases mode <;> simp [Coord.init, NewPathLocker, PathLocker.table, LockMap.get]
  · intro mode k
    rw [holders_init]
    cases mode <;> simp [Coord.init, NewPathLocker, PathLocker.table, LockMap.keys]
  · simp [Coord.init]
  · simp [Coord.init]

theorem refInv_step (wd : Option Path) (c c1 : Coord) (h : RefInv c) (hs : Step wd c c1) :
    RefInv c1 := by
  obtain ⟨h1, h2, h3, h4⟩ := h
  cases hs with
  | request mode paths hne =>
    refine ⟨h1, h2, h3, ?_⟩
    intro r hr
    rcases List.mem_append.1 hr with hr | hr
    · exact h4 r hr
    · have : r = ⟨mode, normalizeLockPaths wd paths⟩ := by simpa using hr
      rw [this]
      exact nodup_normalize wd paths
  | grant i r hi hcan =>
    have hr : r ∈ c.waiting := List.get?_mem hi
    have hnd := h4 r hr
    have hh : ∀ m k, Coord.holders
        { pl := c.pl.acquire r.mode r.keys, guards := c.guards ++ [⟨r.mode, r.keys, false⟩],
          waiting := c.waiting.eraseIdx i } m k =
        c.holders m k + if m = r.mode ∧ k ∈ r.keys then 1 else 0 := by
      intro m k
      simp only [Coord.holders, List.countP_append, List.countP_cons, List.countP_nil,
        Bool.not_false, Bool.true_and, Bool.and_eq_true, decide_eq_true_eq, zero_add]
      by_cases hm : m = r.mode <;> by_cases hk : k ∈ r.keys <;> simp [hm, hk, eq_comm]
    refine ⟨?_, ?_, ?_, ?_⟩
    · intro m k
      rw [hh, table_acquire]
      by_cases hm : m = r.mode
      · subst hm
        simp only [if_true, true_and]
        rw [LockMap.get_incrAll _ hnd, h1]
        by_cases hk : k ∈ r.keys <;> simp [hk]
      · simp only [hm, if_false, false_and, add_zero]
        exact h1 m k
    · intro m k
      rw [hh, table_acquire]
      by_cases hm : m = r.mode
      · subst hm
        simp only [if_true, true_and]
        rw [LockMap.mem_keys_incrAll, h2]
        by_cases hk : k ∈ r.keys <;> simp [hk]
      · simp only [hm, if_false, false_and, add_zero]
        exact h2 m k
    · intro g hg
      rcases List.mem_append.1 hg with hg | hg
      · exact h3 g hg
      · have : g = ⟨r.mode, r.keys, false⟩ := by simpa using hg
        rw [this]
        exact hnd
    · intro r1 hr1
      exact h4 r1 (List.mem_of_mem_eraseIdx hr1)
  | unlock i =>
    unfold Coord.unlock
    cases hg : c.guards.get? i with
    | none => exact ⟨h1, h2, h3, h4⟩
    | some g =>
      simp only []
      by_cases hrel : g.released = true
      · simp only [hrel, if_true]
        exact ⟨h1, h2, h3, h4⟩
      · simp only [hrel, Bool.false_eq_true, if_false]
        have hnd := h3 g (List.get?_mem hg)
        have hh : ∀ m k, Coord.holders
            { c with pl := c.pl.release g.mode g.keys,
                     guards := c.guards.set i { g with released := true } } m k +
            (if m = g.mode ∧ k ∈ g.keys then 1 else 0) = c.holders m k := by
          intro m k
          have := countP_set_add
            (fun g : Guard => !g.released && decide (g.mode = m) && decide (k ∈ g.keys))
            c.guards i g { g with released := true } hg
          simp only [Coord.holders]
          simp only [Bool.not_true, Bool.false_and, Bool.false_eq_true, if_false, add_zero,
            Bool.and_eq_true, Bool.not_eq_true', decide_eq_true_eq] at this
          rw [← this]
          have hf : g.released = false := by simpa using hrel
          by_cases hm : m = g.mode <;> by_cases hk : k ∈ g.keys <;> simp [hm, hk, hf, eq_comm]
        refine ⟨?_, ?_, ?_, h4⟩
        · intro m k
          have e := hh m k
          rw [table_release]
          by_cases hm : m = g.mode
          · subst hm
            simp only [if_true, true_and] at e ⊢
            rw [LockMap.get_decrAll _ hnd, h1, ← e]
            by_cases hk : k ∈ g.keys <;> simp [hk]
          · simp only [hm, if_false, false_and, add_zero] at e ⊢
            rw [h1, e]
        · intro m k
          have e := hh m k
          rw [table_release]
          by_cases hm : m = g.mode
          · subst hm
            simp only [if_true, true_and] at e ⊢
            rw [LockMap.mem_keys_decrAll _ hnd, h1, h2, ← e]
            by_cases hk : k ∈ g.keys
            · simp only [hk, if_true, not_true_eq_false, false_and, or_false, true_and]
              push_cast
              constructor
              · intro h5; omega
              · intro h5; omega
            · simp [hk]
          · simp only [hm, if_false, false_and, add_zero] at e ⊢
            rw [h2, e]
        · intro g1 hg1
          rcases List.mem_or_eq_of_mem_set hg1 with h5 | h5
          · exact h3 g1 h5
          · rw [h5]; exact hnd

theorem refInv_reachable (wd : Option Path) (c : Coord) (h : Reachable wd c) : RefInv c := by
  induction h with
  | init => exact refInv_init
  | step _ hs ih => exact refInv_step wd _ _ ih hs

theorem canAcquireExact_iff (pl : PathLocker) (ks : List Path) :
    pl.canAcquireExact ks = true ↔
      ∀ k ∈ ks, ¬ (0 < pl.exactLocks.get k) ∧
        ∀ s ∈ pl.subtreeLocks.keys, isSameOrDescendant k s = false := by
  induction ks with
  | nil => simp [PathLocker.canAcquireExact]
  | cons k ks ih =>
    unfold PathLocker.canAcquireExact
    by_cases h1 : 0 < pl.exactLocks.get k
    · simp [h1]
    · simp only [h1, if_false]
      by_cases h2 : (pl.subtreeLocks.keys.any fun s => isSameOrDescendant k s) = true
      · simp only [h2, if_true, Bool.false_eq_true, false_iff]
        intro hcon
        obtain ⟨s, hs, hd⟩ := List.any_eq_true.1 h2
        have := (hcon k (by simp)).2 s hs
        rw [this] at hd
        exact Bool.false_ne_true hd
      · simp only [h2, if_false, Bool.false_eq_true]
        rw [ih]
        have h3 : ∀ s ∈ pl.subtreeLocks.keys, isSameOrDescendant k s = false := by
          intro s hs
          by_contra hcon
          exact h2 (List.any_eq_true.2 ⟨s, hs, by simpa using hcon⟩)
        constructor
        · intro h k1 hk1
          rcases List.mem_cons.1 hk1 with h4 | h4
          · rw [h4]; exact ⟨h1, h3⟩
          · exact h k1 h4
        · intro h k1 hk1
          exact h k1 (List.mem_cons_of_mem _ hk1)

theorem canAcquireSubtree_iff (pl : PathLocker) (ks : List Path) :
    pl.canAcquireSubtree ks = true ↔
      ∀ s ∈ ks, (∀ e ∈ pl.exactLocks.keys, isSameOrDescendant e s = false) ∧
        ∀ s1 ∈ pl.subtreeLocks.keys, overlapsSubtree s s1 = false := by
  induction ks with
  | nil => simp [PathLocker.canAcquireSubtree]
  | cons k ks ih =>
    unfold PathLocker.canAcquireSubtree
    by_cases h1 : (pl.exactLocks.keys.any fun e => isSameOrDescendant e k) = true
    · simp only [h1, if_true, Bool.false_eq_true, false_iff]
      intro hcon
      obtain ⟨e, he, hd⟩ := List.any_eq_true.1 h1
      have := (hcon k (by simp)).1 e he
      rw [this] at hd
      exact Bool.false_ne_true hd
    · simp only [h1, if_false, Bool.false_eq_true]
      by_cases h2 : (pl.subtreeLocks.keys.any fun s => overlapsSubtree k s) = true
      · simp only [h2, if_true, Bool.false_eq_true, false_iff]
        intro hcon
        obtain ⟨s, hs, hd⟩ := List.any_eq_true.1 h2
        have := (hcon k (by simp)).2 s hs
        rw [this] at hd
        exact Bool.false_ne_true hd
      · simp only [h2, if_false, Bool.false_eq_true]
        rw [ih]
        have h3 : ∀ e ∈ pl.exactLocks.keys, isSameOrDescendant e k = false := by
          intro e he
          by_contra hcon
          exact h1 (List.any_eq_true.2 ⟨e, he, by simpa using hcon⟩)
        have h4 : ∀ s ∈ pl.subtreeLocks.keys, overlapsSubtree k s = false := by
          intro s hs
          by_contra hcon
          exact h2 (List.any_eq_true.2 ⟨s, hs, by simpa using hcon⟩)
        constructor
        · intro h k1 hk1
          rcases List.mem_cons.1 hk1 with h5 | h5
          · rw [h5]; exact ⟨h3, h4⟩
          · exact h k1 h5
        · intro h k1 hk1
          exact h k1 (List.mem_cons_of_mem _ hk1)

theorem conflicts_symm (m m1 : LockMode) (k k1 : Path) :
    conflicts m k m1 k1 = conflicts m1 k1 m k := by
  cases m <;> cases m1 <;> simp [conflicts, overlapsSubtree, Bool.or_comm, eq_comm]

theorem holders_pos (c : Coord) (j : Nat) (g : Guard) (k : Path)
    (hj : c.guards.get? j = some g) (hl : g.released = false) (hk : k ∈ g.keys) :
    0 < c.holders g.mode k := by
  unfold Coord.holders
  rw [List.countP_pos_iff]
  exact ⟨g, List.get?_mem hj, by simp [hl, hk]⟩

/-- A request that passes its wait-loop predicate conflicts with no live guard. -/
theorem canAcquire_no_conflict (c : Coord) (hinv : RefInv c) (mode : LockMode)
    (ks : List Path) (hcan : c.pl.canAcquire mode ks = true) (j : Nat) (g : Guard)
    (hj : c.guards.get? j = some g) (hl : g.released = false) :
    ∀ k ∈ ks, ∀ k1 ∈ g.keys, conflicts mode k g.mode k1 = false := by
  intro k hk k1 hk1
  have hpos := holders_pos c j g k1 hj hl hk1
  have hmem := (hinv.2.1 g.mode k1).2 hpos
  have hget := hinv.1 g.mode k1
  cases mode with
  | exact =>
    have hc := (canAcquireExact_iff c.pl ks).1 hcan k hk
    cases hm : g.mode with
    | exact =>
      rw [hm] at hmem hget hpos
      simp only [conflicts, decide_eq_false_iff_not]
      intro heq
      subst heq
      apply hc.1
      simp only [PathLocker.table] at hget
      rw [hget]
      exact_mod_cast hpos
    | subtree =>
      rw [hm] at hmem
      simp only [conflicts]
      exact hc.2 k1 hmem
  | subtree =>
    have hc := (canAcquireSubtree_iff c.pl ks).1 hcan k hk
    cases hm : g.mode with
    | exact =>
      rw [hm] at hmem
      simp only [conflicts]
      exact hc.1 k1 hmem
    | subtree =>
      rw [hm] at hmem
      simp only [conflicts]
      exact hc.2 k1 hmem

theorem get?_append_lt {α : Type} (l1 l2 : List α) (i : Nat) (h : i < l1.length) :
    (l1 ++ l2).get? i = l1.get? i := by
  simp [List.getElem?_append_left h]

theorem get?_append_ge {α : Type} (l1 l2 : List α) (i : Nat) (h : l1.length ≤ i) :
    (l1 ++ l2).get? i = l2.get? (i - l1.length) := by
  simp [List.getElem?_append_right h]

theorem get?_set_eq {α : Type} (l : List α) (i j : Nat) (a : α) :
    (l.set i a).get? j = if i = j then (l.get? j).map (fun _ => a) else l.get? j := by
  simp only [List.get?_eq_getElem?, List.getElem?_set]
  by_cases h : i = j
  · subst h
    by_cases h1 : i < l.length
    · simp [h1]
    · simp [h1, List.getElem?_eq_none (by omega : l.length ≤ i)]
  · simp [h]

theorem conflictFree_init : ConflictFree Coord.init := by
  intro i j gi gj _ hi
  simp [Coord.init] at hi

theorem conflictFree_step (wd : Option Path) (c c1 : Coord) (hinv : RefInv c)
    (h : ConflictFree c) (hs : Step wd c c1) : ConflictFree c1 := by
  cases hs with
  | request mode paths hne => exact h
  | grant n r hn hcan =>
    intro i j gi gj hij hi hj hli hlj k hk k1 hk1
    simp only [] at hi hj
    by_cases hi1 : i < c.guards.length
    · rw [get?_append_lt _ _ _ hi1] at hi
      by_cases hj1 : j < c.guards.length
      · rw [get?_append_lt _ _ _ hj1] at hj
        exact h i j gi gj hij hi hj hli hlj k hk k1 hk1
      · rw [get?_append_ge _ _ _ (by omega)] at hj
        cases hjj : j - c.guards.length with
        | zero =>
          rw [hjj] at hj
          simp only [List.get?_cons_zero, Option.some.injEq] at hj
          subst hj
          rw [conflicts_symm]
          exact canAcquire_no_conflict c hinv r.mode r.keys hcan i gi hi hli k1 hk1 k hk
        | succ m => rw [hjj] at hj; simp at hj
    · rw [get?_append_ge _ _ _ (by omega)] at hi
      cases hii : i - c.guards.length with
      | zero =>
        rw [hii] at hi
        simp only [List.get?_cons_zero, Option.some.injEq] at hi
        subst hi
        by_cases hj1 : j < c.guards.length
        · rw [get?_append_lt _ _ _ hj1] at hj
          exact canAcquire_no_conflict c hinv r.mode r.keys hcan j gj hj hlj k hk k1 hk1
        · rw [get?_append_ge _ _ _ (by omega)] at hj
          cases hjj : j - c.guards.length with
          | zero => omega
          | succ m => rw [hjj] at hj; simp at hj
      | succ m => rw [hii] at hi; simp at hi
  | unlock n =>
    unfold Coord.unlock
    cases hg : c.guards.get? n with
    | none => exact h
    | some g =>
      simp only []
      by_cases hrel : g.released = true
      · simp only [hrel, if_true]; exact h
      · simp only [hrel, Bool.false_eq_true, if_false]
        intro i j gi gj hij hi hj hli hlj k hk k1 hk1
        simp only [get?_set_eq] at hi hj
        by_cases hin : n = i
        · subst hin
          simp only [if_true, hg, Option.map_some', Option.some.injEq] at hi
          subst hi
          simp at hli
        · simp only [hin, if_false] at hi
          by_cases hjn : n = j
          · subst hjn
            simp only [if_true, hg, Option.map_some', Option.some.injEq] at hj
            subst hj
            simp at hlj
          · simp only [hjn, if_false] at hj
            exact h i j gi gj hij hi hj hli hlj k hk k1 hk1

theorem conflictFree_reachable (wd : Option Path) (c : Coord) (h : Reachable wd c) :
    ConflictFree c := by
  induction h with
  | init => exact conflictFree_init
  | step hr hs ih => exact conflictFree_step wd _ _ (refInv_reachable wd _ hr) ih hs

/-! ## The sandbox: claims -/

theorem join_eq (bs : List Path) (hb : ∀ e ∈ bs, Proper e) (rel : Path) :
    Join [absPath bs, rel] = absPath ((rel.splitOn '/').foldl popStep bs) := by
  have hne : absPath bs ≠ [] := by simp [absPath]
  have hj : stringsJoin [absPath bs, rel] ['/'] = '/' :: (['/'].intercalate bs ++ '/' :: rel) := by
    simp [stringsJoin, absPath, List.intercalate]
  simp only [Join, hne, ne_eq, not_false_eq_true, if_true]
  rw [hj, Clean_rooted, fold_split_join bs hb rel []]
  simp

/-- Under a canonical root the candidate of `ResolveWithinRoot` is canonical, the call
succeeds exactly when the candidate is within the root, and the relative path computed
by `Rel` starts with `..` exactly when it is not. -/
theorem resolve_spec (root input : Path) (hroot : IsCanonical root) :
    IsCanonical (Clean (Join [root, TrimPrefix (TrimSpace input) ['/']])) ∧
    (ResolveWithinRoot root input =
      if Within (Clean (Join [root, TrimPrefix (TrimSpace input) ['/']])) root
      then some (Clean (Join [root, TrimPrefix (TrimSpace input) ['/']])) else none) ∧
    ∃ rel, Rel root (Clean (Join [root, TrimPrefix (TrimSpace input) ['/']])) = some rel ∧
      ((rel = ['.', '.'] ∨ HasPrefix rel ['.', '.', '/'] = true) ↔
        ¬ Within (Clean (Join [root, TrimPrefix (TrimSpace input) ['/']])) root) := by
  obtain ⟨bs, hb, rfl⟩ := (canonical_iff root).1 hroot
  obtain ⟨hc, hp⟩ := candidate_eq bs hb (TrimPrefix (TrimSpace input) ['/'])
  have hw : ∀ ts, (∀ e ∈ ts, Proper e) → (Within (absPath ts) (absPath bs) ↔ bs <+: ts) := by
    intro ts ht
    unfold Within
    rw [components_absPath bs hb, components_absPath ts ht]
  refine ⟨?_, ?_, ?_⟩
  · rw [hc]
    exact (canonical_iff _).2 ⟨_, hp, rfl⟩
  · rw [resolve_eq bs hb input, hc]
    by_cases h : bs <+: ((TrimPrefix (TrimSpace input) ['/']).splitOn '/').foldl popStep bs
    · simp [h, (hw _ hp).2 h]
    · have : ¬ Within (absPath (((TrimPrefix (TrimSpace input) ['/']).splitOn '/').foldl
          popStep bs)) (absPath bs) := fun h1 => h ((hw _ hp).1 h1)
      simp [h, this]
  · rw [hc]
    obtain ⟨r, hr, hiff⟩ := Rel_canonical bs _ hb hp
    exact ⟨r, hr, by rw [hiff, hw _ hp]⟩

/-- C1: for every clean absolute root and every input, a successful result `c` of
`ResolveWithinRoot` is lexically clean (and absolute) and lies inside the root: the
path elements of the root are a beginning of the path elements of `c`. -/
theorem C1_resolve_result_inside_root (root input c : Path) (hroot : IsCanonical root)
    (h : ResolveWithinRoot root input = some c) :
    Clean c = c ∧ IsAbs c = true ∧ components root <+: components c := by
  obtain ⟨hcan, heq, -⟩ := resolve_spec root input hroot
  rw [heq] at h
  split at h
  · rename_i hw
    simp only [Option.some.injEq] at h
    subst h
    exact ⟨hcan.2, hcan.1, hw⟩
  · simp at h

/-- C1, instance: root `/workspace/user1` and input `a/../b` of the test table. -/
theorem C1_resolve_result_inside_root_witness :
    IsCanonical "/workspace/user1".toList ∧
    ResolveWithinRoot "/workspace/user1".toList " a/../b ".toList =
      some "/workspace/user1/b".toList ∧
    (Clean "/workspace/user1/b".toList = "/workspace/user1/b".toList ∧
      IsAbs "/workspace/user1/b".toList = true ∧
      components "/workspace/user1".toList <+: components "/workspace/user1/b".toList) :=
  ⟨by decide, by decide,
    C1_resolve_result_inside_root "/workspace/user1".toList " a/../b ".toList
      "/workspace/user1/b".toList (by decide) (by decide)⟩

theorem resolve_dotdot_inside (root : Path) (hroot : IsCanonical root) :
    ResolveWithinRoot root "a/../b".toList = some (Join [root, "b".toList]) := by
  obtain ⟨bs, hb, rfl⟩ := (canonical_iff root).1 hroot
  rw [resolve_eq bs hb, join_eq bs hb]
  have h1 : TrimPrefix (TrimSpace "a/../b".toList) ['/'] = "a/../b".toList := by decide
  have h2 : "a/../b".toList.splitOn '/' = [['a'], ['.', '.'], ['b']] := by decide
  have h3 : "b".toList.splitOn '/' = [['b']] := by decide
  have h4 : ∀ st : List Path, popStep st ['a'] = st ++ [['a']] := fun st => by simp [popStep]
  have h5 : ∀ st : List Path, popStep st ['b'] = st ++ [['b']] := fun st => by simp [popStep]
  rw [h1, h2, h3]
  simp only [List.foldl_cons, List.foldl_nil, h4, h5, popStep_dotdot, List.dropLast_concat]
  simp

/-- C2 (as amended): under every clean absolute root `ResolveWithinRoot` fails exactly
when the cleaned join of the root with the trimmed, once-stripped input lies outside
the root, which is exactly when its relative path from the root is `..` or starts with
`../`; `a/../b` is accepted under every such root and yields `Join(root, "b")`; under
the root `/workspace/user1` of the test the inputs `../escape`, `a/../../escape` and
`/../../etc/passwd` are rejected. -/
theorem C2_resolve_fails_iff_outside (root input : Path) (hroot : IsCanonical root) :
    (ResolveWithinRoot root input = none ↔
      ¬ Within (Clean (Join [root, TrimPrefix (TrimSpace input) ['/']])) root) ∧
    (ResolveWithinRoot root input = none ↔
      ∃ rel, Rel root (Clean (Join [root, TrimPrefix (TrimSpace input) ['/']])) = some rel ∧
        (rel = ['.', '.'] ∨ HasPrefix rel ['.', '.', '/'] = true)) ∧
    ResolveWithinRoot root "a/../b".toList = some (Join [root, "b".toList]) ∧
    ResolveWithinRoot "/workspace/user1".toList "../escape".toList = none ∧
    ResolveWithinRoot "/workspace/user1".toList "a/../../escape".toList = none ∧
    ResolveWithinRoot "/workspace/user1".toList "/../../etc/passwd".toList = none := by
  obtain ⟨-, heq, rel, hrel, hiff⟩ := resolve_spec root input hroot
  have h1 : ResolveWithinRoot root input = none ↔
      ¬ Within (Clean (Join [root, TrimPrefix (TrimSpace input) ['/']])) root := by
    rw [heq]
    split <;> simp [*]
  refine ⟨h1, ?_, resolve_dotdot_inside root hroot, by decide, by decide, by decide⟩
  rw [h1, ← hiff]
  constructor
  · intro h; exact ⟨rel, hrel, h⟩
  · rintro ⟨r, hr, h⟩
    rw [hrel] at hr
    simp only [Option.some.injEq] at hr
    rw [hr]; exact h

/-- C2, instance: root `/workspace/user1` and input `../escape` of the test table. -/
theorem C2_resolve_fails_iff_outside_witness :
    IsCanonical "/workspace/user1".toList ∧
    ((ResolveWithinRoot "/workspace/user1".toList "../escape".toList = none ↔
      ¬ Within (Clean (Join ["/workspace/user1".toList,
        TrimPrefix (TrimSpace "../escape".toList) ['/']])) "/workspace/user1".toList) ∧
    (ResolveWithinRoot "/workspace/user1".toList "../escape".toList = none ↔
      ∃ rel, Rel "/workspace/user1".toList (Clean (Join ["/workspace/user1".toList,
        TrimPrefix (TrimSpace "../escape".toList) ['/']])) = some rel ∧
        (rel = ['.', '.'] ∨ HasPrefix rel ['.', '.', '/'] = true)) ∧
    ResolveWithinRoot "/workspace/user1".toList "a/../b".toList =
      some (Join ["/workspace/user1".toList, "b".toList]) ∧
    ResolveWithinRoot "/workspace/user1".toList "../escape".toList = none ∧
    ResolveWithinRoot "/workspace/user1".toList "a/../../escape".toList = none ∧
    ResolveWithinRoot "/workspace/user1".toList "/../../etc/passwd".toList = none) :=
  ⟨by decide,
    C2_resolve_fails_iff_outside "/workspace/user1".toList "../escape".toList (by decide)⟩

/-- C2, as stated, fails: the root `/` is clean and absolute, and under it the inputs
`../escape`, `a/../../escape` and `/../../etc/passwd` are all accepted. -/
theorem C2_root_slash_rejects_nothing :
    IsCanonical "/".toList ∧
    ResolveWithinRoot "/".toList "../escape".toList = some "/escape".toList ∧
    ResolveWithinRoot "/".toList "a/../../escape".toList = some "/escape".toList ∧
    ResolveWithinRoot "/".toList "/../../etc/passwd".toList = some "/etc/passwd".toList := by
  decide

/-- C3: the code at the failing input. The `X-User-Id` value `../../etc` (9 bytes)
passes `UserContext`, and the root the handlers then compute under the workspace base
`/ws` is `/etc`: outside the base, with `passwd` resolving to `/etc/passwd`. -/
theorem C3_user_root_leaves_workspace :
    UserContext "/ws".toList (fun _ => true) "../../etc".toList = .next "../../etc".toList ∧
    handlerRoot "/ws".toList "../../etc".toList = "/etc".toList ∧
    ¬ Within (handlerRoot "/ws".toList "../../etc".toList) "/ws".toList ∧
    ResolveWithinRoot (handlerRoot "/ws".toList "../../etc".toList) "passwd".toList =
      some "/etc/passwd".toList := by
  decide

/-! ## The coordinator: claims -/

theorem isSameOrDescendant_self (k : Path) : isSameOrDescendant k k = true := by
  simp [isSameOrDescendant, Rel]

theorem reachable_request (wd : Option Path) (c : Coord) (mode : LockMode)
    (paths : List Path) (h : Reachable wd c) : Reachable wd (c.request wd mode paths) := by
  unfold Coord.request
  simp only []
  split
  · exact h
  · rename_i hne
    exact Reachable.step h (Step.request c mode paths hne)

theorem reachable_grant (wd : Option Path) (c : Coord) (i : Nat) (h : Reachable wd c) :
    Reachable wd (c.grant i) := by
  unfold Coord.grant
  cases hr : c.waiting.get? i with
  | none => exact h
  | some r =>
    simp only []
    split
    · rename_i hcan
      exact Reachable.step h (Step.grant c i r hr hcan)
    · exact h

theorem reachable_unlock (wd : Option Path) (c : Coord) (i : Nat) (h : Reachable wd c) :
    Reachable wd (c.unlock i) :=
  Reachable.step h (Step.unlock c i)

/-- C4: in every state reachable from `NewPathLocker()` any two distinct live guards
respect the conflict matrix: two exact guards share no key; no key of an exact guard
equals or lies below a key of a subtree guard; no key of a subtree guard equals, lies
below or lies above a key of another subtree guard. The relation is the one the code
computes (`isSameOrDescendant`), and on canonical keys the element-wise `Within`. -/
theorem C4_live_guards_respect_matrix (wd : Option Path) (c : Coord)
    (h : Reachable wd c) (i j : Nat) (gi gj : Guard) (hij : i ≠ j)
    (hi : c.guards.get? i = some gi) (hj : c.guards.get? j = some gj)
    (hli : gi.released = false) (hlj : gj.released = false) :
    (gi.mode = .exact → gj.mode = .exact → ∀ k ∈ gi.keys, k ∉ gj.keys) ∧
    (gi.mode = .exact → gj.mode = .subtree → ∀ k ∈ gi.keys, ∀ s ∈ gj.keys,
      k ≠ s ∧ isSameOrDescendant k s = false ∧
      (IsCanonical k → IsCanonical s → ¬ Within k s)) ∧
    (gi.mode = .subtree → gj.mode = .subtree → ∀ s ∈ gi.keys, ∀ s1 ∈ gj.keys,
      s ≠ s1 ∧ isSameOrDescendant s s1 = false ∧ isSameOrDescendant s1 s = false ∧
      (IsCanonical s → IsCanonical s1 → ¬ Within s s1 ∧ ¬ Within s1 s)) := by
  have hcf := conflictFree_reachable wd c h i j gi gj hij hi hj hli hlj
  refine ⟨?_, ?_, ?_⟩
  · intro hmi hmj k hk hk1
    have := hcf k hk k hk1
    rw [hmi, hmj] at this
    simp [conflicts] at this
  · intro hmi hmj k hk s hs
    have := hcf k hk s hs
    rw [hmi, hmj] at this
    simp only [conflicts] at this
    refine ⟨?_, this, ?_⟩
    · intro heq
      rw [heq, isSameOrDescendant_self] at this
      exact Bool.noConfusion this
    · intro hck hcs hw
      rw [(isSameOrDescendant_iff k s hck hcs).2 hw] at this
      exact Bool.noConfusion this
  · intro hmi hmj s hs s1 hs1
    have := hcf s hs s1 hs1
    rw [hmi, hmj] at this
    simp only [conflicts, overlapsSubtree, Bool.or_eq_false_iff] at this
    refine ⟨?_, this.1, this.2, ?_⟩
    · intro heq
      have h2 := this.1
      rw [heq, isSameOrDescendant_self] at h2
      exact Bool.noConfusion h2
    · intro hcs hcs1
      constructor
      · intro hw
        have h2 := this.1
        rw [(isSameOrDescendant_iff s s1 hcs hcs1).2 hw] at h2
        exact Bool.noConfusion h2
      · intro hw
        have h2 := this.2
        rw [(isSameOrDescendant_iff s1 s hcs1 hcs).2 hw] at h2
        exact Bool.noConfusion h2

theorem sampleTwoGuards_reachable : Reachable none sampleTwoGuards :=
  reachable_grant _ _ _ (reachable_request _ _ _ _
    (reachable_grant _ _ _ (reachable_request _ _ _ _ Reachable.init)))

/-- C4, instance: an exact guard on `/x/a.txt` and a subtree guard on `/x/dir`, both
live. -/
theorem C4_live_guards_respect_matrix_witness :
    Reachable none sampleTwoGuards ∧
    sampleTwoGuards.guards.get? 0 = some ⟨.exact, ["/x/a.txt".toList], false⟩ ∧
    sampleTwoGuards.guards.get? 1 = some ⟨.subtree, ["/x/dir".toList], false⟩ ∧
    ((LockMode.exact = .exact → LockMode.subtree = .exact →
      ∀ k ∈ ["/x/a.txt".toList], k ∉ ["/x/dir".toList]) ∧
    (LockMode.exact = .exact → LockMode.subtree = .subtree →
      ∀ k ∈ ["/x/a.txt".toList], ∀ s ∈ ["/x/dir".toList],
      k ≠ s ∧ isSameOrDescendant k s = false ∧
      (IsCanonical k → IsCanonical s → ¬ Within k s)) ∧
    (LockMode.exact = .subtree → LockMode.subtree = .subtree →
      ∀ s ∈ ["/x/a.txt".toList], ∀ s1 ∈ ["/x/dir".toList],
      s ≠ s1 ∧ isSameOrDescendant s s1 = false ∧ isSameOrDescendant s1 s = false ∧
      (IsCanonical s → IsCanonical s1 → ¬ Within s s1 ∧ ¬ Within s1 s))) :=
  ⟨sampleTwoGuards_reachable, by decide, by decide,
    C4_live_guards_respect_matrix none sampleTwoGuards sampleTwoGuards_reachable 0 1
      ⟨.exact, ["/x/a.txt".toList], false⟩ ⟨.subtree, ["/x/dir".toList], false⟩
      (by decide) (by decide) (by decide) rfl rfl⟩

theorem holders_eq_live (c : Coord) (m : LockMode) (k : Path) :
    c.holders m k = c.live.countP fun g => decide (g.mode = m) && decide (k ∈ g.keys) := by
  unfold Coord.holders Coord.live
  rw [List.countP_filter]
  congr 1
  funext g
  cases g.released <;> simp [Bool.and_comm]

/-- With one live guard, the map of its mode holds exactly its keys, each with count
one, and the other map is empty. -/
theorem single_live (c : Coord) (hinv : RefInv c) (g : Guard) (hlive : c.live = [g]) :
    (∀ k, (c.pl.table g.mode).get k = if k ∈ g.keys then 1 else 0) ∧
    (∀ k, k ∈ (c.pl.table g.mode).keys ↔ k ∈ g.keys) ∧
    (∀ m, m ≠ g.mode → c.pl.table m = []) := by
  have hh : ∀ m k, c.holders m k = if g.mode = m ∧ k ∈ g.keys then 1 else 0 := by
    intro m k
    rw [holders_eq_live, hlive]
    by_cases h1 : g.mode = m <;> by_cases h2 : k ∈ g.keys <;> simp [h1, h2]
  refine ⟨?_, ?_, ?_⟩
  · intro k
    rw [hinv.1, hh]
    by_cases h2 : k ∈ g.keys <;> simp [h2]
  · intro k
    rw [hinv.2.1, hh]
    by_cases h2 : k ∈ g.keys <;> simp [h2]
  · intro m hm
    have hk : (c.pl.table m).keys = [] := by
      apply List.eq_nil_iff_forall_not_mem.2
      intro k hk
      have := (hinv.2.1 m k).1 hk
      rw [hh] at this
      simp [Ne.symm hm] at this
    simpa [LockMap.keys] using hk

theorem normalize_singleton (wd : Option Path) (p : Path) :
    normalizeLockPaths wd [p] = [canonicalPath wd p] := by
  simp [normalizeLockPaths, List.dedup]

theorem canonicalPath_of_canonical (wd : Option Path) (p : Path) (h : IsCanonical p) :
    canonicalPath wd p = p := by
  unfold canonicalPath Abs
  simp [h.2, h.1]

theorem lock_blocked_iff (wd : Option Path) (pl : PathLocker) (mode : LockMode) (p : Path) :
    pl.lock wd mode [p] = .blocked ↔ pl.canAcquire mode [canonicalPath wd p] = false := by
  unfold PathLocker.lock
  simp only [normalize_singleton]
  cases h : pl.canAcquire mode [canonicalPath wd p] <;> simp

/-- C5: while an exact guard on `p` is the only live guard, a `LockExact(p1)` request
is blocked (its `canAcquireExact` is false) exactly when `p` and `p1` have the same
canonical path; `/x/dir/../a.txt` and `/x/a.txt` do, `/x/a.txt` and `/x/b.txt` do not. -/
theorem C5_exact_blocks_same_canonical_path (wd : Option Path) (c : Coord) (p p1 : Path)
    (h : Reachable wd c)
    (hlive : c.live = [⟨.exact, normalizeLockPaths wd [p], false⟩]) :
    (c.pl.canAcquireExact (normalizeLockPaths wd [p1]) = false ↔
      canonicalPath wd p = canonicalPath wd p1) ∧
    (c.pl.LockExact wd [p1] = .blocked ↔ canonicalPath wd p = canonicalPath wd p1) ∧
    canonicalPath wd "/x/dir/../a.txt".toList = canonicalPath wd "/x/a.txt".toList ∧
    canonicalPath wd "/x/a.txt".toList ≠ canonicalPath wd "/x/b.txt".toList := by
  obtain ⟨h1, _, h3⟩ := single_live c (refInv_reachable wd c h) _ hlive
  have hsub : c.pl.subtreeLocks = [] := h3 .subtree (by simp)
  have hget : ∀ k, c.pl.exactLocks.get k = if k ∈ normalizeLockPaths wd [p] then 1 else 0 := h1
  have key : c.pl.canAcquireExact (normalizeLockPaths wd [p1]) = false ↔
      canonicalPath wd p = canonicalPath wd p1 := by
    rw [normalize_singleton]
    simp only [PathLocker.canAcquireExact, hget, hsub, normalize_singleton, List.mem_singleton,
      LockMap.keys, List.map_nil, List.any_nil, Bool.false_eq_true, if_false]
    by_cases heq : canonicalPath wd p1 = canonicalPath wd p
    · simp [heq]
    · simp [heq, Ne.symm heq]
  refine ⟨key, ?_, ?_, ?_⟩
  · rw [← key, normalize_singleton]
    exact lock_blocked_iff wd c.pl .exact p1
  · have e1 : canonicalPath wd "/x/dir/../a.txt".toList = "/x/a.txt".toList := rfl
    have e2 : canonicalPath wd "/x/a.txt".toList = "/x/a.txt".toList := rfl
    rw [e1, e2]
  · have e2 : canonicalPath wd "/x/a.txt".toList = "/x/a.txt".toList := rfl
    have e3 : canonicalPath wd "/x/b.txt".toList = "/x/b.txt".toList := rfl
    rw [e2, e3]
    decide

theorem sampleExactHeld_reachable : Reachable none sampleExactHeld :=
  reachable_grant _ _ _ (reachable_request _ _ _ _ Reachable.init)

/-- C5, instance: `/x/dir/../a.txt` held exactly, `/x/a.txt` requested. -/
theorem C5_exact_blocks_same_canonical_path_witness :
    Reachable none sampleExactHeld ∧
    sampleExactHeld.live =
      [⟨.exact, normalizeLockPaths none ["/x/dir/../a.txt".toList], false⟩] ∧
    ((sampleExactHeld.pl.canAcquireExact (normalizeLockPaths none ["/x/a.txt".toList]) = false ↔
      canonicalPath none "/x/dir/../a.txt".toList = canonicalPath none "/x/a.txt".toList) ∧
    (sampleExactHeld.pl.LockExact none ["/x/a.txt".toList] = .blocked ↔
      canonicalPath none "/x/dir/../a.txt".toList = canonicalPath none "/x/a.txt".toList) ∧
    canonicalPath none "/x/dir/../a.txt".toList = canonicalPath none "/x/a.txt".toList ∧
    canonicalPath none "/x/a.txt".toList ≠ canonicalPath none "/x/b.txt".toList) :=
  ⟨sampleExactHeld_reachable, by decide,
    C5_exact_blocks_same_canonical_path none sampleExactHeld "/x/dir/../a.txt".toList
      "/x/a.txt".toList sampleExactHeld_reachable (by decide)⟩

theorem within_antisymm (a b : Path) (ha : IsCanonical a) (hb : IsCanonical b)
    (h1 : Within a b) (h2 : Within b a) : a = b := by
  obtain ⟨as, has, rfl⟩ := (canonical_iff a).1 ha
  obtain ⟨bs, hbs, rfl⟩ := (canonical_iff b).1 hb
  unfold Within at h1 h2
  rw [components_absPath as has, components_absPath bs hbs] at h1 h2
  rw [h2.eq_of_length_le h1.length_le]

/-- C6: while a subtree guard on the canonical path `s` is the only live guard, a
`LockExact(x)` request for a canonical `x` is blocked exactly when `x` is `s` or lies
below `s`; in particular a strict ancestor of `s` is not blocked, as `/x/dir` is not
by a subtree guard on `/x/dir/sub`. -/
theorem C6_subtree_blocks_exact_within (wd : Option Path) (c : Coord) (s x : Path)
    (h : Reachable wd c) (hs : IsCanonical s) (hx : IsCanonical x)
    (hlive : c.live = [⟨.subtree, normalizeLockPaths wd [s], false⟩]) :
    (c.pl.LockExact wd [x] = .blocked ↔ Within x s) ∧
    (c.pl.canAcquireExact (normalizeLockPaths wd [x]) = true ↔ ¬ Within x s) ∧
    (Within s x → x ≠ s → c.pl.canAcquireExact (normalizeLockPaths wd [x]) = true) ∧
    (Within "/x/dir/sub".toList "/x/dir".toList ∧
      ¬ Within "/x/dir".toList "/x/dir/sub".toList) := by
  obtain ⟨_, h2, h3⟩ := single_live c (refInv_reachable wd c h) _ hlive
  have hex : c.pl.exactLocks = [] := h3 .exact (by simp)
  have hkeys : ∀ k, k ∈ c.pl.subtreeLocks.keys ↔ k = s := by
    intro k
    have := h2 k
    simpa [PathLocker.table, normalize_singleton, canonicalPath_of_canonical wd s hs] using this
  have key : c.pl.canAcquireExact (normalizeLockPaths wd [x]) = true ↔ ¬ Within x s := by
    rw [normalize_singleton, canonicalPath_of_canonical wd x hx, canAcquireExact_iff]
    simp only [List.mem_singleton, forall_eq, hex, LockMap.get, List.lookup, Option.getD_none,
      lt_self_iff_false, not_false_eq_true, true_and, hkeys]
    rw [← isSameOrDescendant_iff x s hx hs]
    simp
  refine ⟨?_, key, ?_, by decide⟩
  · have hb : c.pl.LockExact wd [x] = .blocked ↔
        c.pl.canAcquireExact (normalizeLockPaths wd [x]) = false := by
      rw [normalize_singleton]
      exact lock_blocked_iff wd c.pl .exact x
    rw [hb, ← not_iff_not, Bool.not_eq_false, key]
  · intro hw hne
    rw [key]
    intro hw1
    exact hne (within_antisymm x s hx hs hw1 hw)

theorem sampleSubtreeHeld_reachable : Reachable none sampleSubtreeHeld :=
  reachable_grant _ _ _ (reachable_request _ _ _ _ Reachable.init)

/-- C6, instance: subtree `/x/dir/sub` held, exact `/x/dir` requested. -/
theorem C6_subtree_blocks_exact_within_witness :
    Reachable none sampleSubtreeHeld ∧
    IsCanonical "/x/dir/sub".toList ∧ IsCanonical "/x/dir".toList ∧
    sampleSubtreeHeld.live = [⟨.subtree, normalizeLockPaths none ["/x/dir/sub".toList], false⟩] ∧
    ((sampleSubtreeHeld.pl.LockExact none ["/x/dir".toList] = .blocked ↔
      Within "/x/dir".toList "/x/dir/sub".toList) ∧
    (sampleSubtreeHeld.pl.canAcquireExact (normalizeLockPaths none ["/x/dir".toList]) = true ↔
      ¬ Within "/x/dir".toList "/x/dir/sub".toList) ∧
    (Within "/x/dir/sub".toList "/x/dir".toList → "/x/dir".toList ≠ "/x/dir/sub".toList →
      sampleSubtreeHeld.pl.canAcquireExact (normalizeLockPaths none ["/x/dir".toList]) = true) ∧
    (Within "/x/dir/sub".toList "/x/dir".toList ∧
      ¬ Within "/x/dir".toList "/x/dir/sub".toList)) :=
  ⟨sampleSubtreeHeld_reachable, by decide, by decide, by decide,
    C6_subtree_blocks_exact_within none sampleSubtreeHeld "/x/dir/sub".toList "/x/dir".toList
      sampleSubtreeHeld_reachable (by decide) (by decide) (by decide)⟩

/-- C7: while an exact guard on the canonical path `k` is the only live guard, a
`LockSubtree(s)` request for a canonical `s` is blocked exactly when `k` is `s` or lies
below `s`; an exact guard on a strict ancestor of `s` does not block it. -/
theorem C7_exact_blocks_subtree_above (wd : Option Path) (c : Coord) (k s : Path)
    (h : Reachable wd c) (hk : IsCanonical k) (hs : IsCanonical s)
    (hlive : c.live = [⟨.exact, normalizeLockPaths wd [k], false⟩]) :
    (c.pl.LockSubtree wd [s] = .blocked ↔ Within k s) ∧
    (c.pl.canAcquireSubtree (normalizeLockPaths wd [s]) = true ↔ ¬ Within k s) ∧
    (Within s k → s ≠ k → c.pl.canAcquireSubtree (normalizeLockPaths wd [s]) = true) ∧
    (Within "/x/dir/a.txt".toList "/x/dir".toList ∧
      ¬ Within "/x/dir1/a.txt".toList "/x/dir2".toList) := by
  obtain ⟨_, h2, h3⟩ := single_live c (refInv_reachable wd c h) _ hlive
  have hsub : c.pl.subtreeLocks = [] := h3 .subtree (by simp)
  have hkeys : ∀ e, e ∈ c.pl.exactLocks.keys ↔ e = k := by
    intro e
    have := h2 e
    simpa [PathLocker.table, normalize_singleton, canonicalPath_of_canonical wd k hk] using this
  have key : c.pl.canAcquireSubtree (normalizeLockPaths wd [s]) = true ↔ ¬ Within k s := by
    rw [normalize_singleton, canonicalPath_of_canonical wd s hs, canAcquireSubtree_iff]
    simp only [List.mem_singleton, forall_eq, hsub, LockMap.keys, List.map_nil,
      List.not_mem_nil, false_implies, implies_true, and_true]
    have hk2 : ∀ e, e ∈ List.map Prod.fst c.pl.exactLocks ↔ e = k := hkeys
    simp only [hk2, forall_eq]
    rw [← isSameOrDescendant_iff k s hk hs]
    simp
  refine ⟨?_, key, ?_, by decide⟩
  · have hb : c.pl.LockSubtree wd [s] = .blocked ↔
        c.pl.canAcquireSubtree (normalizeLockPaths wd [s]) = false := by
      rw [normalize_singleton]
      exact lock_blocked_iff wd c.pl .subtree s
    rw [hb, ← not_iff_not, Bool.not_eq_false, key]
  · intro hw hne
    rw [key]
    intro hw1
    exact hne (within_antisymm s k hs hk hw hw1)

theorem sampleExactBelow_reachable : Reachable none sampleExactBelow :=
  reachable_grant _ _ _ (reachable_request _ _ _ _ Reachable.init)

/-- C7, instance: exact `/x/dir/a.txt` held, subtree `/x/dir` requested. -/
theorem C7_exact_blocks_subtree_above_witness :
    Reachable none sampleExactBelow ∧
    IsCanonical "/x/dir/a.txt".toList ∧ IsCanonical "/x/dir".toList ∧
    sampleExactBelow.live = [⟨.exact, normalizeLockPaths none ["/x/dir/a.txt".toList], false⟩] ∧
    ((sampleExactBelow.pl.LockSubtree none ["/x/dir".toList] = .blocked ↔
      Within "/x/dir/a.txt".toList "/x/dir".toList) ∧
    (sampleExactBelow.pl.canAcquireSubtree (normalizeLockPaths none ["/x/dir".toList]) = true ↔
      ¬ Within "/x/dir/a.txt".toList "/x/dir".toList) ∧
    (Within "/x/dir".toList "/x/dir/a.txt".toList → "/x/dir".toList ≠ "/x/dir/a.txt".toList →
      sampleExactBelow.pl.canAcquireSubtree (normalizeLockPaths none ["/x/dir".toList]) = true) ∧
    (Within "/x/dir/a.txt".toList "/x/dir".toList ∧
      ¬ Within "/x/dir1/a.txt".toList "/x/dir2".toList)) :=
  ⟨sampleExactBelow_reachable, by decide, by decide, by decide,
    C7_exact_blocks_subtree_above none sampleExactBelow "/x/dir/a.txt".toList "/x/dir".toList
      sampleExactBelow_reachable (by decide) (by decide) (by decide)⟩

/-- C8: while a subtree guard on the canonical path `s1` is the only live guard, a
`LockSubtree(s)` request for a canonical `s` is blocked exactly when `s` is `s1`, lies
below `s1` or lies above `s1`; `overlapsSubtree` is symmetric, and the disjoint
subtrees `/x/dir1` and `/x/dir2` do not overlap. -/
theorem C8_subtree_blocks_overlapping_subtree (wd : Option Path) (c : Coord) (s1 s : Path)
    (h : Reachable wd c) (hs1 : IsCanonical s1) (hs : IsCanonical s)
    (hlive : c.live = [⟨.subtree, normalizeLockPaths wd [s1], false⟩]) :
    (c.pl.LockSubtree wd [s] = .blocked ↔ s = s1 ∨ Within s s1 ∨ Within s1 s) ∧
    (c.pl.canAcquireSubtree (normalizeLockPaths wd [s]) = false ↔
      s = s1 ∨ Within s s1 ∨ Within s1 s) ∧
    (∀ a b : Path, overlapsSubtree a b = overlapsSubtree b a) ∧
    overlapsSubtree "/x/dir1".toList "/x/dir2".toList = false := by
  obtain ⟨_, h2, h3⟩ := single_live c (refInv_reachable wd c h) _ hlive
  have hex : c.pl.exactLocks = [] := h3 .exact (by simp)
  have hkeys : ∀ e, e ∈ List.map Prod.fst c.pl.subtreeLocks ↔ e = s1 := by
    intro e
    have := h2 e
    simpa [PathLocker.table, LockMap.keys, normalize_singleton,
      canonicalPath_of_canonical wd s1 hs1] using this
  have hrefl : s = s1 → Within s s1 := by
    intro heq; rw [heq]; exact List.prefix_refl _
  have key : c.pl.canAcquireSubtree (normalizeLockPaths wd [s]) = false ↔
      s = s1 ∨ Within s s1 ∨ Within s1 s := by
    rw [← Bool.not_eq_true, normalize_singleton, canonicalPath_of_canonical wd s hs,
      canAcquireSubtree_iff]
    simp only [List.mem_singleton, forall_eq, hex, LockMap.keys, List.map_nil,
      List.not_mem_nil, false_implies, implies_true, true_and, hkeys]
    simp only [overlapsSubtree, Bool.or_eq_false_iff, not_and_or, Bool.not_eq_false,
      isSameOrDescendant_iff s s1 hs hs1, isSameOrDescendant_iff s1 s hs1 hs]
    constructor
    · intro h5; exact Or.inr h5
    · rintro (h5 | h5)
      · exact Or.inl (hrefl h5)
      · exact h5
  refine ⟨?_, key, ?_, by decide⟩
  · have hb : c.pl.LockSubtree wd [s] = .blocked ↔
        c.pl.canAcquireSubtree (normalizeLockPaths wd [s]) = false := by
      rw [normalize_singleton]
      exact lock_blocked_iff wd c.pl .subtree s
    rw [hb, key]
  · intro a b
    simp [overlapsSubtree, Bool.or_comm]

/-- C8, instance: subtree `/x/dir/sub` held, subtree `/x/dir` requested. -/
theorem C8_subtree_blocks_overlapping_subtree_witness :
    Reachable none sampleSubtreeHeld ∧
    IsCanonical "/x/dir/sub".toList ∧ IsCanonical "/x/dir".toList ∧
    sampleSubtreeHeld.live = [⟨.subtree, normalizeLockPaths none ["/x/dir/sub".toList], false⟩] ∧
    ((sampleSubtreeHeld.pl.LockSubtree none ["/x/dir".toList] = .blocked ↔
      "/x/dir".toList = "/x/dir/sub".toList ∨ Within "/x/dir".toList "/x/dir/sub".toList ∨
        Within "/x/dir/sub".toList "/x/dir".toList) ∧
    (sampleSubtreeHeld.pl.canAcquireSubtree (normalizeLockPaths none ["/x/dir".toList]) = false ↔
      "/x/dir".toList = "/x/dir/sub".toList ∨ Within "/x/dir".toList "/x/dir/sub".toList ∨
        Within "/x/dir/sub".toList "/x/dir".toList) ∧
    (∀ a b : Path, overlapsSubtree a b = overlapsSubtree b a) ∧
    overlapsSubtree "/x/dir1".toList "/x/dir2".toList = false) :=
  ⟨sampleSubtreeHeld_reachable, by decide, by decide, by decide,
    C8_subtree_blocks_overlapping_subtree none sampleSubtreeHeld "/x/dir/sub".toList
      "/x/dir".toList sampleSubtreeHeld_reachable (by decide) (by decide) (by decide)⟩

theorem mem_live (c : Coord) (g : Guard) :
    g ∈ c.live ↔ g ∈ c.guards ∧ g.released = false := by
  simp [Coord.live]

theorem holders_pos_iff (c : Coord) (m : LockMode) (k : Path) :
    0 < c.holders m k ↔ ∃ g ∈ c.live, g.mode = m ∧ k ∈ g.keys := by
  unfold Coord.holders
  rw [List.countP_pos_iff]
  constructor
  · rintro ⟨g, hg, hp⟩
    simp only [Bool.and_eq_true, Bool.not_eq_true', decide_eq_true_eq] at hp
    exact ⟨g, (mem_live c g).2 ⟨hg, hp.1.1⟩, hp.1.2, hp.2⟩
  · rintro ⟨g, hg, hm, hk⟩
    have := (mem_live c g).1 hg
    exact ⟨g, this.1, by simp [this.2, hm, hk]⟩

/-- Under the reference-count invariant the wait-loop predicate holds exactly when no
requested key conflicts with a key of a live guard. -/
theorem canAcquire_iff_free (c : Coord) (hinv : RefInv c) (mode : LockMode)
    (ks : List Path) :
    c.pl.canAcquire mode ks = true ↔
      ∀ k ∈ ks, ∀ g ∈ c.live, ∀ k1 ∈ g.keys, conflicts mode k g.mode k1 = false := by
  constructor
  · intro hcan k hk g hg k1 hk1
    have hg1 := (mem_live c g).1 hg
    obtain ⟨j, hj⟩ := List.mem_iff_get?.1 hg1.1
    exact canAcquire_no_conflict c hinv mode ks hcan j g hj hg1.2 k hk k1 hk1
  · intro hfree
    cases mode with
    | exact =>
      apply (canAcquireExact_iff c.pl ks).2
      intro k hk
      constructor
      · intro hpos
        have h1 := hinv.1 .exact k
        simp only [PathLocker.table] at h1
        rw [h1] at hpos
        obtain ⟨g, hg, hm, hkg⟩ := (holders_pos_iff c .exact k).1 (by exact_mod_cast hpos)
        have := hfree k hk g hg k hkg
        rw [hm] at this
        simp [conflicts] at this
      · intro s hs
        have h2 := (hinv.2.1 .subtree s).1 hs
        obtain ⟨g, hg, hm, hkg⟩ := (holders_pos_iff c .subtree s).1 h2
        have := hfree k hk g hg s hkg
        rw [hm] at this
        simpa [conflicts] using this
    | subtree =>
      apply (canAcquireSubtree_iff c.pl ks).2
      intro k hk
      constructor
      · intro e he
        have h2 := (hinv.2.1 .exact e).1 he
        obtain ⟨g, hg, hm, hkg⟩ := (holders_pos_iff c .exact e).1 h2
        have := hfree k hk g hg e hkg
        rw [hm] at this
        simpa [conflicts] using this
      · intro s hs
        have h2 := (hinv.2.1 .subtree s).1 hs
        obtain ⟨g, hg, hm, hkg⟩ := (holders_pos_iff c .subtree s).1 h2
        have := hfree k hk g hg s hkg
        rw [hm] at this
        simpa [conflicts] using this

theorem grant_of_blocked (c : Coord) (i : Nat) (r : Request)
    (hr : c.waiting.get? i = some r) (hcan : c.pl.canAcquire r.mode r.keys = false) :
    c.grant i = c := by
  unfold Coord.grant
  rw [hr]
  simp [hcan]

theorem grant_of_free (c : Coord) (i : Nat) (r : Request)
    (hr : c.waiting.get? i = some r) (hcan : c.pl.canAcquire r.mode r.keys = true) :
    c.grant i =
      { pl := c.pl.acquire r.mode r.keys
        guards := c.guards ++ [⟨r.mode, r.keys, false⟩]
        waiting := c.waiting.eraseIdx i } := by
  unfold Coord.grant
  rw [hr]
  simp [hcan]

/-- C9: acquisition is all-or-nothing. In a reachable state the wait-loop predicate of
a request holds exactly when every one of its keys is free of conflict with every key
of every live guard; a waiter whose predicate fails changes nothing, a waiter that is
served had all its keys free at once and gets all of them in that one step, and an
arriving request changes neither map. So with `/x/a.txt` held exactly and
`LockExact("/x/a.txt", "/x/b.txt")` pending, `LockExact("/x/b.txt")` is granted. -/
theorem C9_acquire_is_all_or_nothing (wd : Option Path) (c : Coord) (h : Reachable wd c)
    (mode : LockMode) (paths : List Path) (i : Nat) (r : Request)
    (hr : c.waiting.get? i = some r) :
    (c.pl.canAcquire r.mode r.keys = true ↔
      ∀ k ∈ r.keys, ∀ g ∈ c.live, ∀ k1 ∈ g.keys, conflicts r.mode k g.mode k1 = false) ∧
    (c.pl.canAcquire r.mode r.keys = false → c.grant i = c) ∧
    (c.grant i ≠ c →
      (∀ k ∈ r.keys, ∀ g ∈ c.live, ∀ k1 ∈ g.keys, conflicts r.mode k g.mode k1 = false) ∧
      (c.grant i).pl = c.pl.acquire r.mode r.keys ∧
      (c.grant i).guards = c.guards ++ [⟨r.mode, r.keys, false⟩]) ∧
    ((c.request wd mode paths).pl = c.pl ∧ (c.request wd mode paths).guards = c.guards) ∧
    (samplePending.pl = sampleExactHeld.pl ∧
      samplePending.waiting = [⟨.exact, ["/x/a.txt".toList, "/x/b.txt".toList]⟩] ∧
      samplePending.pl.LockExact none ["/x/b.txt".toList] =
        .granted (samplePending.pl.acquire .exact ["/x/b.txt".toList]) ["/x/b.txt".toList]) := by
  have hinv := refInv_reachable wd c h
  have hfree := canAcquire_iff_free c hinv r.mode r.keys
  refine ⟨hfree, grant_of_blocked c i r hr, ?_, ?_, by decide⟩
  · intro hne
    cases hcan : c.pl.canAcquire r.mode r.keys with
    | false => exact absurd (grant_of_blocked c i r hr hcan) hne
    | true =>
      rw [grant_of_free c i r hr hcan]
      exact ⟨hfree.1 hcan, rfl, rfl⟩
  · unfold Coord.request
    simp only []
    split <;> exact ⟨rfl, rfl⟩

theorem samplePending_reachable : Reachable none samplePending :=
  reachable_grant _ _ _ (reachable_request _ _ _ _ sampleExactHeld_reachable)

/-- C9, instance: `/x/a.txt` held exactly, `LockExact("/x/a.txt", "/x/b.txt")` waiting. -/
theorem C9_acquire_is_all_or_nothing_witness :
    Reachable none samplePending ∧
    samplePending.waiting.get? 0 = some ⟨.exact, ["/x/a.txt".toList, "/x/b.txt".toList]⟩ ∧
    samplePending.pl.canAcquire .exact ["/x/a.txt".toList, "/x/b.txt".toList] = false ∧
    samplePending.grant 0 = samplePending :=
  ⟨samplePending_reachable, by decide, by decide,
    (C9_acquire_is_all_or_nothing none samplePending samplePending_reachable .exact
      ["/x/b.txt".toList] 0 ⟨.exact, ["/x/a.txt".toList, "/x/b.txt".toList]⟩
      (by decide)).2.1 (by decide)⟩

theorem no_live_empty (c : Coord) (hinv : RefInv c) (hl : c.live = []) :
    c.pl = NewPathLocker := by
  have hh : ∀ m k, ¬ k ∈ (c.pl.table m).keys := by
    intro m k hk
    obtain ⟨g, hg, _⟩ := (holders_pos_iff c m k).1 ((hinv.2.1 m k).1 hk)
    rw [hl] at hg
    simp at hg
  have he : c.pl.exactLocks = [] := by
    have : (c.pl.table .exact).keys = [] := List.eq_nil_iff_forall_not_mem.2 (hh .exact)
    simpa [LockMap.keys, PathLocker.table] using this
  have hs : c.pl.subtreeLocks = [] := by
    have : (c.pl.table .subtree).keys = [] := List.eq_nil_iff_forall_not_mem.2 (hh .subtree)
    simpa [LockMap.keys, PathLocker.table] using this
  cases hp : c.pl with
  | mk e t =>
    rw [hp] at he hs
    simp only at he hs
    rw [he, hs]
    rfl

theorem canAcquire_new (mode : LockMode) (ks : List Path) :
    NewPathLocker.canAcquire mode ks = true := by
  cases mode with
  | exact =>
    apply (canAcquireExact_iff _ ks).2
    intro k _
    simp [NewPathLocker, LockMap.get, LockMap.keys]
  | subtree =>
    apply (canAcquireSubtree_iff _ ks).2
    intro k _
    simp [NewPathLocker, LockMap.keys]

theorem live_append_one (c : Coord) (pl : PathLocker) (w : List Request) (g : Guard)
    (hg : g.released = false) :
    Coord.live { pl := pl, guards := c.guards ++ [g], waiting := w } = c.live ++ [g] := by
  simp [Coord.live, List.filter_append, hg]

/-- Serving a waiter in a reachable state without live guards leaves a reachable state
without live guards, with both maps empty and that waiter gone. -/
theorem serve_spec (wd : Option Path) (c : Coord) (h : Reachable wd c) (hl : c.live = [])
    (i : Nat) (r : Request) (hr : c.waiting.get? i = some r) :
    Reachable wd (c.serve i c.guards.length) ∧
    (c.serve i c.guards.length).live = [] ∧
    (c.serve i c.guards.length).pl = NewPathLocker ∧
    (c.serve i c.guards.length).waiting = c.waiting.eraseIdx i ∧
    (c.serve i c.guards.length).guards.length = c.guards.length + 1 ∧
    (c.grant i).live = [⟨r.mode, r.keys, false⟩] := by
  have hinv := refInv_reachable wd c h
  have hnew := no_live_empty c hinv hl
  have hcan : c.pl.canAcquire r.mode r.keys = true := by rw [hnew]; exact canAcquire_new _ _
  have hreach : Reachable wd (c.serve i c.guards.length) :=
    reachable_unlock wd _ _ (reachable_grant wd c i h)
  have hgl : (c.grant i).live = [⟨r.mode, r.keys, false⟩] := by
    rw [grant_of_free c i r hr hcan, live_append_one c _ _ _ rfl, hl]
    rfl
  have hlive : (c.serve i c.guards.length).live = [] := by
    unfold Coord.serve
    rw [grant_of_free c i r hr hcan]
    unfold Coord.unlock
    simp only [List.get?_eq_getElem?, List.getElem?_concat_length]
    simp only [Bool.false_eq_true, if_false]
    have hset : (c.guards ++ [(⟨r.mode, r.keys, false⟩ : Guard)]).set c.guards.length
        ⟨r.mode, r.keys, true⟩ = c.guards ++ [⟨r.mode, r.keys, true⟩] := by
      rw [List.set_append_right _ _ (le_refl _)]
      simp
    simp only [hset]
    have hc : c.guards.filter (fun g => !g.released) = [] := hl
    simp [Coord.live, List.filter_append, hc]
  refine ⟨hreach, hlive, no_live_empty _ (refInv_reachable wd _ hreach) hlive, ?_, ?_, hgl⟩
  · unfold Coord.serve
    rw [grant_of_free c i r hr hcan]
    unfold Coord.unlock
    simp only [List.get?_eq_getElem?, List.getElem?_concat_length]
    simp
  · unfold Coord.serve
    rw [grant_of_free c i r hr hcan]
    unfold Coord.unlock
    simp only [List.get?_eq_getElem?, List.getElem?_concat_length]
    simp

theorem normalize_ne_nil (wd : Option Path) (a : Path) (rest : List Path) :
    normalizeLockPaths wd (a :: rest) ≠ [] := by
  intro h
  have : canonicalPath wd a ∈ normalizeLockPaths wd (a :: rest) :=
    (mem_normalize wd (a :: rest) _).2 ⟨a, by simp, rfl⟩
  rw [h] at this
  simp at this

theorem inversePair_spec (wd : Option Path) (mode : LockMode) (a b : Path) :
    Reachable wd (inversePair wd mode a b) ∧
    (inversePair wd mode a b).live = [] ∧
    (inversePair wd mode a b).guards = [] ∧
    (inversePair wd mode a b).waiting =
      [⟨mode, normalizeLockPaths wd [a, b]⟩, ⟨mode, normalizeLockPaths wd [b, a]⟩] := by
  refine ⟨reachable_request _ _ _ _ (reachable_request _ _ _ _ Reachable.init), ?_, ?_, ?_⟩
  all_goals
    simp [inversePair, Coord.request, normalize_ne_nil, Coord.init, Coord.live]

theorem inversePair_completes (wd : Option Path) (mode : LockMode) (a b : Path) (i : Nat)
    (hi : i < 2) :
    Reachable wd (((inversePair wd mode a b).serve i 0).serve 0 1) ∧
    (((inversePair wd mode a b).serve i 0).serve 0 1).waiting = [] ∧
    (((inversePair wd mode a b).serve i 0).serve 0 1).live = [] ∧
    (((inversePair wd mode a b).serve i 0).serve 0 1).guards.length = 2 ∧
    (((inversePair wd mode a b).serve i 0).serve 0 1).pl = NewPathLocker := by
  obtain ⟨h0, hl0, hg0, hw0⟩ := inversePair_spec wd mode a b
  have hlen0 : (inversePair wd mode a b).guards.length = 0 := by rw [hg0]; rfl
  obtain ⟨r, hr, hrest⟩ : ∃ r, (inversePair wd mode a b).waiting.get? i = some r ∧
      ∃ r1, (inversePair wd mode a b).waiting.eraseIdx i = [r1] := by
    rw [hw0]
    interval_cases i
    · exact ⟨_, rfl, _, rfl⟩
    · exact ⟨_, rfl, _, rfl⟩
  obtain ⟨r1, hr1⟩ := hrest
  obtain ⟨h1, hl1, _, hw1, hg1, _⟩ := serve_spec wd _ h0 hl0 i r hr
  rw [hlen0] at h1 hl1 hw1 hg1
  rw [hr1] at hw1
  have hr2 : ((inversePair wd mode a b).serve i 0).waiting.get? 0 = some r1 := by
    rw [hw1]; rfl
  obtain ⟨h2, hl2, hp2, hw2, hg2, _⟩ := serve_spec wd _ h1 hl1 0 r1 hr2
  rw [hg1] at h2 hl2 hp2 hw2 hg2
  rw [hw1] at hw2
  exact ⟨h2, hw2, hl2, hg2, hp2⟩

/-- C10: no inverse-order deadlock. In every reachable state with a waiting request,
either some guard is live (and its release is enabled) or a waiting request can be
granted; indeed without a live guard both maps are empty and every waiting request is
grantable. When `lock(a, b)` and `lock(b, a)` arrive together, serving them in either
order completes both: nobody is left waiting, no guard stays live, both maps are empty. -/
theorem C10_no_inverse_order_deadlock (wd : Option Path) (c : Coord)
    (h : Reachable wd c) :
    (c.waiting ≠ [] →
      c.live ≠ [] ∨ ∃ i r, c.waiting.get? i = some r ∧ c.pl.canAcquire r.mode r.keys = true) ∧
    (c.live = [] →
      c.pl = NewPathLocker ∧ ∀ r ∈ c.waiting, c.pl.canAcquire r.mode r.keys = true) ∧
    (∀ (mode : LockMode) (a b : Path) (i : Nat), i < 2 →
      Reachable wd (((inversePair wd mode a b).serve i 0).serve 0 1) ∧
      (((inversePair wd mode a b).serve i 0).serve 0 1).waiting = [] ∧
      (((inversePair wd mode a b).serve i 0).serve 0 1).live = [] ∧
      (((inversePair wd mode a b).serve i 0).serve 0 1).guards.length = 2 ∧
      (((inversePair wd mode a b).serve i 0).serve 0 1).pl = NewPathLocker) := by
  have hinv := refInv_reachable wd c h
  have hfree : c.live = [] →
      c.pl = NewPathLocker ∧ ∀ r ∈ c.waiting, c.pl.canAcquire r.mode r.keys = true := by
    intro hl
    have hnew := no_live_empty c hinv hl
    exact ⟨hnew, fun r _ => by rw [hnew]; exact canAcquire_new _ _⟩
  refine ⟨?_, hfree, fun mode a b i hi => inversePair_completes wd mode a b i hi⟩
  intro hw
  by_cases hl : c.live = []
  · right
    cases hc : c.waiting with
    | nil => exact absurd hc hw
    | cons r rest =>
      refine ⟨0, r, rfl, (hfree hl).2 r ?_⟩
      rw [hc]; simp
  · exact Or.inl hl

/-- C10, instance: `LockExact("/x/a.txt", "/x/b.txt")` and
`LockExact("/x/b.txt", "/x/a.txt")` waiting together. -/
theorem C10_no_inverse_order_deadlock_witness :
    Reachable none (inversePair none .exact "/x/a.txt".toList "/x/b.txt".toList) ∧
    (inversePair none .exact "/x/a.txt".toList "/x/b.txt".toList).waiting =
      [⟨.exact, ["/x/a.txt".toList, "/x/b.txt".toList]⟩,
       ⟨.exact, ["/x/a.txt".toList, "/x/b.txt".toList]⟩] ∧
    ((inversePair none .exact "/x/a.txt".toList "/x/b.txt".toList).live ≠ [] ∨
      ∃ i r, (inversePair none .exact "/x/a.txt".toList "/x/b.txt".toList).waiting.get? i =
          some r ∧
        (inversePair none .exact "/x/a.txt".toList "/x/b.txt".toList).pl.canAcquire
          r.mode r.keys = true) :=
  ⟨(inversePair_spec none .exact _ _).1, by decide,
    (C10_no_inverse_order_deadlock none
      (inversePair none .exact "/x/a.txt".toList "/x/b.txt".toList)
      (inversePair_spec none .exact _ _).1).1 (by decide)⟩

/-! ## Reference counts: claims -/

theorem LockMap.nodup_delete (m : LockMap) (k : Path) (h : m.keys.Nodup) :
    (m.delete k).keys.Nodup := by
  unfold LockMap.delete LockMap.keys at *
  exact (List.Sublist.map _ (List.filter_sublist _)).nodup h

theorem LockMap.nodup_set (m : LockMap) (k : Path) (v : Int) (h : m.keys.Nodup) :
    (m.set k v).keys.Nodup := by
  have h1 := LockMap.nodup_delete m k h
  have h2 : k ∉ (m.delete k).keys := fun hk => ((LockMap.mem_keys_delete m k k).1 hk).1 rfl
  unfold LockMap.set
  simp only [LockMap.keys, List.map_cons] at *
  exact List.nodup_cons.2 ⟨h2, h1⟩

theorem LockMap.nodup_incr (m : LockMap) (k : Path) (h : m.keys.Nodup) :
    (m.incr k).keys.Nodup :=
  LockMap.nodup_set m k _ h

theorem LockMap.nodup_decr (m : LockMap) (k : Path) (h : m.keys.Nodup) :
    (m.decr k).keys.Nodup := by
  unfold LockMap.decr
  simp only []
  split
  · exact LockMap.nodup_delete _ k (LockMap.nodup_set m k _ h)
  · exact LockMap.nodup_set m k _ h

theorem LockMap.nodup_incrAll (ks : List Path) (m : LockMap) (h : m.keys.Nodup) :
    (ks.foldl LockMap.incr m).keys.Nodup := by
  induction ks generalizing m with
  | nil => exact h
  | cons k ks ih => exact ih _ (LockMap.nodup_incr m k h)

theorem LockMap.nodup_decrAll (ks : List Path) (m : LockMap) (h : m.keys.Nodup) :
    (ks.foldl LockMap.decr m).keys.Nodup := by
  induction ks generalizing m with
  | nil => exact h
  | cons k ks ih => exact ih _ (LockMap.nodup_decr m k h)

theorem LockMap.get_of_mem (m : LockMap) (h : m.keys.Nodup) (k : Path) (v : Int)
    (hm : (k, v) ∈ m) : m.get k = v := by
  induction m with
  | nil => simp at hm
  | cons e m ih =>
    obtain ⟨a, w⟩ := e
    simp only [LockMap.keys, List.map_cons, List.nodup_cons] at h
    rw [LockMap.get_cons]
    rcases List.mem_cons.1 hm with h1 | h1
    · simp only [Prod.mk.injEq] at h1
      simp [h1.1, h1.2]
    · have hk : k ∈ List.map Prod.fst m := List.mem_map.2 ⟨(k, v), h1, rfl⟩
      have hne : k ≠ a := fun heq => h.1 (heq ▸ hk)
      simp only [hne, if_false]
      exact ih h.2 h1

/-- Both maps hold every key at most once in every reachable state. -/
theorem keysNodup_reachable (wd : Option Path) (c : Coord) (h : Reachable wd c) :
    ∀ m, (c.pl.table m).keys.Nodup := by
  induction h with
  | init => intro m; cases m <;> simp [Coord.init, NewPathLocker, PathLocker.table, LockMap.keys]
  | step _ hs ih =>
    intro m
    cases hs with
    | request mode paths hne => exact ih m
    | grant i r hi hcan =>
      simp only [table_acquire]
      split
      · exact LockMap.nodup_incrAll _ _ (ih _)
      · exact ih m
    | unlock i =>
      unfold Coord.unlock
      split
      · exact ih m
      · split
        · exact ih m
        · simp only [table_release]
          split
          · exact LockMap.nodup_decrAll _ _ (ih _)
          · exact ih m

/-- C11: in every reachable state a key is present in `exactLocks` exactly when some
live exact guard names it, and present in `subtreeLocks` exactly when some live subtree
guard names it; every stored count is the number of live guards naming the key and so
positive: no entry with count zero is ever present. -/
theorem C11_maps_mirror_live_guards (wd : Option Path) (c : Coord) (h : Reachable wd c) :
    (∀ k, k ∈ c.pl.exactLocks.keys ↔ ∃ g ∈ c.live, g.mode = .exact ∧ k ∈ g.keys) ∧
    (∀ k, k ∈ c.pl.subtreeLocks.keys ↔ ∃ g ∈ c.live, g.mode = .subtree ∧ k ∈ g.keys) ∧
    (∀ e ∈ c.pl.exactLocks, 0 < e.2 ∧ e.2 = c.holders .exact e.1) ∧
    (∀ e ∈ c.pl.subtreeLocks, 0 < e.2 ∧ e.2 = c.holders .subtree e.1) ∧
    c.pl.exactLocks.keys.Nodup ∧ c.pl.subtreeLocks.keys.Nodup := by
  have hinv := refInv_reachable wd c h
  have hnd := keysNodup_reachable wd c h
  have hpos : ∀ m, ∀ e ∈ c.pl.table m, 0 < e.2 ∧ e.2 = c.holders m e.1 := by
    intro m e he
    have hk : e.1 ∈ (c.pl.table m).keys := List.mem_map.2 ⟨e, he, rfl⟩
    have hget := LockMap.get_of_mem _ (hnd m) e.1 e.2 he
    have hh := hinv.1 m e.1
    rw [hget] at hh
    have := (hinv.2.1 m e.1).1 hk
    rw [hh]
    exact ⟨by exact_mod_cast this, rfl⟩
  refine ⟨?_, ?_, hpos .exact, hpos .subtree, hnd .exact, hnd .subtree⟩
  · intro k
    rw [← holders_pos_iff]
    exact hinv.2.1 .exact k
  · intro k
    rw [← holders_pos_iff]
    exact hinv.2.1 .subtree k

/-- C11, instance: `/x/a.txt` held exactly and `/x/dir` held as a subtree. -/
theorem C11_maps_mirror_live_guards_witness :
    Reachable none sampleTwoGuards ∧
    sampleTwoGuards.pl.exactLocks = [("/x/a.txt".toList, 1)] ∧
    sampleTwoGuards.pl.subtreeLocks = [("/x/dir".toList, 1)] ∧
    (∀ e ∈ sampleTwoGuards.pl.exactLocks, 0 < e.2 ∧ e.2 = sampleTwoGuards.holders .exact e.1) :=
  ⟨sampleTwoGuards_reachable, by decide, by decide,
    (C11_maps_mirror_live_guards none sampleTwoGuards sampleTwoGuards_reachable).2.2.1⟩

theorem LockMap.delete_absent (m : LockMap) (k : Path) (h : k ∉ m.keys) :
    m.delete k = m := by
  unfold LockMap.delete
  rw [List.filter_eq_self]
  intro e he
  have : e.1 ≠ k := fun heq => h (heq ▸ List.mem_map.2 ⟨e, he, rfl⟩)
  simpa using this

theorem LockMap.get_absent (m : LockMap) (k : Path) (h : k ∉ m.keys) : m.get k = 0 := by
  induction m with
  | nil => simp [LockMap.get]
  | cons e m ih =>
    obtain ⟨a, v⟩ := e
    simp only [LockMap.keys, List.map_cons, List.mem_cons, not_or] at h
    rw [LockMap.get_cons]
    simp only [h.1, if_false]
    exact ih h.2

theorem LockMap.incr_absent (m : LockMap) (k : Path) (h : k ∉ m.keys) :
    m.incr k = (k, 1) :: m := by
  unfold LockMap.incr LockMap.set
  rw [LockMap.get_absent m k h, LockMap.delete_absent m k h]
  rfl

theorem LockMap.incrAll_absent (ks : List Path) (hk : ks.Nodup) (m : LockMap)
    (h : ∀ k ∈ ks, k ∉ m.keys) :
    ks.foldl LockMap.incr m = (ks.reverse.map fun k => (k, (1 : Int))) ++ m := by
  induction ks generalizing m with
  | nil => simp
  | cons k ks ih =>
    have hn := List.nodup_cons.1 hk
    simp only [List.foldl_cons]
    rw [LockMap.incr_absent m k (h k (by simp)), ih hn.2]
    · simp
    · intro k1 hk1
      simp only [LockMap.keys, List.map_cons, List.mem_cons, not_or]
      exact ⟨fun heq => hn.1 (heq ▸ hk1), h k1 (List.mem_cons_of_mem _ hk1)⟩

theorem LockMap.get_append_absent (a b : LockMap) (k : Path) (h : k ∉ a.keys) :
    LockMap.get (a ++ b) k = b.get k := by
  induction a with
  | nil => rfl
  | cons e a ih =>
    obtain ⟨x, v⟩ := e
    simp only [LockMap.keys, List.map_cons, List.mem_cons, not_or] at h
    rw [List.cons_append, LockMap.get_cons]
    simp only [h.1, if_false]
    exact ih h.2

theorem LockMap.decr_mid (a b : LockMap) (k : Path) (ha : k ∉ a.keys) (hb : k ∉ b.keys) :
    LockMap.decr (a ++ (k, 1) :: b) k = a ++ b := by
  have hget : LockMap.get (a ++ (k, 1) :: b) k = 1 := by
    rw [LockMap.get_append_absent a _ k ha, LockMap.get_cons]
    simp
  have hdel : LockMap.delete (a ++ (k, 1) :: b) k = a ++ b := by
    have h1 := LockMap.delete_absent a k ha
    have h2 := LockMap.delete_absent b k hb
    unfold LockMap.delete at *
    rw [List.filter_append, List.filter_cons, h1, h2]
    simp
  unfold LockMap.decr
  simp only [hget, LockMap.get_set, if_true, sub_self]
  unfold LockMap.set
  have : LockMap.delete ((k, (0 : Int)) :: LockMap.delete (a ++ (k, 1) :: b) k) k =
      LockMap.delete (LockMap.delete (a ++ (k, 1) :: b) k) k := by
    simp [LockMap.delete]
  rw [this, hdel, LockMap.delete_absent]
  simp only [LockMap.keys, List.map_append, List.mem_append, not_or]
  exact ⟨ha, hb⟩

/-- Incrementing fresh keys and then decrementing them gives back the very same map. -/
theorem LockMap.decrAll_incrAll (ks : List Path) (hk : ks.Nodup) (m : LockMap)
    (h : ∀ k ∈ ks, k ∉ m.keys) :
    ks.foldl LockMap.decr (ks.foldl LockMap.incr m) = m := by
  rw [LockMap.incrAll_absent ks hk m h]
  induction ks with
  | nil => simp
  | cons k ks ih =>
    have hn := List.nodup_cons.1 hk
    simp only [List.foldl_cons, List.reverse_cons, List.map_append, List.map_cons,
      List.map_nil, List.append_assoc, List.singleton_append]
    rw [LockMap.decr_mid _ m k]
    · exact ih hn.2 (fun k1 hk1 => h k1 (List.mem_cons_of_mem _ hk1))
    · simp only [LockMap.keys, List.map_map, List.mem_map, List.mem_reverse, Function.comp,
        not_exists, not_and]
      intro x hx heq
      exact hn.1 (heq ▸ hx)
    · exact h k (by simp)

theorem conflicts_self (mode : LockMode) (k : Path) : conflicts mode k mode k = true := by
  cases mode <;> simp [conflicts, overlapsSubtree, isSameOrDescendant_self]

/-- The keys of a grantable request are absent from the map of its mode. -/
theorem canAcquire_absent (c : Coord) (hinv : RefInv c) (mode : LockMode) (ks : List Path)
    (hcan : c.pl.canAcquire mode ks = true) : ∀ k ∈ ks, k ∉ (c.pl.table mode).keys := by
  intro k hk hmem
  obtain ⟨g, hg, hm, hkg⟩ := (holders_pos_iff c mode k).1 ((hinv.2.1 mode k).1 hmem)
  have := (canAcquire_iff_free c hinv mode ks).1 hcan k hk g hg k hkg
  rw [hm, conflicts_self] at this
  exact Bool.noConfusion this

theorem release_acquire (c : Coord) (hinv : RefInv c) (mode : LockMode) (ks : List Path)
    (hnd : ks.Nodup) (hcan : c.pl.canAcquire mode ks = true) :
    (c.pl.acquire mode ks).release mode ks = c.pl := by
  have habs := canAcquire_absent c hinv mode ks hcan
  cases mode with
  | exact =>
    simp only [PathLocker.acquire, PathLocker.release]
    rw [LockMap.decrAll_incrAll ks hnd c.pl.exactLocks habs]
  | subtree =>
    simp only [PathLocker.acquire, PathLocker.release]
    rw [LockMap.decrAll_incrAll ks hnd c.pl.subtreeLocks habs]

/-- C12: in a reachable state, a granted `LockExact` / `LockSubtree` followed by the
release of its guard leaves both lock maps exactly as they were before the
acquisition; and whenever no guard is live both maps are empty. -/
theorem C12_acquire_release_restores_maps (wd : Option Path) (c : Coord)
    (h : Reachable wd c) (i : Nat) (r : Request) (hr : c.waiting.get? i = some r)
    (hcan : c.pl.canAcquire r.mode r.keys = true) :
    ((c.grant i).unlock c.guards.length).pl = c.pl ∧
    (c.pl.acquire r.mode r.keys).release r.mode r.keys = c.pl ∧
    (∀ (mode : LockMode) (paths : List Path) (pl1 : PathLocker) (keys : List Path),
      c.pl.lock wd mode paths = .granted pl1 keys → pl1.release mode keys = c.pl) ∧
    (c.live = [] → c.pl = NewPathLocker) := by
  have hinv := refInv_reachable wd c h
  have hnd : r.keys.Nodup := hinv.2.2.2 r (List.get?_mem hr)
  have hra := release_acquire c hinv r.mode r.keys hnd hcan
  refine ⟨?_, hra, ?_, no_live_empty c hinv⟩
  · rw [grant_of_free c i r hr hcan]
    unfold Coord.unlock
    simp only [List.get?_eq_getElem?, List.getElem?_concat_length]
    simp only [Bool.false_eq_true, if_false]
    exact hra
  · intro mode paths pl1 keys hl
    unfold PathLocker.lock at hl
    simp only [] at hl
    split at hl
    · exact LockOutcome.noConfusion hl
    · split at hl
      · rename_i hcan1
        simp only [LockOutcome.granted.injEq] at hl
        rw [← hl.1, ← hl.2]
        exact release_acquire c hinv mode _ (nodup_normalize wd paths) hcan1
      · exact LockOutcome.noConfusion hl

/-- C12, instance: with `/x/a.txt` held exactly and `/x/dir` as a subtree,
`LockExact("/x/b.txt", "/x/c.txt")` is granted and released. -/
theorem C12_acquire_release_restores_maps_witness :
    Reachable none (sampleTwoGuards.request none .exact ["/x/c.txt".toList, "/x/b.txt".toList]) ∧
    ((sampleTwoGuards.request none .exact ["/x/c.txt".toList, "/x/b.txt".toList]).grant 0).pl.exactLocks
      = [("/x/c.txt".toList, 1), ("/x/b.txt".toList, 1), ("/x/a.txt".toList, 1)] ∧
    (((sampleTwoGuards.request none .exact ["/x/c.txt".toList, "/x/b.txt".toList]).grant 0).unlock
      (sampleTwoGuards.request none .exact ["/x/c.txt".toList, "/x/b.txt".toList]).guards.length).pl =
      (sampleTwoGuards.request none .exact ["/x/c.txt".toList, "/x/b.txt".toList]).pl :=
  ⟨reachable_request _ _ _ _ sampleTwoGuards_reachable, by decide,
    (C12_acquire_release_restores_maps none
      (sampleTwoGuards.request none .exact ["/x/c.txt".toList, "/x/b.txt".toList])
      (reachable_request _ _ _ _ sampleTwoGuards_reachable) 0
      ⟨.exact, ["/x/b.txt".toList, "/x/c.txt".toList]⟩ (by decide) (by decide)).1⟩

theorem unlock_unlock (c : Coord) (i : Nat) : (c.unlock i).unlock i = c.unlock i := by
  cases hg : c.guards.get? i with
  | none =>
    have : c.unlock i = c := by unfold Coord.unlock; rw [hg]
    rw [this, this]
  | some g =>
    by_cases hrel : g.released = true
    · have : c.unlock i = c := by unfold Coord.unlock; rw [hg]; simp [hrel]
      rw [this, this]
    · have h1 : c.unlock i =
          { c with pl := c.pl.release g.mode g.keys
                   guards := c.guards.set i { g with released := true } } := by
        unfold Coord.unlock; rw [hg]; simp [hrel]
      rw [h1]
      unfold Coord.unlock
      simp only [get?_set_eq, if_true, hg, Option.map_some']

theorem unlock_iterate (c : Coord) (i N : Nat) (hN : 1 ≤ N) :
    (fun s : Coord => s.unlock i)^[N] c = c.unlock i := by
  induction N with
  | zero => omega
  | succ n ih =>
    cases n with
    | zero => rfl
    | succ n =>
      rw [Function.iterate_succ_apply', ih (by omega), unlock_unlock]

/-- C13: release is idempotent. Calling the unlock closure of a guard `N ≥ 1` times
leaves the coordinator exactly where one call leaves it; for a live guard that is the
state after one run of the release loop, in which (the keys of a guard being distinct)
the count of each of its keys has gone down by one and no other count has changed. -/
theorem C13_unlock_is_idempotent (c : Coord) (i N : Nat) (hN : 1 ≤ N) :
    (fun s : Coord => s.unlock i)^[N] c = c.unlock i ∧
    (∀ g, c.guards.get? i = some g → g.released = false →
      ((fun s : Coord => s.unlock i)^[N] c).pl = c.pl.release g.mode g.keys ∧
      ((fun s : Coord => s.unlock i)^[N] c).guards.get? i = some { g with released := true } ∧
      (g.keys.Nodup → ∀ m k,
        ((((fun s : Coord => s.unlock i)^[N] c).pl).table m).get k =
          (c.pl.table m).get k - if m = g.mode ∧ k ∈ g.keys then 1 else 0)) ∧
    (∀ g, c.guards.get? i = some g → g.released = true →
      (fun s : Coord => s.unlock i)^[N] c = c) := by
  rw [unlock_iterate c i N hN]
  refine ⟨rfl, ?_, ?_⟩
  · intro g hg hrel
    have h1 : c.unlock i =
        { c with pl := c.pl.release g.mode g.keys
                 guards := c.guards.set i { g with released := true } } := by
      unfold Coord.unlock; rw [hg]; simp [hrel]
    rw [h1]
    refine ⟨rfl, ?_, ?_⟩
    · simp only [get?_set_eq, if_true, hg, Option.map_some']
    · intro hnd m k
      simp only [table_release]
      by_cases hm : m = g.mode
      · subst hm
        simp only [if_true, true_and]
        exact LockMap.get_decrAll _ hnd _ k
      · simp [hm]
  · intro g hg hrel
    unfold Coord.unlock; rw [hg]; simp [hrel]

/-- C13, instance: the guard of `LockSubtree("/x/dir/sub")` unlocked three times. -/
theorem C13_unlock_is_idempotent_witness :
    (1 ≤ 3) ∧
    (fun s : Coord => s.unlock 0)^[3] sampleSubtreeHeld = sampleSubtreeHeld.unlock 0 ∧
    (sampleSubtreeHeld.unlock 0).pl = NewPathLocker :=
  ⟨by decide, (C13_unlock_is_idempotent sampleSubtreeHeld 0 3 (by decide)).1, by decide⟩

/-- C14: duplicates collapse within one acquisition. A granted `LockExact` /
`LockSubtree` holds each canonical path of its arguments once; it raises the count of
each of these keys by one, changes no other count, adds no other key and leaves the
map of the other mode alone. From the empty coordinator
`LockExact("/x/a.txt", "/x/a.txt", "/x/dir/../a.txt")` gives the single entry
`/x/a.txt` with count one, and releasing it gives the empty maps. -/
theorem C14_duplicate_keys_collapse (wd : Option Path) (pl pl1 : PathLocker)
    (mode : LockMode) (paths keys : List Path)
    (h : pl.lock wd mode paths = .granted pl1 keys) :
    keys.Nodup ∧
    (∀ k, k ∈ keys ↔ ∃ p ∈ paths, canonicalPath wd p = k) ∧
    (∀ k, (pl1.table mode).get k = (pl.table mode).get k + if k ∈ keys then 1 else 0) ∧
    (∀ k, k ∈ (pl1.table mode).keys ↔ k ∈ keys ∨ k ∈ (pl.table mode).keys) ∧
    (∀ m, m ≠ mode → pl1.table m = pl.table m) ∧
    (NewPathLocker.LockExact none
        ["/x/a.txt".toList, "/x/a.txt".toList, "/x/dir/../a.txt".toList] =
      .granted { exactLocks := [("/x/a.txt".toList, 1)], subtreeLocks := [] }
        ["/x/a.txt".toList] ∧
      PathLocker.release { exactLocks := [("/x/a.txt".toList, 1)], subtreeLocks := [] }
        .exact ["/x/a.txt".toList] = NewPathLocker) := by
  unfold PathLocker.lock at h
  simp only [] at h
  split at h
  · exact LockOutcome.noConfusion h
  · split at h
    · simp only [LockOutcome.granted.injEq] at h
      obtain ⟨h1, h2⟩ := h
      subst h1 h2
      have hnd := nodup_normalize wd paths
      refine ⟨hnd, mem_normalize wd paths, ?_, ?_, ?_, by decide⟩
      · intro k
        rw [table_acquire]
        simp only [if_true]
        exact LockMap.get_incrAll _ hnd _ k
      · intro k
        rw [table_acquire]
        simp only [if_true]
        exact LockMap.mem_keys_incrAll _ _ k
      · intro m hm
        rw [table_acquire]
        simp [hm]
    · exact LockOutcome.noConfusion h

/-- C14, instance: the call of the deduplication test on the empty coordinator. -/
theorem C14_duplicate_keys_collapse_witness :
    NewPathLocker.lock none .exact
        ["/x/a.txt".toList, "/x/a.txt".toList, "/x/dir/../a.txt".toList] =
      .granted { exactLocks := [("/x/a.txt".toList, 1)], subtreeLocks := [] }
        ["/x/a.txt".toList] ∧
    (∀ k, (PathLocker.table { exactLocks := [("/x/a.txt".toList, 1)], subtreeLocks := [] }
        .exact).get k =
      (NewPathLocker.table .exact).get k + if k ∈ ["/x/a.txt".toList] then 1 else 0) :=
  ⟨by decide,
    (C14_duplicate_keys_collapse none NewPathLocker
      { exactLocks := [("/x/a.txt".toList, 1)], subtreeLocks := [] } .exact
      ["/x/a.txt".toList, "/x/a.txt".toList, "/x/dir/../a.txt".toList]
      ["/x/a.txt".toList] (by decide)).2.2.1⟩

/-! ## The sandbox: trimming and stripping -/

theorem dropWhile_space_append (w x : Path) (hw : ∀ c ∈ w, isSpace c = true) :
    (w ++ x).dropWhile isSpace = x.dropWhile isSpace := by
  induction w with
  | nil => rfl
  | cons a w ih =>
    have ha := hw a (by simp)
    simp only [List.cons_append, List.dropWhile_cons, ha, if_true]
    exact ih (fun c hc => hw c (List.mem_cons_of_mem _ hc))

theorem dropWhile_space_keep (p x : Path) (hp : ∃ c ∈ p, isSpace c = false) :
    (p ++ x).dropWhile isSpace = p.dropWhile isSpace ++ x := by
  induction p with
  | nil => simp at hp
  | cons a p ih =>
    by_cases ha : isSpace a = true
    · simp only [List.cons_append, List.dropWhile_cons, ha, if_true]
      apply ih
      obtain ⟨c, hc, hs⟩ := hp
      rcases List.mem_cons.1 hc with h | h
      · rw [h, ha] at hs; exact Bool.noConfusion hs
      · exact ⟨c, h, hs⟩
    · simp [List.dropWhile_cons, ha]

theorem trimSpace_all_space (w : Path) (hw : ∀ c ∈ w, isSpace c = true) :
    TrimSpace w = [] := by
  unfold TrimSpace
  have : w.dropWhile isSpace = [] := List.dropWhile_eq_nil_iff.2 hw
  rw [this]
  rfl

/-- `TrimSpace` removes white space around its argument. -/
theorem trimSpace_surround (w1 p w2 : Path) (h1 : ∀ c ∈ w1, isSpace c = true)
    (h2 : ∀ c ∈ w2, isSpace c = true) : TrimSpace (w1 ++ p ++ w2) = TrimSpace p := by
  unfold TrimSpace
  rw [List.append_assoc, dropWhile_space_append w1 _ h1]
  by_cases hp : ∃ c ∈ p, isSpace c = false
  · rw [dropWhile_space_keep p w2 hp, List.reverse_append,
      dropWhile_space_append w2.reverse _ (fun c hc => h2 c (List.mem_reverse.1 hc))]
  · have hall : ∀ c ∈ p, isSpace c = true := by
      intro c hc
      by_contra hcon
      exact hp ⟨c, hc, by simpa using hcon⟩
    have e1 : (p ++ w2).dropWhile isSpace = [] :=
      List.dropWhile_eq_nil_iff.2 (fun c hc => by
        rcases List.mem_append.1 hc with h | h
        · exact hall c h
        · exact h2 c h)
    have e2 : p.dropWhile isSpace = [] := List.dropWhile_eq_nil_iff.2 hall
    rw [e1, e2]

/-- In front of a string without leading white space a separator stays in front. -/
theorem trimSpace_sep_cons (p : Path) (hp : ∀ c, p.head? = some c → isSpace c = false) :
    TrimSpace ('/' :: p) = '/' :: TrimSpace p := by
  unfold TrimSpace
  have hs : isSpace '/' = false := by decide
  cases p with
  | nil => simp [List.dropWhile_cons, hs]
  | cons a p =>
    have ha : isSpace a = false := hp a rfl
    have e1 : ('/' :: a :: p).dropWhile isSpace = '/' :: a :: p := by
      simp [List.dropWhile_cons, hs]
    have e2 : (a :: p).dropWhile isSpace = a :: p := by
      simp [List.dropWhile_cons, ha]
    rw [e1, e2]
    have e3 : ('/' :: a :: p).reverse = (a :: p).reverse ++ ['/'] := by simp
    rw [e3, dropWhile_space_keep (a :: p).reverse ['/'] ⟨a, by simp, ha⟩]
    simp

/-- C16: under every clean absolute root the inputs `""`, `"."`, `"/"` and every input
made of white space only resolve, and resolve to the root itself. -/
theorem C16_blank_inputs_resolve_to_root (root : Path) (hroot : IsCanonical root) :
    ResolveWithinRoot root [] = some root ∧
    ResolveWithinRoot root ['.'] = some root ∧
    ResolveWithinRoot root ['/'] = some root ∧
    (∀ input : Path, (∀ c ∈ input, isSpace c = true) →
      ResolveWithinRoot root input = some root) := by
  obtain ⟨bs, hb, rfl⟩ := (canonical_iff root).1 hroot
  have hnil : ∀ input : Path, TrimPrefix (TrimSpace input) ['/'] = [] →
      ResolveWithinRoot (absPath bs) input = some (absPath bs) := by
    intro input h
    rw [resolve_eq bs hb, h]
    simp [List.splitOn, List.splitOnP, List.splitOnP.go, popStep]
  refine ⟨hnil [] (by decide), ?_, hnil ['/'] (by decide), ?_⟩
  · rw [resolve_eq bs hb]
    have h1 : TrimPrefix (TrimSpace ['.']) ['/'] = ['.'] := by decide
    have h2 : (['.'] : Path).splitOn '/' = [['.']] := by decide
    rw [h1, h2]
    simp [popStep]
  · intro input hw
    apply hnil
    rw [trimSpace_all_space input hw]
    decide

/-- C16, instance: the root `/workspace/user1` of the test table. -/
theorem C16_blank_inputs_resolve_to_root_witness :
    IsCanonical "/workspace/user1".toList ∧
    ResolveWithinRoot "/workspace/user1".toList [] = some "/workspace/user1".toList ∧
    ResolveWithinRoot "/workspace/user1".toList ['.'] = some "/workspace/user1".toList ∧
    ResolveWithinRoot "/workspace/user1".toList ['/'] = some "/workspace/user1".toList ∧
    (∀ input : Path, (∀ c ∈ input, isSpace c = true) →
      ResolveWithinRoot "/workspace/user1".toList input = some "/workspace/user1".toList) :=
  ⟨by decide, C16_blank_inputs_resolve_to_root "/workspace/user1".toList (by decide)⟩

theorem length_dropWhile_sep (c : Char) (r : Path) (hc : c ≠ '/') :
    ((c :: r).dropWhile (· ≠ '/')).length ≤ r.length := by
  have h1 : decide (c ≠ '/') = true := by simpa using hc
  simp only [List.dropWhile_cons, h1, if_true]
  exact (List.dropWhile_sublist _).length_le

/-- With enough fuel the result of the `Clean` loop does not depend on the fuel. -/
theorem cleanLoop_fuel (rooted : Bool) (n : Nat) : ∀ (m : Nat) (rest out : Path) (dd : Nat),
    rest.length < n → rest.length < m →
    cleanLoop rooted n rest out dd = cleanLoop rooted m rest out dd := by
  induction n with
  | zero => intro m rest out dd h; omega
  | succ n ih =>
    intro m rest out dd hn hm
    cases m with
    | zero => omega
    | succ m =>
      cases rest with
      | nil => simp [cleanLoop]
      | cons c r =>
        have hrn : r.length < n := by simpa using hn
        have hrm : r.length < m := by simpa using hm
        have htn : r.tail.length < n := by simp; omega
        have htm : r.tail.length < m := by simp; omega
        unfold cleanLoop
        split
        · exact ih m r out dd hrn hrm
        · rename_i h1
          split
          · exact ih m r out dd hrn hrm
          · split
            · split
              · exact ih m _ _ dd htn htm
              · split
                · exact ih m _ _ _ htn htm
                · exact ih m _ _ dd htn htm
            · have hl := length_dropWhile_sep c r h1
              exact ih m _ _ dd (by omega) (by omega)

theorem sep_ahead_dot (r x : Path) :
    ((r ++ '/' :: x) = [] ∨ (r ++ '/' :: x).head? = some '/') ↔
      (r = [] ∨ r.head? = some '/') := by
  cases r <;> simp

theorem sep_ahead_dotdot (r x : Path) :
    ((r ++ '/' :: x).head? = some '.' ∧
        ((r ++ '/' :: x).tail = [] ∨ (r ++ '/' :: x).tail.head? = some '/')) ↔
      (r.head? = some '.' ∧ (r.tail = [] ∨ r.tail.head? = some '/')) := by
  cases r with
  | nil => simp
  | cons d r2 => cases r2 <;> simp

theorem sep_ahead_tail (r x : Path) (h : r.head? = some '.') :
    (r ++ '/' :: x).tail = r.tail ++ '/' :: x := by
  cases r with
  | nil => simp at h
  | cons d r2 => rfl

theorem sep_ahead_split (a x : Path) :
    (a ++ '/' :: x).takeWhile (· ≠ '/') = a.takeWhile (· ≠ '/') ∧
    (a ++ '/' :: x).dropWhile (· ≠ '/') = a.dropWhile (· ≠ '/') ++ '/' :: x := by
  induction a with
  | nil => simp
  | cons c a ih =>
    by_cases hc : c = '/'
    · subst hc; simp
    · have h1 : decide (c ≠ '/') = true := by simpa using hc
      simp only [List.cons_append, List.takeWhile_cons, List.dropWhile_cons, h1, if_true]
      exact ⟨by rw [ih.1], ih.2⟩

/-- The `Clean` loop run on `pre ++ '/' :: x` acts on `pre` without looking into `x`:
two inputs that differ only behind that separator reach the end of `pre` in the same
state. Here for a doubled separator. -/
theorem cleanLoop_double_sep (rooted : Bool) (q : Path) (n : Nat) :
    ∀ (pre out : Path) (dd : Nat), pre.length + q.length + 2 < n →
    cleanLoop rooted n (pre ++ '/' :: '/' :: q) out dd =
      cleanLoop rooted n (pre ++ '/' :: q) out dd := by
  induction n with
  | zero => intro pre out dd h; omega
  | succ n ih =>
    intro pre out dd hn
    cases pre with
    | nil =>
      have e1 : cleanLoop rooted (n + 1) ([] ++ '/' :: '/' :: q) out dd =
          cleanLoop rooted n ('/' :: q) out dd := by
        simp [cleanLoop]
      rw [e1]
      exact cleanLoop_fuel rooted n (n + 1) _ out dd (by simp at hn ⊢; omega)
        (by simp at hn ⊢; omega)
    | cons c r =>
      have hr : r.length + q.length + 2 < n := by simp at hn; omega
      have ht : r.tail.length + q.length + 2 < n := by simp; omega
      simp only [List.cons_append]
      unfold cleanLoop
      by_cases h1 : c = '/'
      · simp only [h1, if_true]
        exact ih r out dd hr
      · simp only [h1, if_false]
        by_cases h2 : c = '.' ∧ (r = [] ∨ r.head? = some '/')
        · have a1 : c = '.' ∧ ((r ++ '/' :: '/' :: q) = [] ∨
              (r ++ '/' :: '/' :: q).head? = some '/') :=
            ⟨h2.1, (sep_ahead_dot r _).2 h2.2⟩
          have a2 : c = '.' ∧ ((r ++ '/' :: q) = [] ∨ (r ++ '/' :: q).head? = some '/') :=
            ⟨h2.1, (sep_ahead_dot r _).2 h2.2⟩
          rw [if_pos a1, if_pos a2]
          exact ih r out dd hr
        · have a1 : ¬ (c = '.' ∧ ((r ++ '/' :: '/' :: q) = [] ∨
              (r ++ '/' :: '/' :: q).head? = some '/')) :=
            fun h => h2 ⟨h.1, (sep_ahead_dot r _).1 h.2⟩
          have a2 : ¬ (c = '.' ∧ ((r ++ '/' :: q) = [] ∨
              (r ++ '/' :: q).head? = some '/')) :=
            fun h => h2 ⟨h.1, (sep_ahead_dot r _).1 h.2⟩
          rw [if_neg a1, if_neg a2]
          by_cases h3 : c = '.' ∧ r.head? = some '.' ∧ (r.tail = [] ∨ r.tail.head? = some '/')
          · have b1 : c = '.' ∧ (r ++ '/' :: '/' :: q).head? = some '.' ∧
                ((r ++ '/' :: '/' :: q).tail = [] ∨
                  (r ++ '/' :: '/' :: q).tail.head? = some '/') :=
              ⟨h3.1, (sep_ahead_dotdot r _).2 h3.2⟩
            have b2 : c = '.' ∧ (r ++ '/' :: q).head? = some '.' ∧
                ((r ++ '/' :: q).tail = [] ∨ (r ++ '/' :: q).tail.head? = some '/') :=
              ⟨h3.1, (sep_ahead_dotdot r _).2 h3.2⟩
            rw [if_pos b1, if_pos b2, sep_ahead_tail r _ h3.2.1, sep_ahead_tail r _ h3.2.1]
            split
            · exact ih r.tail _ dd ht
            · split
              · exact ih r.tail _ _ ht
              · exact ih r.tail _ dd ht
          · have b1 : ¬ (c = '.' ∧ (r ++ '/' :: '/' :: q).head? = some '.' ∧
                ((r ++ '/' :: '/' :: q).tail = [] ∨
                  (r ++ '/' :: '/' :: q).tail.head? = some '/')) :=
              fun h => h3 ⟨h.1, (sep_ahead_dotdot r _).1 h.2⟩
            have b2 : ¬ (c = '.' ∧ (r ++ '/' :: q).head? = some '.' ∧
                ((r ++ '/' :: q).tail = [] ∨ (r ++ '/' :: q).tail.head? = some '/')) :=
              fun h => h3 ⟨h.1, (sep_ahead_dotdot r _).1 h.2⟩
            rw [if_neg b1, if_neg b2]
            have s1 := sep_ahead_split (c :: r) ('/' :: q)
            have s2 := sep_ahead_split (c :: r) q
            simp only [List.cons_append] at s1 s2
            rw [s1.1, s1.2, s2.1, s2.2]
            have hl := length_dropWhile_sep c r h1
            exact ih _ _ dd (by omega)

/-- Doubling a separator behind a non-empty beginning does not change `Clean`. -/
theorem Clean_double_sep (root q : Path) (hroot : root ≠ []) :
    Clean (root ++ '/' :: '/' :: q) = Clean (root ++ '/' :: q) := by
  cases root with
  | nil => exact absurd rfl hroot
  | cons c r =>
    have hl1 : (r ++ '/' :: '/' :: q).length = r.length + q.length + 2 := by
      simp only [List.length_cons, List.length_append]; omega
    have hl2 : (r ++ '/' :: q).length = r.length + q.length + 1 := by
      simp only [List.length_cons, List.length_append]; omega
    unfold Clean
    simp only [List.cons_append, reduceCtorEq, if_false, List.head?_cons, List.tail_cons,
      Option.some.injEq, List.length_cons, hl1, hl2]
    by_cases hc : c = '/'
    · simp only [hc, if_true]
      rw [cleanLoop_fuel true _ (r.length + q.length + 4) (r ++ '/' :: q) _ _
          (by rw [hl2]; omega) (by rw [hl2]; omega),
        cleanLoop_double_sep true q _ r _ _ (by omega)]
    · simp only [hc, if_false]
      have e : c :: (r ++ '/' :: '/' :: q) = (c :: r) ++ '/' :: '/' :: q := rfl
      have e2 : c :: (r ++ '/' :: q) = (c :: r) ++ '/' :: q := rfl
      rw [e, e2,
        cleanLoop_fuel false _ (r.length + q.length + 4) ((c :: r) ++ '/' :: q) _ _
          (by rw [← e2, List.length_cons, hl2]; omega)
          (by rw [← e2, List.length_cons, hl2]; omega),
        cleanLoop_double_sep false q _ (c :: r) _ _ (by rw [List.length_cons]; omega)]

theorem Clean_ne_nil (path : Path) : Clean path ≠ [] := by
  have key : ∀ out : Path, (if out = [] then ['.'] else out) ≠ [] := by
    intro out
    split
    · simp
    · assumption
  unfold Clean
  split
  · simp
  · exact key _

theorem handlerRoot_ne_nil (workspaceBase userID : Path) (h : userID ≠ []) :
    handlerRoot workspaceBase userID ≠ [] := by
  unfold handlerRoot
  by_cases hw : workspaceBase = []
  · simp only [Join, hw, ne_eq, not_true_eq_false, if_false, h, not_false_eq_true, if_true]
    exact Clean_ne_nil _
  · simp only [Join, hw, ne_eq, not_false_eq_true, if_true]
    exact Clean_ne_nil _

/-- Under a non-empty root one leading separator in front of an input without leading
white space changes nothing: same result or same failure. -/
theorem resolve_sep_cons (root p : Path) (hroot : root ≠ [])
    (hp : ∀ c, p.head? = some c → isSpace c = false) :
    ResolveWithinRoot root ('/' :: p) = ResolveWithinRoot root p := by
  have hj : Join [root, TrimPrefix (TrimSpace ('/' :: p)) ['/']] =
      Join [root, TrimPrefix (TrimSpace p) ['/']] := by
    rw [trimSpace_sep_cons p hp]
    have e1 : ∀ t : Path, TrimPrefix ('/' :: t) ['/'] = t := by
      intro t; simp [TrimPrefix, HasPrefix, List.isPrefixOf]
    rw [e1]
    cases ht : TrimSpace p with
    | nil => rfl
    | cons a t =>
      by_cases ha : a = '/'
      · subst ha
        rw [e1]
        simp only [Join, hroot, ne_eq, not_false_eq_true, if_true, stringsJoin]
        have e2 : ∀ x : Path, ['/'].intercalate [root, x] = root ++ '/' :: x := by
          intro x; simp [List.intercalate]
        rw [e2, e2, Clean_double_sep root t hroot]
      · have : TrimPrefix (a :: t) ['/'] = a :: t := by
          simp [TrimPrefix, HasPrefix, List.isPrefixOf, Ne.symm ha]
        rw [this]
  unfold ResolveWithinRoot
  simp only []
  rw [hj]

/-- C17: `ResolveWithinRoot` ignores white space around its input, under every root,
and it ignores one leading separator in front of an input without leading white space:
same result or same failure. The separator part holds under every non-empty root, and
so under every root the handlers compute, `filepath.Join(workspaceBase, userID)` with a
non-empty user ID, which is never empty. -/
theorem C17_resolve_ignores_space_and_one_sep (root p w1 w2 : Path)
    (h1 : ∀ c ∈ w1, isSpace c = true) (h2 : ∀ c ∈ w2, isSpace c = true) :
    ResolveWithinRoot root (w1 ++ p ++ w2) = ResolveWithinRoot root p ∧
    (root ≠ [] → (∀ c, p.head? = some c → isSpace c = false) →
      ResolveWithinRoot root ('/' :: p) = ResolveWithinRoot root p) ∧
    (∀ workspaceBase userID : Path, userID ≠ [] →
      (∀ c, p.head? = some c → isSpace c = false) →
      ResolveWithinRoot (handlerRoot workspaceBase userID) ('/' :: p) =
        ResolveWithinRoot (handlerRoot workspaceBase userID) p) := by
  refine ⟨?_, fun hroot hp => resolve_sep_cons root p hroot hp, ?_⟩
  · unfold ResolveWithinRoot
    rw [trimSpace_surround w1 p w2 h1 h2]
  · intro workspaceBase userID hu hp
    exact resolve_sep_cons _ p (handlerRoot_ne_nil workspaceBase userID hu) hp

/-- C17, instance: white space around `file.txt`, and a separator in front of it. -/
theorem C17_resolve_ignores_space_and_one_sep_witness :
    (∀ c ∈ "  ".toList, isSpace c = true) ∧ (∀ c ∈ [' ', '\t'], isSpace c = true) ∧
    ("/workspace/user1".toList ≠ []) ∧
    (∀ c, "file.txt".toList.head? = some c → isSpace c = false) ∧
    ResolveWithinRoot "/workspace/user1".toList ("  ".toList ++ "file.txt".toList ++ [' ', '\t']) =
      ResolveWithinRoot "/workspace/user1".toList "file.txt".toList ∧
    ResolveWithinRoot "/workspace/user1".toList ('/' :: "file.txt".toList) =
      ResolveWithinRoot "/workspace/user1".toList "file.txt".toList ∧
    ResolveWithinRoot "/workspace/user1".toList "file.txt".toList =
      some "/workspace/user1/file.txt".toList :=
  ⟨by decide, by decide, by decide, by decide,
    (C17_resolve_ignores_space_and_one_sep "/workspace/user1".toList "file.txt".toList
      "  ".toList [' ', '\t'] (by decide) (by decide)).1,
    (C17_resolve_ignores_space_and_one_sep "/workspace/user1".toList "file.txt".toList
      "  ".toList [' ', '\t'] (by decide) (by decide)).2.1 (by decide) (by decide),
    by decide⟩

/-- The hypothesis `root ≠ []` of `resolve_sep_cons` cannot be dropped: `filepath.Join`
skips an empty root, so under the root `""` the input `//a` joins to the absolute `/a`
and is rejected, while `/a` resolves to `a`. No caller passes the empty root. -/
theorem resolve_empty_root_second_sep :
    (∀ c, "/a".toList.head? = some c → isSpace c = false) ∧
    ResolveWithinRoot [] ('/' :: "/a".toList) = none ∧
    ResolveWithinRoot [] "/a".toList = some "a".toList := by
  decide

/-! ## The handlers: claims -/

theorem resolve_canonical (root input r : Path) (hroot : IsAbs root = true)
    (h : ResolveWithinRoot root input = some r) : IsCanonical r := by
  obtain ⟨t, rfl⟩ := (isAbs_iff root).1 hroot
  have hj : ∀ rel : Path, IsCanonical (Join ['/' :: t, rel]) := by
    intro rel
    have : Join ['/' :: t, rel] = Clean ('/' :: (t ++ '/' :: rel)) := by
      simp [Join, stringsJoin, List.intercalate]
    rw [this]
    exact Clean_canonical _ ((isAbs_iff _).2 ⟨_, rfl⟩)
  unfold ResolveWithinRoot at h
  simp only [] at h
  split at h
  · exact Option.noConfusion h
  · split at h
    · exact Option.noConfusion h
    · simp only [Option.some.injEq] at h
      rw [← h]
      exact Clean_canonical _ (hj _).1

theorem lock_blocked_of_conflict (wd : Option Path) (c : Coord) (hinv : RefInv c)
    (mode : LockMode) (k : Path) (hk : IsCanonical k) (g : Guard) (hg : g ∈ c.live)
    (k1 : Path) (hk1 : k1 ∈ g.keys) (hc : conflicts mode k g.mode k1 = true) :
    c.pl.lock wd mode [k] = .blocked := by
  rw [lock_blocked_iff, canonicalPath_of_canonical wd k hk]
  cases hcan : c.pl.canAcquire mode [k] with
  | false => rfl
  | true =>
    have := (canAcquire_iff_free c hinv mode [k]).1 hcan k (by simp) g hg k1 hk1
    rw [hc] at this
    exact Bool.noConfusion this

/-- C15: a write inside a directory and the removal of that directory exclude each
other. When the sandbox accepts `d` and `f` against the same absolute handler root and
the resolved `f` is the resolved `d` or lies below it, then in every reachable state a
live guard of the remove handler (`subtree` on the resolved `d`) blocks the write
handler's `LockExact`, a live guard of the write handler (`exact` on the resolved `f`)
blocks the remove handler's `LockSubtree`, and the two guards are never live together. -/
theorem C15_write_and_remove_exclude (wd : Option Path) (os : FsOracle) (c : Coord)
    (workspaceBase userID d f content rd rf : Path) (h : Reachable wd c)
    (hroot : IsAbs (handlerRoot workspaceBase userID) = true)
    (hd : ResolveWithinRoot (handlerRoot workspaceBase userID) d = some rd)
    (hf : ResolveWithinRoot (handlerRoot workspaceBase userID) f = some rf)
    (hw : Within rf rd) :
    (⟨.subtree, normalizeLockPaths wd [rd], false⟩ ∈ c.live →
      c.pl.LockExact wd [rf] = .blocked ∧
      WriteFile wd os workspaceBase userID (some ⟨f, content⟩) c.pl = none) ∧
    (⟨.exact, normalizeLockPaths wd [rf], false⟩ ∈ c.live →
      c.pl.LockSubtree wd [rd] = .blocked ∧
      Remove wd os workspaceBase userID d c.pl = none) ∧
    ¬ (⟨.subtree, normalizeLockPaths wd [rd], false⟩ ∈ c.live ∧
        ⟨.exact, normalizeLockPaths wd [rf], false⟩ ∈ c.live) := by
  have hinv := refInv_reachable wd c h
  have hcd := resolve_canonical _ d rd hroot hd
  have hcf := resolve_canonical _ f rf hroot hf
  have hdesc : isSameOrDescendant rf rd = true := (isSameOrDescendant_iff rf rd hcf hcd).2 hw
  have hnd : normalizeLockPaths wd [rd] = [rd] := by
    rw [normalize_singleton, canonicalPath_of_canonical wd rd hcd]
  have hnf : normalizeLockPaths wd [rf] = [rf] := by
    rw [normalize_singleton, canonicalPath_of_canonical wd rf hcf]
  rw [hnd, hnf]
  have hroot1 : handlerRoot workspaceBase userID = Join [workspaceBase, userID] := rfl
  rw [hroot1] at hd hf
  refine ⟨?_, ?_, ?_⟩
  · intro hg
    have hb : c.pl.lock wd .exact [rf] = .blocked :=
      lock_blocked_of_conflict wd c hinv .exact rf hcf _ hg rd (by simp)
        (by simpa [conflicts] using hdesc)
    refine ⟨hb, ?_⟩
    simp only [WriteFile, hf, withLock, hb]
  · intro hg
    have hb : c.pl.lock wd .subtree [rd] = .blocked :=
      lock_blocked_of_conflict wd c hinv .subtree rd hcd _ hg rf (by simp)
        (by simpa [conflicts] using hdesc)
    refine ⟨hb, ?_⟩
    simp only [Remove, hd, withLock, hb]
  · rintro ⟨hg1, hg2⟩
    obtain ⟨i, hi⟩ := List.mem_iff_get?.1 ((mem_live c _).1 hg1).1
    obtain ⟨j, hj⟩ := List.mem_iff_get?.1 ((mem_live c _).1 hg2).1
    have hij : i ≠ j := by
      intro heq
      rw [heq, hj] at hi
      simp at hi
    have := conflictFree_reachable wd c h i j _ _ hij hi hj rfl rfl rd (by simp) rf (by simp)
    simp only [conflicts] at this
    rw [hdesc] at this
    exact Bool.noConfusion this

theorem sampleRemoveHeld_reachable : Reachable none sampleRemoveHeld :=
  reachable_grant _ _ _ (reachable_request _ _ _ _ Reachable.init)

/-- C15, instance: the remove handler holds `d`, a write to `d/x` arrives. -/
theorem C15_write_and_remove_exclude_witness :
    Reachable none sampleRemoveHeld ∧
    IsAbs (handlerRoot "/ws".toList "user00000001".toList) = true ∧
    ResolveWithinRoot (handlerRoot "/ws".toList "user00000001".toList) "d".toList =
      some "/ws/user00000001/d".toList ∧
    ResolveWithinRoot (handlerRoot "/ws".toList "user00000001".toList) "d/x".toList =
      some "/ws/user00000001/d/x".toList ∧
    Within "/ws/user00000001/d/x".toList "/ws/user00000001/d".toList ∧
    ⟨.subtree, normalizeLockPaths none ["/ws/user00000001/d".toList], false⟩ ∈
      sampleRemoveHeld.live ∧
    (sampleRemoveHeld.pl.LockExact none ["/ws/user00000001/d/x".toList] = .blocked ∧
      WriteFile none okOracle "/ws".toList "user00000001".toList
        (some ⟨"d/x".toList, "hello".toList⟩) sampleRemoveHeld.pl = none) :=
  ⟨sampleRemoveHeld_reachable, by decide, by decide, by decide, by decide, by decide,
    (C15_write_and_remove_exclude none okOracle sampleRemoveHeld "/ws".toList
      "user00000001".toList "d".toList "d/x".toList "hello".toList
      "/ws/user00000001/d".toList "/ws/user00000001/d/x".toList sampleRemoveHeld_reachable
      (by decide) (by decide) (by decide) (by decide)).1 (by decide)⟩

theorem contains_singleton (s : Path) (c : Char) : Contains s [c] = true ↔ c ∈ s := by
  unfold Contains
  rw [decide_eq_true_iff]
  constructor
  · rintro ⟨a, b, h⟩
    rw [← h]
    simp
  · intro h
    obtain ⟨a, b, rfl⟩ := List.append_of_mem h
    exact ⟨a, b, by simp⟩

theorem renameBody_not_bad (os : FsOracle) (a b : Path) :
    (renameBody os a b).1 ≠ .badRequest := by
  unfold renameBody
  split
  · simp
  · split
    · split <;> simp
    · simp

theorem withLock_reply (wd : Option Path) (pl : PathLocker) (mode : LockMode)
    (paths : List Path) (body : Reply × List FsCall) (run : Run)
    (h : withLock wd pl mode paths body = some run) :
    run.reply = body.1 ∧ run.lock = some (mode, paths) ∧ run.calls = body.2 := by
  unfold withLock at h
  split at h
  · exact Option.noConfusion h
  · simp only [Option.some.injEq] at h
    rw [← h]
    exact ⟨rfl, rfl, rfl⟩
  · simp only [Option.some.injEq] at h
    rw [← h]
    exact ⟨rfl, rfl, rfl⟩

/-- C18: for a rename request whose `path` the sandbox accepts and whose `newPath` is
blank after trimming, the handler answers 400 `BAD_REQUEST` exactly when the trimmed
`newName` is empty or contains `/` or `\`; it then answers at once: it makes no lock
call and no OS call, and the lock maps are untouched. -/
theorem C18_rename_rejects_bad_name (wd : Option Path) (os : FsOracle)
    (workspaceBase userID resolved : Path) (req : RenameRequest) (pl : PathLocker)
    (hp : ResolveWithinRoot (handlerRoot workspaceBase userID) req.path = some resolved)
    (hn : TrimSpace req.newPath = []) :
    (∀ run, Rename wd os workspaceBase userID (some req) pl = some run →
      ((run.reply = .badRequest ↔
        (TrimSpace req.newName = [] ∨ '/' ∈ TrimSpace req.newName ∨
          '\\' ∈ TrimSpace req.newName)) ∧
      (run.reply.status = 400 ↔ run.reply = .badRequest))) ∧
    ((TrimSpace req.newName = [] ∨ '/' ∈ TrimSpace req.newName ∨
        '\\' ∈ TrimSpace req.newName) →
      Rename wd os workspaceBase userID (some req) pl = some ⟨.badRequest, none, [], pl⟩) := by
  have hroot1 : handlerRoot workspaceBase userID = Join [workspaceBase, userID] := rfl
  rw [hroot1] at hp
  have hbad : (TrimSpace req.newName = [] ∨ '/' ∈ TrimSpace req.newName ∨
        '\\' ∈ TrimSpace req.newName) →
      Rename wd os workspaceBase userID (some req) pl = some ⟨.badRequest, none, [], pl⟩ := by
    intro hinv
    have hc : TrimSpace req.newName = [] ∨ Contains (TrimSpace req.newName) ['/'] = true ∨
        Contains (TrimSpace req.newName) ['\\'] = true := by
      simpa only [contains_singleton] using hinv
    simp only [Rename, hp, hn, ne_eq, not_true_eq_false, if_false, hc, if_true]
  refine ⟨?_, hbad⟩
  intro run hrun
  have hstatus : run.reply.status = 400 ↔ run.reply = .badRequest := by
    cases run.reply <;> simp [Reply.status]
  refine ⟨?_, hstatus⟩
  constructor
  · intro hreply
    by_contra hvalid
    have hc : ¬ (TrimSpace req.newName = [] ∨ Contains (TrimSpace req.newName) ['/'] = true ∨
        Contains (TrimSpace req.newName) ['\\'] = true) := by
      simpa only [contains_singleton] using hvalid
    simp only [Rename, hp, hn, ne_eq, not_true_eq_false, if_false, hc] at hrun
    split at hrun
    · simp only [Option.some.injEq] at hrun
      rw [← hrun] at hreply
      exact Reply.noConfusion hreply
    · split at hrun
      · simp only [Option.some.injEq] at hrun
        rw [← hrun] at hreply
        exact Reply.noConfusion hreply
      · have := (withLock_reply _ _ _ _ _ _ hrun).1
        rw [hreply] at this
        exact renameBody_not_bad os _ _ this.symm
  · intro hinv
    rw [hbad hinv] at hrun
    simp only [Option.some.injEq] at hrun
    rw [← hrun]

/-- C18, instance: renaming `a.txt` with the new name `b/c`. -/
theorem C18_rename_rejects_bad_name_witness :
    ResolveWithinRoot (handlerRoot "/ws".toList "user00000001".toList) "a.txt".toList =
      some "/ws/user00000001/a.txt".toList ∧
    TrimSpace ([] : Path) = [] ∧
    '/' ∈ TrimSpace "b/c".toList ∧
    Rename none okOracle "/ws".toList "user00000001".toList
        (some ⟨"a.txt".toList, "b/c".toList, []⟩) NewPathLocker =
      some ⟨.badRequest, none, [], NewPathLocker⟩ :=
  ⟨by decide, by decide, by decide,
    (C18_rename_rejects_bad_name none okOracle "/ws".toList "user00000001".toList
      "/ws/user00000001/a.txt".toList ⟨"a.txt".toList, "b/c".toList, []⟩ NewPathLocker
      (by decide) (by decide)).2 (Or.inr (Or.inl (by decide)))⟩

/-! ## `parseTokens`: claims -/

theorem lookup_cons_eq (m : TokenMap) (k v k1 : Path) :
    List.lookup k1 ((k, v) :: m) = if k1 = k then some v else List.lookup k1 m := by
  rw [List.lookup_cons]
  by_cases h : k1 = k
  · subst h; simp
  · have : (k1 == k) = false := by simpa using h
    simp [this, h]

theorem lookup_filter_ne (m : TokenMap) (k k1 : Path) (h : k1 ≠ k) :
    List.lookup k1 (m.filter fun e => e.1 ≠ k) = List.lookup k1 m := by
  induction m with
  | nil => rfl
  | cons e m ih =>
    obtain ⟨a, v⟩ := e
    by_cases ha : a = k
    · subst ha
      simp only [List.filter_cons, ne_eq, not_true_eq_false, decide_False, Bool.false_eq_true,
        if_false]
      rw [lookup_cons_eq, ih]
      simp [h]
    · simp only [List.filter_cons, ne_eq, ha, not_false_eq_true, decide_True, if_true]
      rw [lookup_cons_eq, lookup_cons_eq, ih]

theorem TokenMap.lookup_set (m : TokenMap) (k v k1 : Path) :
    List.lookup k1 (m.set k v) = if k1 = k then some v else List.lookup k1 m := by
  unfold TokenMap.set
  rw [lookup_cons_eq]
  by_cases h : k1 = k
  · simp [h]
  · simp only [h, if_false]
    exact lookup_filter_ne m k k1 h

theorem lookup_isSome_iff (m : TokenMap) (k : Path) :
    (List.lookup k m).isSome = true ↔ k ∈ m.map Prod.fst := by
  induction m with
  | nil => simp
  | cons e m ih =>
    obtain ⟨a, v⟩ := e
    rw [lookup_cons_eq]
    by_cases h : k = a
    · simp [h]
    · simp only [h, if_false, List.map_cons, List.mem_cons, false_or]
      exact ih

theorem splitN2_eq (t : Path) :
    splitN2 t = if ':' ∈ t then [(cutItem t).1, (cutItem t).2] else [t] := by
  unfold splitN2 cutItem
  by_cases h : ':' ∈ t
  · simp only [h, if_true]
    cases hd : t.dropWhile (· ≠ ':') with
    | nil =>
      have := List.dropWhile_eq_nil_iff.1 hd ':' h
      simp at this
    | cons a r => rfl
  · simp only [h, if_false]
    have : t.dropWhile (· ≠ ':') = [] := by
      apply List.dropWhile_eq_nil_iff.2
      intro x hx
      have : x ≠ ':' := fun heq => h (heq ▸ hx)
      simpa using this
    rw [this]

/-- One turn of the loop of `parseTokens` on a trimmed, non-empty item. -/
theorem parseLoop_cons (item : Path) (rest : List Path) (m : TokenMap) :
    parseLoop (item :: rest) m =
      if TrimSpace item = [] then parseLoop rest m
      else if Malformed (TrimSpace item) then none
      else parseLoop rest (m.set (cutItem (TrimSpace item)).2 (cutItem (TrimSpace item)).1) := by
  rw [parseLoop]
  by_cases h0 : TrimSpace item = []
  · simp [h0]
  · simp only [h0, if_false, splitN2_eq]
    by_cases hc : ':' ∈ TrimSpace item
    · simp only [hc, if_true]
      by_cases hm : Malformed (TrimSpace item)
      · have : (cutItem (TrimSpace item)).1 = [] ∨ (cutItem (TrimSpace item)).2 = [] := by
          rcases hm with h | h | h
          · exact absurd hc h
          · exact Or.inl h
          · exact Or.inr h
        simp [this, hm]
      · have : ¬ ((cutItem (TrimSpace item)).1 = [] ∨ (cutItem (TrimSpace item)).2 = []) := by
          rintro (h | h)
          · exact hm (Or.inr (Or.inl h))
          · exact hm (Or.inr (Or.inr h))
        simp [this, hm]
    · have hm : Malformed (TrimSpace item) := Or.inl hc
      simp [hc, hm]

theorem lastService_cons (e : Path × Path) (es : List (Path × Path)) (tok : Path) :
    lastService (e :: es) tok =
      (lastService es tok).or (if e.2 = tok then some e.1 else none) := by
  unfold lastService
  rw [List.reverse_cons, List.find?_append]
  cases h : es.reverse.find? (fun x => decide (x.2 = tok)) with
  | some x => simp
  | none =>
    by_cases he : e.2 = tok <;> simp [List.find?_cons, he]

theorem tokenItems_cons_aux (item : Path) (rest : List Path) :
    ((((item :: rest).map TrimSpace).filter fun t => t ≠ []).map cutItem) =
      if TrimSpace item = [] then (((rest.map TrimSpace).filter fun t => t ≠ []).map cutItem)
      else cutItem (TrimSpace item) ::
        (((rest.map TrimSpace).filter fun t => t ≠ []).map cutItem) := by
  by_cases h : TrimSpace item = [] <;> simp [h]

/-- What the loop of `parseTokens` computes: it fails exactly when some non-empty
trimmed item is malformed, and otherwise it extends the map by the last service of
each token; the result is empty only if the map was and no item was non-empty. -/
theorem parseLoop_spec (items : List Path) : ∀ m : TokenMap,
    (parseLoop items m = none ↔
      ∃ item ∈ items, TrimSpace item ≠ [] ∧ Malformed (TrimSpace item)) ∧
    (∀ m1, parseLoop items m = some m1 →
      (∀ tok, List.lookup tok m1 =
        (lastService (((items.map TrimSpace).filter fun t => t ≠ []).map cutItem) tok).or
          (List.lookup tok m)) ∧
      (m1.length = 0 ↔ m.length = 0 ∧ ∀ item ∈ items, TrimSpace item = [])) := by
  induction items with
  | nil =>
    intro m
    refine ⟨by simp [parseLoop], ?_⟩
    intro m1 h
    simp only [parseLoop, Option.some.injEq] at h
    subst h
    simp [lastService]
  | cons item rest ih =>
    intro m
    rw [parseLoop_cons, tokenItems_cons_aux]
    by_cases h0 : TrimSpace item = []
    · simp only [h0, if_true]
      obtain ⟨i1, i2⟩ := ih m
      refine ⟨?_, ?_⟩
      · rw [i1]
        simp [h0]
      · intro m1 h
        obtain ⟨j1, j2⟩ := i2 m1 h
        refine ⟨j1, ?_⟩
        rw [j2]
        simp [h0]
    · simp only [h0, if_false]
      by_cases hm : Malformed (TrimSpace item)
      · simp only [hm, if_true, true_iff]
        refine ⟨⟨item, by simp, h0, hm⟩, ?_⟩
        intro m1 h
        exact Option.noConfusion h
      · simp only [hm, if_false]
        obtain ⟨i1, i2⟩ := ih (m.set (cutItem (TrimSpace item)).2 (cutItem (TrimSpace item)).1)
        refine ⟨?_, ?_⟩
        · rw [i1]
          constructor
          · rintro ⟨x, hx, h⟩
            exact ⟨x, List.mem_cons_of_mem _ hx, h⟩
          · rintro ⟨x, hx, h⟩
            rcases List.mem_cons.1 hx with h1 | h1
            · rw [h1] at h
              exact absurd h.2 hm
            · exact ⟨x, h1, h⟩
        · intro m1 h
          obtain ⟨j1, j2⟩ := i2 m1 h
          refine ⟨?_, ?_⟩
          · intro tok
            rw [j1 tok, lastService_cons, TokenMap.lookup_set]
            cases lastService (((rest.map TrimSpace).filter fun t => t ≠ []).map cutItem) tok with
            | some s => simp
            | none =>
              by_cases he : (cutItem (TrimSpace item)).2 = tok
              · simp [he]
              · simp [he, Ne.symm he]
          · rw [j2]
            constructor
            · intro h1
              simp [TokenMap.set] at h1
            · intro h1
              exact absurd (h1.2 item (by simp)) h0

/-- C19 (as amended): `parseTokens` returns an error exactly for the values in which
some comma-separated item is, after trimming, non-empty and malformed (no colon, an
empty service name or an empty token), and for the values without any non-empty item
(the empty value among them). Items that are empty after trimming are skipped. -/
theorem C19_parseTokens_error_iff (raw : Path) :
    (parseTokens raw = none ↔
      (∃ item ∈ raw.splitOn ',', TrimSpace item ≠ [] ∧ Malformed (TrimSpace item)) ∨
      (∀ item ∈ raw.splitOn ',', TrimSpace item = [])) ∧
    parseTokens [] = none ∧
    parseTokens "webapp".toList = none ∧
    parseTokens "webapp:t1,:t2".toList = none ∧
    parseTokens "webapp:t1, agent:".toList = none := by
  refine ⟨?_, by decide, by decide, by decide, by decide⟩
  obtain ⟨h1, h2⟩ := parseLoop_spec (raw.splitOn ',') []
  unfold parseTokens
  cases hp : parseLoop (raw.splitOn ',') [] with
  | none =>
    simp only [true_iff]
    exact Or.inl (h1.1 hp)
  | some m =>
    obtain ⟨-, j2⟩ := h2 m hp
    have hnm : ¬ ∃ item ∈ raw.splitOn ',', TrimSpace item ≠ [] ∧ Malformed (TrimSpace item) := by
      intro hcon
      rw [h1.2 hcon] at hp
      exact Option.noConfusion hp
    simp only []
    by_cases hl : m.length = 0
    · simp only [hl, if_true, true_iff]
      exact Or.inr (j2.1 hl).2
    · simp only [hl, if_false, reduceCtorEq, false_iff, not_or]
      exact ⟨hnm, fun hall => hl (j2.2 ⟨rfl, hall⟩)⟩

/-- C19, as stated, fails: these values contain an empty pair and are accepted. -/
theorem C19_empty_pair_is_skipped :
    ([] : Path) ∈ "webapp:t1,".toList.splitOn ',' ∧
    parseTokens "webapp:t1,".toList = some [("t1".toList, "webapp".toList)] ∧
    ([] : Path) ∈ "webapp:t1,,agent:t2".toList.splitOn ',' ∧
    parseTokens "webapp:t1,,agent:t2".toList =
      some [("t2".toList, "agent".toList), ("t1".toList, "webapp".toList)] ∧
    parseTokens "webapp:t1, ,agent:t2".toList =
      some [("t2".toList, "agent".toList), ("t1".toList, "webapp".toList)] := by
  decide

theorem TokenMap.nodup_keys_set (m : TokenMap) (k v : Path) (h : (m.map Prod.fst).Nodup) :
    ((m.set k v).map Prod.fst).Nodup := by
  unfold TokenMap.set
  rw [List.map_cons, List.nodup_cons]
  constructor
  · intro hk
    obtain ⟨e, he, hek⟩ := List.mem_map.1 hk
    have := (List.mem_filter.1 he).2
    simp only [ne_eq, decide_not, Bool.not_eq_true', decide_eq_false_iff_not] at this
    exact this hek
  · exact (List.Sublist.map _ (List.filter_sublist _)).nodup h

theorem parseLoop_nodup (items : List Path) : ∀ m m1 : TokenMap,
    (m.map Prod.fst).Nodup → parseLoop items m = some m1 → (m1.map Prod.fst).Nodup := by
  induction items with
  | nil =>
    intro m m1 hm h
    simp only [parseLoop, Option.some.injEq] at h
    rw [← h]; exact hm
  | cons item rest ih =>
    intro m m1 hm h
    rw [parseLoop_cons] at h
    split at h
    · exact ih m m1 hm h
    · split at h
      · exact Option.noConfusion h
      · exact ih _ m1 (TokenMap.nodup_keys_set m _ _ hm) h

theorem cutItem_spec (item : Path) (h : ¬ Malformed item) :
    ':' ∉ (cutItem item).1 ∧ (cutItem item).1 ≠ [] ∧ (cutItem item).2 ≠ [] ∧
      item = (cutItem item).1 ++ ':' :: (cutItem item).2 := by
  unfold Malformed at h
  simp only [not_or, not_not] at h
  obtain ⟨hc, h1, h2⟩ := h
  unfold cutItem
  refine ⟨?_, h1, h2, ?_⟩
  · intro hmem
    have := List.mem_takeWhile_imp hmem
    simp at this
  · have hsum := List.takeWhile_append_dropWhile (fun x : Char => decide (x ≠ ':')) item
    cases hd : item.dropWhile (fun x : Char => decide (x ≠ ':')) with
    | nil =>
      have := List.dropWhile_eq_nil_iff.1 hd ':' hc
      simp at this
    | cons a r =>
      have ha : a = ':' := by
        have := List.head_dropWhile_not (fun x : Char => decide (x ≠ ':')) item
          (by rw [hd]; simp)
        simp only [hd, List.head_cons] at this
        simpa using this
      rw [hd] at hsum
      simp only [List.tail_cons]
      subst ha
      exact hsum.symm

/-- C20: when `parseTokens` succeeds the map is keyed by token and valued by service
name. Every trimmed non-empty item of the input has the form `s:t` with `s` free of
colons and `s`, `t` non-empty (it is cut at its first colon, so `t` may hold colons);
the map sends each token to the service of the last item with that token, holds each
token once and holds no key that is not the token of an item. -/
theorem C20_parseTokens_map (raw : Path) (m : TokenMap) (h : parseTokens raw = some m) :
    (∀ tok, List.lookup tok m = lastService ((tokenItems raw).map cutItem) tok) ∧
    (∀ tok, tok ∈ m.map Prod.fst ↔ ∃ item ∈ tokenItems raw, (cutItem item).2 = tok) ∧
    (∀ item ∈ tokenItems raw,
      ':' ∉ (cutItem item).1 ∧ (cutItem item).1 ≠ [] ∧ (cutItem item).2 ≠ [] ∧
      item = (cutItem item).1 ++ ':' :: (cutItem item).2) ∧
    (m.map Prod.fst).Nodup ∧
    parseTokens "webapp:to:ken, agent:t2 ,cli:to:ken".toList =
      some [("to:ken".toList, "cli".toList), ("t2".toList, "agent".toList)] := by
  obtain ⟨h1, h2⟩ := parseLoop_spec (raw.splitOn ',') []
  unfold parseTokens at h
  cases hp : parseLoop (raw.splitOn ',') [] with
  | none => rw [hp] at h; exact Option.noConfusion h
  | some m1 =>
    rw [hp] at h
    simp only [] at h
    split at h
    · exact Option.noConfusion h
    · simp only [Option.some.injEq] at h
      subst h
      obtain ⟨j1, -⟩ := h2 m1 hp
      have hlook : ∀ tok, List.lookup tok m1 =
          lastService ((tokenItems raw).map cutItem) tok := by
        intro tok
        rw [j1 tok]
        simp [tokenItems]
      refine ⟨hlook, ?_, ?_, parseLoop_nodup _ [] m1 (by simp) hp, by decide⟩
      · intro tok
        rw [← lookup_isSome_iff, hlook]
        unfold lastService
        rw [Option.isSome_map', List.find?_isSome]
        simp only [List.mem_reverse, List.mem_map, decide_eq_true_eq]
        constructor
        · rintro ⟨e, ⟨item, hi, rfl⟩, he⟩
          exact ⟨item, hi, he⟩
        · rintro ⟨item, hi, he⟩
          exact ⟨cutItem item, ⟨item, hi, rfl⟩, he⟩
      · intro item hi
        apply cutItem_spec
        intro hmal
        unfold tokenItems at hi
        obtain ⟨hmem, hne⟩ := List.mem_filter.1 hi
        obtain ⟨x, hx, rfl⟩ := List.mem_map.1 hmem
        have hne1 : TrimSpace x ≠ [] := by simpa using hne
        have := h1.2 ⟨x, hx, hne1, hmal⟩
        rw [hp] at this
        exact Option.noConfusion this

/-- C20, instance: two services with one token each. -/
theorem C20_parseTokens_map_witness :
    parseTokens "webapp:t1,agent:t2".toList =
      some [("t2".toList, "agent".toList), ("t1".toList, "webapp".toList)] ∧
    (∀ tok, List.lookup tok [("t2".toList, "agent".toList), ("t1".toList, "webapp".toList)] =
      lastService ((tokenItems "webapp:t1,agent:t2".toList).map cutItem) tok) :=
  ⟨by decide,
    (C20_parseTokens_map "webapp:t1,agent:t2".toList
      [("t2".toList, "agent".toList), ("t1".toList, "webapp".toList)] (by decide)).1⟩

/-! ## The middleware `ServiceAuth`: claims -/

theorem hasPrefix_iff (s pre : Path) : HasPrefix s pre = true ↔ ∃ t, s = pre ++ t := by
  unfold HasPrefix
  rw [List.isPrefixOf_iff_prefix]
  constructor
  · rintro ⟨t, h⟩; exact ⟨t, h.symm⟩
  · rintro ⟨t, h⟩; exact ⟨t, h.symm⟩

theorem trimPrefix_append (pre t : Path) : TrimPrefix (pre ++ t) pre = t := by
  have h : HasPrefix (pre ++ t) pre = true := (hasPrefix_iff _ _).2 ⟨t, rfl⟩
  simp [TrimPrefix, h]

theorem serviceAuth_cases (tokens : TokenMap) (auth : Path) :
    ServiceAuth tokens auth = ⟨none, true⟩ ∨
      ServiceAuth tokens auth = ⟨some (401, "UNAUTHORIZED".toList), false⟩ := by
  unfold ServiceAuth
  by_cases hp : HasPrefix auth "Bearer ".toList = true
  · simp only [hp, Bool.not_true, Bool.false_eq_true, if_false]
    cases List.lookup (TrimPrefix auth "Bearer ".toList) tokens with
    | none => right; rfl
    | some v => left; rfl
  · have hf : HasPrefix auth "Bearer ".toList = false := by simpa using hp
    right
    simp only [hf, Bool.not_false, if_true]

/-- C21: `ServiceAuth` calls the next handler exactly when the `Authorization` header
is `Bearer ` followed by a key of the token map, and then writes no response; in every
other case it writes 401 `UNAUTHORIZED` and does not call the next handler. A missing
header and an unknown token both give 401. -/
theorem C21_auth_passes_iff_known_bearer (tokens : TokenMap) (auth : Path) :
    ((ServiceAuth tokens auth).nextCalled = true ↔
      ∃ tok, auth = "Bearer ".toList ++ tok ∧ tok ∈ tokens.map Prod.fst) ∧
    ((ServiceAuth tokens auth).nextCalled = true → (ServiceAuth tokens auth).written = none) ∧
    ((ServiceAuth tokens auth).nextCalled = false →
      (ServiceAuth tokens auth).written = some (401, "UNAUTHORIZED".toList)) ∧
    ServiceAuth tokens [] = ⟨some (401, "UNAUTHORIZED".toList), false⟩ ∧
    ServiceAuth [("t1".toList, "webapp".toList)] "Bearer t2".toList =
      ⟨some (401, "UNAUTHORIZED".toList), false⟩ ∧
    ServiceAuth [("t1".toList, "webapp".toList)] "t1".toList =
      ⟨some (401, "UNAUTHORIZED".toList), false⟩ ∧
    ServiceAuth [("t1".toList, "webapp".toList)] "Bearer t1".toList = ⟨none, true⟩ := by
  refine ⟨?_, ?_, ?_, rfl, by decide, by decide, by decide⟩
  · by_cases hp : HasPrefix auth "Bearer ".toList = true
    · obtain ⟨t, rfl⟩ := (hasPrefix_iff _ _).1 hp
      unfold ServiceAuth
      simp only [hp, Bool.not_true, Bool.false_eq_true, if_false]
      rw [trimPrefix_append]
      have hk := lookup_isSome_iff tokens t
      cases hl : List.lookup t tokens with
      | none =>
        rw [hl] at hk
        simp only [Option.isSome_none, Bool.false_eq_true, false_iff] at hk
        simp only [Bool.false_eq_true, false_iff]
        rintro ⟨tok, he, hm⟩
        have : t = tok := List.append_cancel_left he
        exact hk (this ▸ hm)
      | some v =>
        rw [hl] at hk
        simp only [Option.isSome_some, true_iff] at hk
        simp only [true_iff]
        exact ⟨t, rfl, hk⟩
    · have hnot : ¬ ∃ tok, auth = "Bearer ".toList ++ tok ∧ tok ∈ tokens.map Prod.fst := by
        rintro ⟨tok, he, -⟩
        exact hp ((hasPrefix_iff _ _).2 ⟨tok, he⟩)
      have hf : HasPrefix auth "Bearer ".toList = false := by simpa using hp
      unfold ServiceAuth
      simp only [hf, Bool.not_false, if_true, Bool.false_eq_true, false_iff]
      exact hnot
  · rcases serviceAuth_cases tokens auth with h | h <;> rw [h] <;> simp
  · rcases serviceAuth_cases tokens auth with h | h <;> rw [h] <;> simp

/-! ## The handlers and the file system: claims -/

theorem removeAll_never_notExist (rest : Path → Option OsError) (path : Path) :
    RemoveAll (fun _ => some .notExist) rest path = none ∨
      RemoveAll (fun _ => some .notExist) rest path = some .other := by
  unfold RemoveAll
  split
  · exact Or.inl rfl
  · split
    · exact Or.inr rfl
    · exact Or.inl rfl

theorem removeBody_emptyDir (resolved : Path) :
    (removeBody emptyDirOracle resolved).1 ≠ .notFound := by
  unfold removeBody
  have h : emptyDirOracle.removeAll resolved =
      RemoveAll (fun _ => some .notExist) (fun _ => some .other) resolved := rfl
  rcases removeAll_never_notExist (fun _ => some .other) resolved with h1 | h1
  · rw [h, h1]; simp
  · rw [h, h1]; simp

/-- C22: the code at the failing input. The user `user00000001` asks to remove
`missing.txt`, which does not exist: `os.Remove` reports that, `os.RemoveAll` returns
no error, and the handler answers 200 (`removed: true`), not 404 `NOT_FOUND`. While
nothing exists, no remove request at all is answered `NOT_FOUND`. -/
theorem C22_remove_of_missing_answers_ok :
    ResolveWithinRoot (handlerRoot "/ws".toList "user00000001".toList) "missing.txt".toList =
      some "/ws/user00000001/missing.txt".toList ∧
    (∀ rest, RemoveAll (fun _ => some .notExist) rest "/ws/user00000001/missing.txt".toList =
      none) ∧
    Remove none emptyDirOracle "/ws".toList "user00000001".toList "missing.txt".toList
        NewPathLocker =
      some ⟨.ok, some (.subtree, ["/ws/user00000001/missing.txt".toList]),
        [.removeAll "/ws/user00000001/missing.txt".toList], NewPathLocker⟩ ∧
    Reply.status .ok = 200 ∧ Reply.status .notFound = 404 ∧
    (∀ (wd : Option Path) (workspaceBase userID filePath : Path) (pl : PathLocker),
      (Remove wd emptyDirOracle workspaceBase userID filePath pl).map Run.reply ≠
        some .notFound) := by
  refine ⟨by decide, fun _ => rfl, by decide, rfl, rfl, ?_⟩
  intro wd workspaceBase userID filePath pl
  unfold Remove
  simp only []
  split
  · simp
  · rename_i resolved _
    unfold withLock
    split
    · simp
    · simpa using removeBody_emptyDir resolved
    · simpa using removeBody_emptyDir resolved

theorem reject_restores (reply : Reply) (pl : PathLocker) :
    Run.Restores ⟨reply, none, [], pl⟩ pl :=
  ⟨rfl, fun _ => ⟨rfl, rfl⟩⟩

theorem withLock_restores (wd : Option Path) (c : Coord) (hinv : RefInv c) (mode : LockMode)
    (paths : List Path) (body : Reply × List FsCall) (run : Run)
    (hb : body.1 ≠ .badRequest ∧ body.1 ≠ .pathTraversal)
    (h : withLock wd c.pl mode paths body = some run) : run.Restores c.pl := by
  obtain ⟨hr, -, -⟩ := withLock_reply wd c.pl mode paths body run h
  refine ⟨?_, ?_⟩
  · unfold withLock at h
    split at h
    · exact Option.noConfusion h
    · cases h; rfl
    · rename_i pl1 keys hl
      cases h
      unfold PathLocker.lock at hl
      simp only [] at hl
      split at hl
      · exact LockOutcome.noConfusion hl
      · split at hl
        · rename_i hcan
          simp only [LockOutcome.granted.injEq] at hl
          obtain ⟨h1, h2⟩ := hl
          subst h1 h2
          exact release_acquire c hinv mode _ (nodup_normalize wd paths) hcan
        · exact LockOutcome.noConfusion hl
  · rintro (h1 | h1)
    · exact absurd (hr ▸ h1) hb.1
    · exact absurd (hr ▸ h1) hb.2

theorem withLock_new (wd : Option Path) (mode : LockMode) (paths : List Path)
    (body : Reply × List FsCall) : (withLock wd NewPathLocker mode paths body).isSome = true := by
  unfold withLock PathLocker.lock
  simp only [canAcquire_new, if_true]
  split
  · rename_i hl
    split at hl
    · exact LockOutcome.noConfusion hl
    · exact LockOutcome.noConfusion hl
  · rfl
  · rfl

theorem writeFileBody_accepts (os : FsOracle) (resolved : Path) :
    (writeFileBody os resolved).1 ≠ .badRequest ∧
      (writeFileBody os resolved).1 ≠ .pathTraversal := by
  unfold writeFileBody
  split
  · simp
  · split <;> simp

theorem mkDirBody_accepts (os : FsOracle) (resolved : Path) :
    (mkDirBody os resolved).1 ≠ .badRequest ∧ (mkDirBody os resolved).1 ≠ .pathTraversal := by
  unfold mkDirBody
  split <;> simp

theorem removeBody_accepts (os : FsOracle) (resolved : Path) :
    (removeBody os resolved).1 ≠ .badRequest ∧ (removeBody os resolved).1 ≠ .pathTraversal := by
  unfold removeBody
  split
  · split <;> simp
  · simp

theorem renameBody_accepts (os : FsOracle) (a b : Path) :
    (renameBody os a b).1 ≠ .badRequest ∧ (renameBody os a b).1 ≠ .pathTraversal := by
  unfold renameBody
  split
  · simp
  · split
    · split <;> simp
    · simp

/-- C23: every mutating handler releases its guard on every exit path. In every
reachable state of the locker, for every request and every outcome of the OS calls, a
run of `WriteFile`, `WriteFileBinary`, `MkDir`, `Remove` or `Rename` that returns
leaves both lock maps as they were before it ran, and a request it rejects (400 or
403) has made no lock call and no OS call. With no lock held every handler returns. -/
theorem C23_handlers_release_their_guard (wd : Option Path) (os : FsOracle) (c : Coord)
    (h : Reachable wd c) (workspaceBase userID : Path) :
    (∀ body run, WriteFile wd os workspaceBase userID body c.pl = some run →
      run.Restores c.pl) ∧
    (∀ form run, WriteFileBinary wd os workspaceBase userID form c.pl = some run →
      run.Restores c.pl) ∧
    (∀ body run, MkDir wd os workspaceBase userID body c.pl = some run →
      run.Restores c.pl) ∧
    (∀ filePath run, Remove wd os workspaceBase userID filePath c.pl = some run →
      run.Restores c.pl) ∧
    (∀ body run, Rename wd os workspaceBase userID body c.pl = some run →
      run.Restores c.pl) ∧
    (∀ body, (WriteFile wd os workspaceBase userID body NewPathLocker).isSome = true) ∧
    (∀ form, (WriteFileBinary wd os workspaceBase userID form NewPathLocker).isSome = true) ∧
    (∀ body, (MkDir wd os workspaceBase userID body NewPathLocker).isSome = true) ∧
    (∀ filePath, (Remove wd os workspaceBase userID filePath NewPathLocker).isSome = true) ∧
    (∀ body, (Rename wd os workspaceBase userID body NewPathLocker).isSome = true) := by
  have hinv := refInv_reachable wd c h
  refine ⟨?_, ?_, ?_, ?_, ?_, ?_, ?_, ?_, ?_, ?_⟩
  · intro body run hrun
    unfold WriteFile at hrun
    simp only [] at hrun
    split at hrun
    · cases hrun; exact reject_restores _ _
    · split at hrun
      · cases hrun; exact reject_restores _ _
      · exact withLock_restores wd c hinv _ _ _ run (writeFileBody_accepts os _) hrun
  · intro form run hrun
    unfold WriteFileBinary at hrun
    simp only [] at hrun
    split at hrun
    · cases hrun; exact reject_restores _ _
    · split at hrun
      · cases hrun; exact reject_restores _ _
      · split at hrun
        · cases hrun; exact reject_restores _ _
        · split at hrun
          · cases hrun; exact reject_restores _ _
          · split at hrun
            · cases hrun; exact ⟨rfl, fun _ => ⟨rfl, rfl⟩⟩
            · exact withLock_restores wd c hinv _ _ _ run (writeFileBody_accepts os _) hrun
  · intro body run hrun
    unfold MkDir at hrun
    simp only [] at hrun
    split at hrun
    · cases hrun; exact reject_restores _ _
    · split at hrun
      · cases hrun; exact reject_restores _ _
      · exact withLock_restores wd c hinv _ _ _ run (mkDirBody_accepts os _) hrun
  · intro filePath run hrun
    unfold Remove at hrun
    simp only [] at hrun
    split at hrun
    · cases hrun; exact reject_restores _ _
    · exact withLock_restores wd c hinv _ _ _ run (removeBody_accepts os _) hrun
  · intro body run hrun
    unfold Rename at hrun
    simp only [] at hrun
    split at hrun
    · cases hrun; exact reject_restores _ _
    · split at hrun
      · cases hrun; exact reject_restores _ _
      · split at hrun
        · split at hrun
          · cases hrun; exact reject_restores _ _
          · exact withLock_restores wd c hinv _ _ _ run (renameBody_accepts os _ _) hrun
        · split at hrun
          · cases hrun; exact reject_restores _ _
          · split at hrun
            · cases hrun; exact reject_restores _ _
            · split at hrun
              · cases hrun; exact reject_restores _ _
              · exact withLock_restores wd c hinv _ _ _ run (renameBody_accepts os _ _) hrun
  · intro body
    unfold WriteFile
    simp only []
    split
    · rfl
    · split
      · rfl
      · exact withLock_new _ _ _ _
  · intro form
    unfold WriteFileBinary
    simp only []
    split
    · rfl
    · split
      · rfl
      · split
        · rfl
        · split
          · rfl
          · split
            · rfl
            · exact withLock_new _ _ _ _
  · intro body
    unfold MkDir
    simp only []
    split
    · rfl
    · split
      · rfl
      · exact withLock_new _ _ _ _
  · intro filePath
    unfold Remove
    simp only []
    split
    · rfl
    · exact withLock_new _ _ _ _
  · intro body
    unfold Rename
    simp only []
    split
    · rfl
    · split
      · rfl
      · split
        · split
          · rfl
          · exact withLock_new _ _ _ _
        · split
          · rfl
          · split
            · rfl
            · split
              · rfl
              · exact withLock_new _ _ _ _

/-- C23, instance: while the remove handler holds `d`, a write to `e.txt` is granted
its lock, answered 200, and leaves the lock maps as they were. -/
theorem C23_handlers_release_their_guard_witness :
    Reachable none sampleRemoveHeld ∧
    WriteFile none emptyDirOracle "/ws".toList "user00000001".toList
        (some ⟨"e.txt".toList, "hello".toList⟩) sampleRemoveHeld.pl =
      some ⟨.ok, some (.exact, ["/ws/user00000001/e.txt".toList]),
        [.mkdirAll "/ws/user00000001".toList, .writeFile "/ws/user00000001/e.txt".toList],
        sampleRemoveHeld.pl⟩ ∧
    Run.Restores ⟨.ok, some (.exact, ["/ws/user00000001/e.txt".toList]),
        [.mkdirAll "/ws/user00000001".toList, .writeFile "/ws/user00000001/e.txt".toList],
        sampleRemoveHeld.pl⟩ sampleRemoveHeld.pl :=
  ⟨sampleRemoveHeld_reachable, by decide,
    (C23_handlers_release_their_guard none emptyDirOracle sampleRemoveHeld
      sampleRemoveHeld_reachable "/ws".toList "user00000001".toList).1
      (some ⟨"e.txt".toList, "hello".toList⟩) _ (by decide)⟩

/-! ## Reference counts never exceed one -/

theorem countLeOne_reachable (wd : Option Path) (c : Coord) (h : Reachable wd c) :
    ∀ m k, (c.pl.table m).get k ≤ 1 := by
  induction h with
  | init =>
    intro m k
    cases m <;> simp [Coord.init, NewPathLocker, PathLocker.table, LockMap.get]
  | step hr hs ih =>
    have hinv := refInv_reachable wd _ hr
    intro m k
    cases hs with
    | request mode paths hne => exact ih m k
    | grant i r hi hcan =>
      simp only [table_acquire]
      split
      · rw [LockMap.get_incrAll r.keys (hinv.2.2.2 r (List.get?_mem hi))]
        by_cases hk : k ∈ r.keys
        · have habs := canAcquire_absent _ hinv r.mode r.keys hcan k hk
          rw [LockMap.get_absent _ k habs]
          simp [hk]
        · simp only [hk, if_false, add_zero]
          exact ih _ k
      · exact ih m k
    | unlock i =>
      unfold Coord.unlock
      split
      · exact ih m k
      · rename_i g hg
        split
        · exact ih m k
        · simp only [table_release]
          split
          · rw [LockMap.get_decrAll g.keys (hinv.2.2.1 g (List.get?_mem hg))]
            have := ih g.mode k
            split <;> omega
          · exact ih m k

/-- C27: in every state reachable from `NewPathLocker()` every count stored in
`exactLocks` and in `subtreeLocks` is exactly 1, and no key is named by two live guards
of one mode: a request naming a key that is present in its map is not grantable, and
the keys of one request are free of duplicates. -/
theorem C27_every_count_is_one (wd : Option Path) (c : Coord) (h : Reachable wd c) :
    (∀ e ∈ c.pl.exactLocks, e.2 = 1) ∧ (∀ e ∈ c.pl.subtreeLocks, e.2 = 1) ∧
    (∀ m k, (c.pl.table m).get k ≤ 1) ∧ (∀ m k, c.holders m k ≤ 1) ∧
    (∀ m ks k, k ∈ ks → k ∈ (c.pl.table m).keys → c.pl.canAcquire m ks = false) ∧
    (∀ paths, (normalizeLockPaths wd paths).Nodup) := by
  have hinv := refInv_reachable wd c h
  have hnd := keysNodup_reachable wd c h
  have hle := countLeOne_reachable wd c h
  have hone : ∀ m, ∀ e ∈ c.pl.table m, e.2 = 1 := by
    intro m e he
    have hk : e.1 ∈ (c.pl.table m).keys := List.mem_map.2 ⟨e, he, rfl⟩
    have hget := LockMap.get_of_mem _ (hnd m) e.1 e.2 he
    have hh := hinv.1 m e.1
    have hpos := (hinv.2.1 m e.1).1 hk
    have hl := hle m e.1
    rw [hget] at hh hl
    have : (0 : Int) < e.2 := by rw [hh]; exact_mod_cast hpos
    omega
  refine ⟨hone .exact, hone .subtree, hle, ?_, ?_, nodup_normalize wd⟩
  · intro m k
    have := hle m k
    rw [hinv.1 m k] at this
    exact_mod_cast this
  · intro m ks k hk hmem
    by_contra hcan
    have hcan1 : c.pl.canAcquire m ks = true := by simpa using hcan
    exact canAcquire_absent c hinv m ks hcan1 k hk hmem

/-- C27, instance: `/x/a.txt` held exactly and `/x/dir` held as a subtree. -/
theorem C27_every_count_is_one_witness :
    Reachable none sampleTwoGuards ∧
    sampleTwoGuards.pl.exactLocks = [("/x/a.txt".toList, 1)] ∧
    sampleTwoGuards.pl.subtreeLocks = [("/x/dir".toList, 1)] ∧
    (∀ e ∈ sampleTwoGuards.pl.exactLocks, e.2 = 1) :=
  ⟨sampleTwoGuards_reachable, by decide, by decide,
    (C27_every_count_is_one none sampleTwoGuards sampleTwoGuards_reachable).1⟩

/-! ## `isSameOrDescendant` and `normalizeLockPaths`: claims -/

/-- C25: for clean absolute paths `isSameOrDescendant path root` holds exactly when
the path elements of `root` are a beginning of the path elements of `path`. It is
reflexive, every such path is a descendant of `/`, and names are compared element by
element, not as strings: `/x/dir2` is not under `/x/dir`, and `/x/..foo` is under `/x`. -/
theorem C25_descendant_is_elementwise (path root : Path)
    (hp : IsCanonical path) (hr : IsCanonical root) :
    (isSameOrDescendant path root = true ↔ components root <+: components path) ∧
    isSameOrDescendant path path = true ∧
    isSameOrDescendant path ['/'] = true ∧
    isSameOrDescendant "/x/dir2".toList "/x/dir".toList = false ∧
    isSameOrDescendant "/x/dir".toList "/x/dir2".toList = false ∧
    isSameOrDescendant "/x/dir/a".toList "/x/dir".toList = true ∧
    isSameOrDescendant "/x/dir".toList "/x/dir/a".toList = false ∧
    isSameOrDescendant "/x/..foo".toList "/x".toList = true := by
  refine ⟨isSameOrDescendant_iff path root hp hr, isSameOrDescendant_self path, ?_,
    by decide, by decide, by decide, by decide, by decide⟩
  rw [isSameOrDescendant_iff path ['/'] hp (by decide)]
  have : components ['/'] = [] := by decide
  unfold Within
  rw [this]
  exact List.nil_prefix

/-- C25, instance: `/x/dir/a` under `/x/dir`. -/
theorem C25_descendant_is_elementwise_witness :
    IsCanonical "/x/dir/a".toList ∧ IsCanonical "/x/dir".toList ∧
    components "/x/dir".toList = ["x".toList, "dir".toList] ∧
    components "/x/dir/a".toList = ["x".toList, "dir".toList, "a".toList] ∧
    (isSameOrDescendant "/x/dir/a".toList "/x/dir".toList = true ↔
      components "/x/dir".toList <+: components "/x/dir/a".toList) :=
  ⟨by decide, by decide, by decide, by decide,
    (C25_descendant_is_elementwise "/x/dir/a".toList "/x/dir".toList
      (by decide) (by decide)).1⟩

theorem canonicalPath_abs (wd : Option Path) (p : Path) (h : IsAbs p = true) :
    canonicalPath wd p = Clean p := by
  have hc := Clean_canonical p h
  unfold canonicalPath Abs
  simp only [hc.1, if_true, hc.2]

theorem sorted_normalize (wd : Option Path) (paths : List Path) :
    (normalizeLockPaths wd paths).Sorted (· ≤ ·) := by
  unfold normalizeLockPaths
  split
  · exact List.sorted_nil
  · exact List.sorted_insertionSort _ _

theorem normalize_congr (wd : Option Path) (paths paths1 : List Path)
    (h : ∀ k, (∃ p ∈ paths1, canonicalPath wd p = k) ↔ ∃ p ∈ paths, canonicalPath wd p = k) :
    normalizeLockPaths wd paths1 = normalizeLockPaths wd paths := by
  apply List.eq_of_perm_of_sorted (r := (· ≤ ·)) _ (sorted_normalize wd paths1)
    (sorted_normalize wd paths)
  rw [List.perm_ext_iff_of_nodup (nodup_normalize wd paths1) (nodup_normalize wd paths)]
  intro k
  rw [mem_normalize, mem_normalize]
  exact h k

/-- C26: for a non-empty list of absolute paths `normalizeLockPaths` returns a strictly
ascending list whose elements are exactly the lexically cleaned inputs; a list with
the same elements, in any order and with any repetitions, gives the same result, so
`lock(a, b)` and `lock(b, a)` request the same key list. For the empty list the result
is empty, and the lock call returns at once and changes no state. -/
theorem C26_normalize_sorted_set (wd : Option Path) (paths : List Path)
    (hne : paths ≠ []) (habs : ∀ p ∈ paths, IsAbs p = true) :
    (normalizeLockPaths wd paths).Sorted (· < ·) ∧
    (∀ k, k ∈ normalizeLockPaths wd paths ↔ ∃ p ∈ paths, Clean p = k) ∧
    normalizeLockPaths wd paths ≠ [] ∧
    (∀ paths1 : List Path, (∀ p, p ∈ paths1 ↔ p ∈ paths) →
      normalizeLockPaths wd paths1 = normalizeLockPaths wd paths) ∧
    (∀ a b : Path, normalizeLockPaths wd [a, b] = normalizeLockPaths wd [b, a]) ∧
    normalizeLockPaths wd [] = [] ∧
    (∀ (pl : PathLocker) (mode : LockMode), pl.lock wd mode [] = .noop) ∧
    (∀ (c : Coord) (mode : LockMode), c.request wd mode [] = c) := by
  have hmem : ∀ k, k ∈ normalizeLockPaths wd paths ↔ ∃ p ∈ paths, Clean p = k := by
    intro k
    rw [mem_normalize]
    constructor
    · rintro ⟨p, hp, hk⟩
      exact ⟨p, hp, by rw [← canonicalPath_abs wd p (habs p hp)]; exact hk⟩
    · rintro ⟨p, hp, hk⟩
      exact ⟨p, hp, by rw [canonicalPath_abs wd p (habs p hp)]; exact hk⟩
  refine ⟨(sorted_normalize wd paths).lt_of_le (nodup_normalize wd paths), hmem, ?_, ?_, ?_,
    rfl, fun _ _ => rfl, fun _ _ => rfl⟩
  · obtain ⟨p, hp⟩ := List.exists_mem_of_ne_nil paths hne
    intro hnil
    have := (hmem (Clean p)).2 ⟨p, hp, rfl⟩
    rw [hnil] at this
    exact List.not_mem_nil _ this
  · intro paths1 h
    apply normalize_congr
    intro k
    constructor
    · rintro ⟨p, hp, hk⟩; exact ⟨p, (h p).1 hp, hk⟩
    · rintro ⟨p, hp, hk⟩; exact ⟨p, (h p).2 hp, hk⟩
  · intro a b
    apply normalize_congr
    intro k
    constructor
    · rintro ⟨p, hp, hk⟩; exact ⟨p, by simpa [or_comm] using hp, hk⟩
    · rintro ⟨p, hp, hk⟩; exact ⟨p, by simpa [or_comm] using hp, hk⟩

/-- C26, instance: three spellings of two paths, given out of order. -/
theorem C26_normalize_sorted_set_witness :
    ["/x/b".toList, "/x/a/../a".toList, "/x/b/".toList] ≠ [] ∧
    (∀ p ∈ ["/x/b".toList, "/x/a/../a".toList, "/x/b/".toList], IsAbs p = true) ∧
    normalizeLockPaths none ["/x/b".toList, "/x/a/../a".toList, "/x/b/".toList] =
      ["/x/a".toList, "/x/b".toList] ∧
    (normalizeLockPaths none ["/x/b".toList, "/x/a/../a".toList, "/x/b/".toList]).Sorted
      (· < ·) :=
  ⟨by decide, by decide, by decide,
    (C26_normalize_sorted_set none ["/x/b".toList, "/x/a/../a".toList, "/x/b/".toList]
      (by decide) (by decide)).1⟩

/-! ## Re-resolving a sandbox result -/

theorem stripCommon_append (bs xs : List Path) : stripCommon bs (bs ++ xs) = ([], xs) := by
  induction bs with
  | nil => cases xs <;> simp [stripCommon]
  | cons b bs ih => simp [stripCommon, ih]

/-- The relative path from a canonical base to a path below it: the elements that
follow the base, or `.` when there are none. -/
theorem Rel_within (bs xs : List Path) (hb : ∀ e ∈ bs, Proper e) (hx : ∀ e ∈ xs, Proper e) :
    Rel (absPath bs) (absPath (bs ++ xs)) =
      some (if xs = [] then ['.'] else ['/'].intercalate xs) := by
  have ht : ∀ e ∈ bs ++ xs, Proper e := by
    intro e he
    rcases List.mem_append.1 he with h | h
    · exact hb e h
    · exact hx e h
  unfold Rel
  simp only [Clean_absPath bs hb, Clean_absPath _ ht]
  by_cases hxs : xs = []
  · subst hxs; simp
  · have heq : absPath (bs ++ xs) ≠ absPath bs := by
      intro h
      have := absPath_inj bs (bs ++ xs) hb ht h
      exact hxs (by simpa using this)
    simp only [heq, if_false, hxs]
    have hdot : absPath bs ≠ ['.'] := by simp [absPath]
    simp only [hdot, if_false]
    have hsl : ¬ ((absPath bs).head? = some '/') ≠ ((absPath (bs ++ xs)).head? = some '/') := by
      simp [absPath]
    simp only [hsl, if_false]
    obtain ⟨w, hw, hw2⟩ := relLoop_absPath bs (bs ++ xs) hb ht
    rw [hw]
    simp only [hw2, if_false, stripCommon_append]
    simp [List.intercalate]

theorem trimPrefix_inter (xs : List Path) (hx : ∀ e ∈ xs, Proper e) :
    TrimPrefix (['/'].intercalate xs) ['/'] = ['/'].intercalate xs := by
  cases xs with
  | nil => simp [List.intercalate, TrimPrefix, HasPrefix, List.isPrefixOf]
  | cons e es =>
    have he := hx e (by simp)
    rw [inter_cons]
    cases e with
    | nil => exact absurd rfl he.1
    | cons a e1 =>
      have ha : a ≠ '/' := fun h => he.2.1 (by simp [h])
      simp [TrimPrefix, HasPrefix, List.isPrefixOf, Ne.symm ha]

/-- Resolving the relative path of a path below a canonical root gives the path back,
provided trimming leaves the relative path alone. -/
theorem resolve_rel (bs xs : List Path) (hb : ∀ e ∈ bs, Proper e) (hx : ∀ e ∈ xs, Proper e)
    (htrim : TrimSpace (if xs = [] then ['.'] else ['/'].intercalate xs) =
      if xs = [] then ['.'] else ['/'].intercalate xs) :
    ResolveWithinRoot (absPath bs) (if xs = [] then ['.'] else ['/'].intercalate xs) =
      some (absPath (bs ++ xs)) := by
  rw [resolve_eq bs hb, htrim]
  by_cases hxs : xs = []
  · subst hxs
    have h1 : TrimPrefix ['.'] ['/'] = ['.'] := by decide
    have h2 : (['.'] : Path).splitOn '/' = [['.']] := by decide
    simp [h1, h2, popStep]
  · simp only [hxs, if_false]
    rw [trimPrefix_inter xs hx, splitOn_inter xs hx bs]
    simp

theorem resolve_below (bs : List Path) (hb : ∀ e ∈ bs, Proper e) (input c : Path)
    (h : ResolveWithinRoot (absPath bs) input = some c) :
    ∃ xs, (∀ e ∈ xs, Proper e) ∧ c = absPath (bs ++ xs) := by
  rw [resolve_eq bs hb] at h
  split at h
  · rename_i hpre
    simp only [Option.some.injEq] at h
    obtain ⟨xs, hxs⟩ := hpre
    have hp := (candidate_eq bs hb (TrimPrefix (TrimSpace input) ['/'])).2
    rw [← hxs] at hp h
    exact ⟨xs, fun e he => hp e (List.mem_append_right _ he), h.symm⟩
  · exact Option.noConfusion h

/-- C28 (as amended): under a clean absolute root a result `c` of `ResolveWithinRoot`
has a relative path from the root, and when that relative path neither begins nor ends
with white space, resolving it gives `c` again; the lock key `canonicalPath c` is `c`. -/
theorem C28_resolve_is_fixed_point (wd : Option Path) (root input c : Path)
    (hroot : IsCanonical root) (h : ResolveWithinRoot root input = some c) :
    (∃ rel, Rel root c = some rel ∧
      (TrimSpace rel = rel → ResolveWithinRoot root rel = some c)) ∧
    canonicalPath wd c = c := by
  obtain ⟨bs, hb, rfl⟩ := (canonical_iff root).1 hroot
  obtain ⟨xs, hx, rfl⟩ := resolve_below bs hb input c h
  have ht : ∀ e ∈ bs ++ xs, Proper e := by
    intro e he
    rcases List.mem_append.1 he with h1 | h1
    · exact hb e h1
    · exact hx e h1
  refine ⟨⟨_, Rel_within bs xs hb hx, fun htrim => resolve_rel bs xs hb hx htrim⟩, ?_⟩
  exact canonicalPath_of_canonical wd _ ((canonical_iff _).2 ⟨_, ht, rfl⟩)

/-- C28, instance: `docs/../src/main.go` under the root of the test table. -/
theorem C28_resolve_is_fixed_point_witness :
    IsCanonical "/workspace/user1".toList ∧
    ResolveWithinRoot "/workspace/user1".toList "docs/../src/main.go".toList =
      some "/workspace/user1/src/main.go".toList ∧
    Rel "/workspace/user1".toList "/workspace/user1/src/main.go".toList =
      some "src/main.go".toList ∧
    ResolveWithinRoot "/workspace/user1".toList "src/main.go".toList =
      some "/workspace/user1/src/main.go".toList ∧
    canonicalPath none "/workspace/user1/src/main.go".toList =
      "/workspace/user1/src/main.go".toList :=
  ⟨by decide, by decide, by decide, by decide,
    (C28_resolve_is_fixed_point none "/workspace/user1".toList "docs/../src/main.go".toList
      "/workspace/user1/src/main.go".toList (by decide) (by decide)).2⟩

/-- C28, as stated, fails: the input `./ x` resolves to the name ` x` (with a leading
blank) under the root; its relative path is ` x`, and resolving that gives `x`. -/
theorem C28_space_led_name_is_moved :
    IsCanonical "/workspace/user1".toList ∧
    ResolveWithinRoot "/workspace/user1".toList "./ x".toList =
      some "/workspace/user1/ x".toList ∧
    Rel "/workspace/user1".toList "/workspace/user1/ x".toList = some " x".toList ∧
    ResolveWithinRoot "/workspace/user1".toList " x".toList =
      some "/workspace/user1/x".toList ∧
    "/workspace/user1/x".toList ≠ "/workspace/user1/ x".toList := by
  decide

/-! ## The destination of a rename by name -/

theorem Dir_absPath (es : List Path) (h : ∀ e ∈ es, Proper e) :
    Dir (absPath es) = absPath es.dropLast := by
  rcases List.eq_nil_or_concat es with rfl | ⟨init, e, rfl⟩
  · decide
  · rw [List.concat_eq_append] at h ⊢
    have he := h e (by simp)
    have hinit : ∀ x ∈ init, Proper x := fun x hx => h x (List.mem_append_left _ hx)
    rw [List.dropLast_concat, absPath_snoc]
    unfold Dir
    by_cases hi : init = []
    · subst hi
      simp only [if_true, List.reverse_append]
      have := (takeWhile_elem e.reverse (['/'] : Path).reverse (by simpa using he.2.1)
        (Or.inr ⟨[], rfl⟩)).2
      rw [this]
      decide
    · simp only [hi, if_false]
      rw [List.reverse_append]
      have := (takeWhile_elem e.reverse (absPath init ++ ['/']).reverse
        (by simpa using he.2.1) (Or.inr ⟨(absPath init).reverse, by simp⟩)).2
      rw [this, List.reverse_reverse]
      have e1 : absPath init ++ ['/'] = '/' :: (['/'].intercalate init ++ '/' :: []) := by
        simp [absPath]
      rw [e1, Clean_rooted, fold_split_join init hinit [] []]
      simp [List.splitOn, List.splitOnP, List.splitOnP.go, popStep]

theorem Base_absPath_snoc (ps : List Path) (n : Path) (hn : n ≠ []) (hs : '/' ∉ n) :
    Base (absPath (ps ++ [n])) = n := by
  rw [absPath_snoc]
  have hpre : ∃ q : Path, (if ps = [] then ['/'] else absPath ps ++ ['/']) = q ++ ['/'] := by
    by_cases hp : ps = []
    · exact ⟨[], by simp [hp]⟩
    · exact ⟨absPath ps, by simp [hp]⟩
  obtain ⟨q, hq⟩ := hpre
  rw [hq]
  have hne : q ++ ['/'] ++ n ≠ [] := by simp
  have hrev : (q ++ ['/'] ++ n).reverse = n.reverse ++ '/' :: q.reverse := by simp
  have hdrop : (n.reverse ++ '/' :: q.reverse).dropWhile (· = '/') =
      n.reverse ++ '/' :: q.reverse := by
    cases hr : n.reverse with
    | nil => exact absurd (List.reverse_eq_nil_iff.1 hr) hn
    | cons a r =>
      have ha : a ≠ '/' := by
        intro h
        apply hs
        have : a ∈ n.reverse := by rw [hr]; simp
        rw [h] at this
        simpa using this
      simp [List.dropWhile, ha]
  have htake := (takeWhile_elem n.reverse ('/' :: q.reverse) (by simpa using hs)
    (Or.inr ⟨_, rfl⟩)).1
  unfold Base
  simp only [hne, if_false, hrev, hdrop, htake, List.reverse_reverse,
    List.reverse_eq_nil_iff, hn]

theorem splitOn_name (n : Path) (hs : '/' ∉ n) : n.splitOn '/' = [n] := by
  have h := takeWhile_elem n [] hs (Or.inl rfl)
  simp only [List.append_nil] at h
  rw [splitOn_eq, h.1, h.2]

theorem join_name (ps : List Path) (hps : ∀ e ∈ ps, Proper e) (n : Path) (hn : Proper n) :
    Join [absPath ps, n] = absPath (ps ++ [n]) := by
  rw [join_eq ps hps, splitOn_name n hn.2.1]
  simp [popStep_proper ps n hn]

theorem dropWhile_space_head (s : Path) (h : ∀ c, s.head? = some c → isSpace c = false) :
    s.dropWhile isSpace = s := by
  cases s with
  | nil => rfl
  | cons a r => simp [List.dropWhile, h a rfl]

theorem trimSpace_id (s : Path) (h1 : ∀ c, s.head? = some c → isSpace c = false)
    (h2 : ∀ c, s.getLast? = some c → isSpace c = false) : TrimSpace s = s := by
  unfold TrimSpace
  rw [dropWhile_space_head s h1, dropWhile_space_head s.reverse, List.reverse_reverse]
  intro c hc
  rw [List.head?_reverse] at hc
  exact h2 c hc

theorem head_dropWhile_space (s : Path) :
    ∀ c, (s.dropWhile isSpace).head? = some c → isSpace c = false := by
  intro c hc
  have := List.head?_dropWhile_not isSpace s
  rw [hc] at this
  exact this

theorem trimSpace_ends (x : Path) :
    (∀ c, (TrimSpace x).head? = some c → isSpace c = false) ∧
    (∀ c, (TrimSpace x).getLast? = some c → isSpace c = false) := by
  unfold TrimSpace
  constructor
  · intro c hc
    have hsplit := List.takeWhile_append_dropWhile isSpace (x.dropWhile isSpace).reverse
    have hy : x.dropWhile isSpace =
        ((x.dropWhile isSpace).reverse.dropWhile isSpace).reverse ++
          ((x.dropWhile isSpace).reverse.takeWhile isSpace).reverse := by
      rw [← List.reverse_append, hsplit, List.reverse_reverse]
    have hne : ((x.dropWhile isSpace).reverse.dropWhile isSpace).reverse ≠ [] := by
      intro h; rw [h] at hc; simp at hc
    apply head_dropWhile_space x c
    rw [hy, List.head?_append_of_ne_nil _ hne]
    exact hc
  · intro c hc
    rw [List.getLast?_reverse] at hc
    exact head_dropWhile_space _ c hc

theorem inter_head (e : Path) (es : List Path) (he : e ≠ []) :
    (['/'].intercalate (e :: es)).head? = e.head? := by
  rw [inter_cons, List.head?_append_of_ne_nil _ he]

theorem inter_getLast (es : List Path) (n : Path) (hn : n ≠ []) :
    (['/'].intercalate (es ++ [n])).getLast? = n.getLast? := by
  rw [inter_snoc]
  split
  · rfl
  · rw [List.getLast?_append_of_ne_nil _ (by simp)]
    cases n with
    | nil => exact absurd rfl hn
    | cons a r => exact List.getLast?_cons_cons

theorem stripCommon_common (cs b t : List Path) :
    stripCommon (cs ++ b) (cs ++ t) = stripCommon b t := by
  induction cs with
  | nil => rfl
  | cons c cs ih => simp [stripCommon, ih]

/-- The relative path between two different children of one directory. -/
theorem Rel_sibling (cs : List Path) (l n : Path) (hcs : ∀ e ∈ cs, Proper e)
    (hl : Proper l) (hn : Proper n) (hne : l ≠ n) :
    Rel (absPath (cs ++ [l])) (absPath (cs ++ [n])) = some ('.' :: '.' :: '/' :: n) := by
  have hb : ∀ e ∈ cs ++ [l], Proper e := by
    intro e he
    rcases List.mem_append.1 he with h | h
    · exact hcs e h
    · rw [List.mem_singleton.1 h]; exact hl
  have ht : ∀ e ∈ cs ++ [n], Proper e := by
    intro e he
    rcases List.mem_append.1 he with h | h
    · exact hcs e h
    · rw [List.mem_singleton.1 h]; exact hn
  unfold Rel
  simp only [Clean_absPath _ hb, Clean_absPath _ ht]
  have heq : absPath (cs ++ [n]) ≠ absPath (cs ++ [l]) := by
    intro h
    have := absPath_inj _ _ hb ht h
    exact hne (by simpa using this.symm)
  simp only [heq, if_false]
  have hdot : absPath (cs ++ [l]) ≠ ['.'] := by simp [absPath]
  simp only [hdot, if_false]
  have hsl : ¬ ((absPath (cs ++ [l])).head? = some '/') ≠
      ((absPath (cs ++ [n])).head? = some '/') := by
    simp [absPath]
  simp only [hsl, if_false]
  obtain ⟨w, hw, hw2⟩ := relLoop_absPath _ _ hb ht
  rw [hw]
  have hs : stripCommon [l] [n] = ([l], [n]) := by simp [stripCommon, hne]
  have hcount : countSep l = 0 := by
    unfold countSep
    exact List.count_eq_zero.2 hl.2.1
  simp only [hw2, if_false, stripCommon_common, hs]
  simp [List.intercalate, hl.1, hn.1, hcount]

theorem resolve_sibling (cs : List Path) (l n : Path) (hcs : ∀ e ∈ cs, Proper e)
    (hl : Proper l) (hn : Proper n) (hne : l ≠ n)
    (hlast : ∀ c, n.getLast? = some c → isSpace c = false) :
    ResolveWithinRoot (absPath (cs ++ [l])) ('.' :: '.' :: '/' :: n) = none := by
  have hb : ∀ e ∈ cs ++ [l], Proper e := by
    intro e he
    rcases List.mem_append.1 he with h | h
    · exact hcs e h
    · rw [List.mem_singleton.1 h]; exact hl
  have htrim : TrimSpace ('.' :: '.' :: '/' :: n) = '.' :: '.' :: '/' :: n := by
    apply trimSpace_id
    · intro c hc
      simp only [List.head?_cons, Option.some.injEq] at hc
      rw [← hc]; decide
    · intro c hc
      cases n with
      | nil => exact absurd rfl hn.1
      | cons a r =>
        rw [List.getLast?_cons_cons, List.getLast?_cons_cons, List.getLast?_cons_cons] at hc
        exact hlast c hc
  have hpre : TrimPrefix ('.' :: '.' :: '/' :: n) ['/'] = '.' :: '.' :: '/' :: n := by
    simp [TrimPrefix, HasPrefix, List.isPrefixOf]
  have hfold : (('.' :: '.' :: '/' :: n).splitOn '/').foldl popStep (cs ++ [l]) = cs ++ [n] := by
    have := fold_split_elem ['.', '.'] ('/' :: n) (by simp) (Or.inr ⟨n, rfl⟩) (cs ++ [l])
    simp only [List.cons_append, List.nil_append] at this
    rw [this, splitOn_sep_cons, splitOn_name n hn.2.1]
    simp [popStep_dotdot, popStep_skip_nil, popStep_proper _ n hn]
  rw [resolve_eq _ hb, htrim, hpre, hfold]
  have hnot : ¬ cs ++ [l] <+: cs ++ [n] := by
    rw [List.prefix_append_right_inj]
    intro h
    have := List.cons_prefix_cons.1 h
    exact hne this.1
  simp [hnot]

/-- The destination the rename handler derives from a new name, under a canonical root
`bs`, for the resolved source `ts`: the joined path is the source's parent followed by
the name, its relative path exists, and re-resolving that gives the joined path back
exactly when it lies inside the root. -/
theorem rename_target (bs ts : List Path) (n : Path) (hb : ∀ e ∈ bs, Proper e)
    (ht : ∀ e ∈ ts, Proper e) (hpre : bs <+: ts) (hn : Proper n)
    (hfirst : ∀ c, n.head? = some c → isSpace c = false)
    (hlast : ∀ c, n.getLast? = some c → isSpace c = false)
    (hws : ∀ rel c, Rel (absPath bs) (Dir (absPath ts)) = some rel → rel.head? = some c →
      isSpace c = false) :
    Join [Dir (absPath ts), n] = absPath (ts.dropLast ++ [n]) ∧
    ∃ rel, Rel (absPath bs) (absPath (ts.dropLast ++ [n])) = some rel ∧
      ResolveWithinRoot (absPath bs) rel =
        if bs <+: ts.dropLast ++ [n] then some (absPath (ts.dropLast ++ [n])) else none := by
  have hdl : ∀ e ∈ ts.dropLast, Proper e := fun e he => ht e (List.mem_of_mem_dropLast he)
  refine ⟨by rw [Dir_absPath ts ht, join_name _ hdl n hn], ?_⟩
  by_cases hin : bs <+: ts.dropLast ++ [n]
  · obtain ⟨ys, hys⟩ := hin
    have hy : ∀ e ∈ ys, Proper e := by
      intro e he
      have : e ∈ ts.dropLast ++ [n] := by rw [← hys]; exact List.mem_append_right _ he
      rcases List.mem_append.1 this with h | h
      · exact hdl e h
      · rw [List.mem_singleton.1 h]; exact hn
    rw [← hys]
    refine ⟨_, Rel_within bs ys hb hy, ?_⟩
    have htrim : TrimSpace (if ys = [] then ['.'] else ['/'].intercalate ys) =
        if ys = [] then ['.'] else ['/'].intercalate ys := by
      by_cases hys0 : ys = []
      · simp only [hys0, if_true]; decide
      · simp only [hys0, if_false]
        rcases List.eq_nil_or_concat ys with h0 | ⟨ys1, m, hm⟩
        · exact absurd h0 hys0
        · rw [List.concat_eq_append] at hm
          subst hm
          rw [← List.append_assoc] at hys
          obtain ⟨h1, h2⟩ := List.append_inj' hys rfl
          have hmn : m = n := by simpa using h2
          subst hmn
          apply trimSpace_id
          · intro c hc
            cases ys1 with
            | nil =>
              rw [List.nil_append, inter_head m [] hn.1] at hc
              exact hfirst c hc
            | cons e es =>
              have he : Proper e := hy e (by simp)
              have hes : ∀ x ∈ e :: es, Proper x := fun x hx =>
                hy x (List.mem_append_left _ hx)
              rw [List.cons_append, inter_head e _ he.1] at hc
              apply hws (['/'].intercalate (e :: es)) c
              · rw [Dir_absPath ts ht, ← h1, Rel_within bs (e :: es) hb hes]
                simp
              · rw [inter_head e es he.1]; exact hc
          · intro c hc
            rw [inter_getLast ys1 m hn.1] at hc
            exact hlast c hc
    rw [resolve_rel bs ys hb hy htrim]
    simp
  · obtain ⟨xs, hxs⟩ := hpre
    have hx0 : xs = [] := by
      by_contra hx
      apply hin
      rw [← hxs, List.dropLast_append_of_ne_nil _ hx, List.append_assoc]
      exact List.prefix_append _ _
    subst hx0
    rw [List.append_nil] at hxs
    subst hxs
    rcases List.eq_nil_or_concat bs with h0 | ⟨cs, l, hl⟩
    · exact absurd (h0 ▸ List.nil_prefix) hin
    · rw [List.concat_eq_append] at hl
      subst hl
      rw [List.dropLast_concat] at hin ⊢
      have hcs : ∀ e ∈ cs, Proper e := fun e he => hb e (List.mem_append_left _ he)
      have hlp : Proper l := hb l (by simp)
      have hne : l ≠ n := by
        intro h
        apply hin
        rw [h]
      refine ⟨_, Rel_sibling cs l n hcs hlp hn hne, ?_⟩
      rw [resolve_sibling cs l n hcs hlp hn hne hlast]
      simp [hin]

/-- C24 (as amended): a rename request that supplies `newName` (`newPath` blank), whose
trimmed name passes validation and is neither `.` nor `..`, and whose source has a
parent directory that, relative to the user root, does not begin with white space. The
handler answers `PATH_TRAVERSAL` exactly when the source's parent joined with the name
lies outside the user root; otherwise it locks the source and a destination that is
this joined path: its parent is the source's parent, its last element is the trimmed
name, and it lies inside the user root. -/
theorem C24_rename_by_name_destination (wd : Option Path) (os : FsOracle)
    (workspaceBase userID resolved : Path) (req : RenameRequest) (pl : PathLocker)
    (hroot : IsCanonical (handlerRoot workspaceBase userID))
    (hp : ResolveWithinRoot (handlerRoot workspaceBase userID) req.path = some resolved)
    (hnp : TrimSpace req.newPath = [])
    (hname : TrimSpace req.newName ≠ [] ∧ '/' ∉ TrimSpace req.newName ∧
      '\\' ∉ TrimSpace req.newName)
    (hdots : TrimSpace req.newName ≠ ['.'] ∧ TrimSpace req.newName ≠ ['.', '.'])
    (hws : ∀ rel c, Rel (handlerRoot workspaceBase userID) (Dir resolved) = some rel →
      rel.head? = some c → isSpace c = false)
    (run : Run) (hrun : Rename wd os workspaceBase userID (some req) pl = some run) :
    (run.reply = .pathTraversal ↔
      ¬ Within (Join [Dir resolved, TrimSpace req.newName])
        (handlerRoot workspaceBase userID)) ∧
    (run.reply ≠ .pathTraversal →
      ∃ d, run.lock = some (.subtree, [resolved, d]) ∧
        d = Join [Dir resolved, TrimSpace req.newName] ∧
        Dir d = Dir resolved ∧ Base d = TrimSpace req.newName ∧
        Within d (handlerRoot workspaceBase userID)) := by
  have hroot1 : handlerRoot workspaceBase userID = Join [workspaceBase, userID] := rfl
  obtain ⟨bs, hb, hbs⟩ := (canonical_iff _).1 hroot
  rw [hbs] at hp hws ⊢
  rw [hroot1] at hbs
  obtain ⟨xs, hx, rfl⟩ := resolve_below bs hb req.path resolved hp
  have ht : ∀ e ∈ bs ++ xs, Proper e := by
    intro e he
    rcases List.mem_append.1 he with h | h
    · exact hb e h
    · exact hx e h
  have hn : Proper (TrimSpace req.newName) := ⟨hname.1, hname.2.1, hdots.1, hdots.2⟩
  obtain ⟨hfirst, hlast⟩ := trimSpace_ends req.newName
  obtain ⟨hjoin, rel, hrel, hres⟩ := rename_target bs (bs ++ xs) _ hb ht
    (List.prefix_append _ _) hn hfirst hlast hws
  have hdl : ∀ e ∈ (bs ++ xs).dropLast, Proper e :=
    fun e he => ht e (List.mem_of_mem_dropLast he)
  have hd : ∀ e ∈ (bs ++ xs).dropLast ++ [TrimSpace req.newName], Proper e := by
    intro e he
    rcases List.mem_append.1 he with h | h
    · exact hdl e h
    · rw [List.mem_singleton.1 h]; exact hn
  have hwithin : Within (absPath ((bs ++ xs).dropLast ++ [TrimSpace req.newName]))
      (absPath bs) ↔ bs <+: (bs ++ xs).dropLast ++ [TrimSpace req.newName] := by
    unfold Within
    rw [components_absPath bs hb, components_absPath _ hd]
  have hc : ¬ (TrimSpace req.newName = [] ∨ Contains (TrimSpace req.newName) ['/'] = true ∨
      Contains (TrimSpace req.newName) ['\\'] = true) := by
    simp only [contains_singleton]
    exact not_or.2 ⟨hname.1, not_or.2 ⟨hname.2.1, hname.2.2⟩⟩
  simp only [Rename, hbs, hp, hnp, ne_eq, not_true_eq_false, if_false, hc, hjoin, hrel,
    hres] at hrun
  rw [hjoin, hwithin]
  by_cases hin : bs <+: (bs ++ xs).dropLast ++ [TrimSpace req.newName]
  · simp only [hin, if_true] at hrun
    obtain ⟨h1, h2, -⟩ := withLock_reply _ _ _ _ _ _ hrun
    have hnot : run.reply ≠ .pathTraversal := by
      rw [h1]; exact (renameBody_accepts os _ _).2
    refine ⟨⟨fun h => absurd h hnot, fun h => absurd hin h⟩, fun _ => ?_⟩
    refine ⟨_, h2, rfl, ?_, Base_absPath_snoc _ _ hn.1 hn.2.1, hwithin.2 hin⟩
    rw [Dir_absPath _ hd, List.dropLast_concat, Dir_absPath _ ht]
  · simp only [hin, if_false, Option.some.injEq] at hrun
    have hr : run.reply = .pathTraversal := by rw [← hrun]
    exact ⟨⟨fun _ => hin, fun _ => hr⟩, fun h => absurd hr h⟩

theorem sampleRename_parent (rel : Path) (c : Char)
    (h1 : Rel (handlerRoot "/ws".toList "user00000001".toList)
      (Dir "/ws/user00000001/docs/a.txt".toList) = some rel)
    (h2 : rel.head? = some c) : isSpace c = false := by
  have h : Rel (handlerRoot "/ws".toList "user00000001".toList)
      (Dir "/ws/user00000001/docs/a.txt".toList) = some "docs".toList := by decide
  rw [h] at h1
  cases h1
  have hc : c = 'd' := by simpa using h2.symm
  subst hc
  decide

/-- C24, instance: `docs/a.txt` renamed to ` b.txt ` (blanks around the name). -/
theorem C24_rename_by_name_destination_witness :
    IsCanonical (handlerRoot "/ws".toList "user00000001".toList) ∧
    ResolveWithinRoot (handlerRoot "/ws".toList "user00000001".toList) "docs/a.txt".toList =
      some "/ws/user00000001/docs/a.txt".toList ∧
    TrimSpace " b.txt ".toList = "b.txt".toList ∧
    Rename none okOracle "/ws".toList "user00000001".toList
        (some ⟨"docs/a.txt".toList, " b.txt ".toList, []⟩) NewPathLocker =
      some ⟨.ok,
        some (.subtree, ["/ws/user00000001/docs/a.txt".toList,
          "/ws/user00000001/docs/b.txt".toList]),
        [.mkdirAll "/ws/user00000001/docs".toList,
          .rename "/ws/user00000001/docs/a.txt".toList "/ws/user00000001/docs/b.txt".toList],
        NewPathLocker⟩ ∧
    Dir "/ws/user00000001/docs/b.txt".toList = Dir "/ws/user00000001/docs/a.txt".toList ∧
    Base "/ws/user00000001/docs/b.txt".toList = "b.txt".toList ∧
    (∃ d, some (LockMode.subtree, ["/ws/user00000001/docs/a.txt".toList,
          "/ws/user00000001/docs/b.txt".toList]) =
        some (LockMode.subtree, ["/ws/user00000001/docs/a.txt".toList, d]) ∧
      d = Join [Dir "/ws/user00000001/docs/a.txt".toList, TrimSpace " b.txt ".toList] ∧
      Dir d = Dir "/ws/user00000001/docs/a.txt".toList ∧
      Base d = TrimSpace " b.txt ".toList ∧
      Within d (handlerRoot "/ws".toList "user00000001".toList)) :=
  ⟨by decide, by decide, by decide, by decide, by decide, by decide,
    (C24_rename_by_name_destination none okOracle "/ws".toList "user00000001".toList
      "/ws/user00000001/docs/a.txt".toList ⟨"docs/a.txt".toList, " b.txt ".toList, []⟩
      NewPathLocker (by decide) (by decide) (by decide) (by decide) (by decide)
      sampleRename_parent
      ⟨.ok,
        some (.subtree, ["/ws/user00000001/docs/a.txt".toList,
          "/ws/user00000001/docs/b.txt".toList]),
        [.mkdirAll "/ws/user00000001/docs".toList,
          .rename "/ws/user00000001/docs/a.txt".toList "/ws/user00000001/docs/b.txt".toList],
        NewPathLocker⟩ (by decide)).2 (by decide)⟩

/-- C24, as stated, fails. The name `..` passes validation and the sandbox, and the
destination of `a/b/c` is then `a`: not a child of the source's parent `a/b`, and not
named `..`. And for the source ` d/f` (a directory name with a leading blank) and the
name `g` the destination is `d/g`, in another directory than the source. -/
theorem C24_dotdot_name_leaves_parent :
    Rename none okOracle "/ws".toList "user00000001".toList
        (some ⟨"a/b/c".toList, "..".toList, []⟩) NewPathLocker =
      some ⟨.ok,
        some (.subtree, ["/ws/user00000001/a/b/c".toList, "/ws/user00000001/a".toList]),
        [.mkdirAll "/ws/user00000001".toList,
          .rename "/ws/user00000001/a/b/c".toList "/ws/user00000001/a".toList],
        NewPathLocker⟩ ∧
    Dir "/ws/user00000001/a/b/c".toList = "/ws/user00000001/a/b".toList ∧
    Dir "/ws/user00000001/a".toList = "/ws/user00000001".toList ∧
    Base "/ws/user00000001/a".toList = "a".toList ∧
    Rename none okOracle "/ws".toList "user00000001".toList
        (some ⟨"./ d/f".toList, "g".toList, []⟩) NewPathLocker =
      some ⟨.ok,
        some (.subtree, ["/ws/user00000001/ d/f".toList, "/ws/user00000001/d/g".toList]),
        [.mkdirAll "/ws/user00000001/d".toList,
          .rename "/ws/user00000001/ d/f".toList "/ws/user00000001/d/g".toList],
        NewPathLocker⟩ ∧
    Dir "/ws/user00000001/ d/f".toList = "/ws/user00000001/ d".toList ∧
    Dir "/ws/user00000001/d/g".toList = "/ws/user00000001/d".toList := by
  decide

end Protean
